import Mathlib

/-!
# Request parsing of EthernetWebServer (`src/Parsing-impl.h`)

A shallow embedding of the request parser (the `USE_NEW_WEBSERVER_VERSION`
variant): the URL decoder, the argument parser, the body reader, the
request-line and header parser and the multipart form decoder, followed by
theorems about them.  Of the other variant only the `char*` body reader is
embedded, under the name `Legacy.readBytesWithTimeout`, to compare the two
readers.

Conventions of the embedding.

* An Arduino `String` is the sequence of its `length()` characters
  (`Str = List Char`); a `char` is a `Char` whose code is the byte value.
  The operations of `String` are those of the character sequence; the
  terminating NUL of the C representation is not part of the model, which
  describes the program on texts that do not contain NUL, and on the output
  of `urlDecode`, to which `+=` appends any byte.
* `int` results that use `-1` as "not found" are `Int`.
* The transport (`EthernetClient`) is a record of the bytes already received
  and a schedule of the bytes that arrive while the program waits.
* Loops are structural recursions on a fuel argument.  For the string
  functions the fuel is fixed from the length of the text and is never used
  up; for the multipart decoder, whose loops need not end, the result is an
  `Option` and `none` means that the fuel did not suffice.
-/

set_option autoImplicit false
set_option maxRecDepth 1000000

namespace EthernetWebServer

/-! ## The Arduino `String` operations used by the parser -/

/-- A `String` of the program: its characters in order. -/
abbrev Str := List Char

/-- The NUL character. -/
def NUL : Char := Char.ofNat 0

/-- `String::charAt(i)`: the character at index `i`, NUL past the end. -/
def charAt (s : Str) (i : Nat) : Char := s.getD i NUL

/-- Position of the first `c` in `s`, if there is one (`strchr`). -/
def firstIndex (c : Char) : Str → Option Nat
  | [] => none
  | x :: xs => if x = c then some 0 else (firstIndex c xs).map (· + 1)

/-- `String::indexOf(ch, fromIndex)`: `-1` when `fromIndex` is not below the
length or `ch` does not occur at or after `fromIndex`, else the index of the
first occurrence at or after `fromIndex`. -/
def indexOfFrom (s : Str) (c : Char) (fromIndex : Nat) : Int :=
  if s.length ≤ fromIndex then -1
  else
    match firstIndex c (s.drop fromIndex) with
    | none => -1
    | some k => ((fromIndex + k : Nat) : Int)

/-- `String::indexOf(ch)`, which is `indexOf(ch, 0)`. -/
def indexOf (s : Str) (c : Char) : Int := indexOfFrom s c 0

/-- `String::substring(left, right)` with `right` given as the `int` the
caller passes.  The parameter is `unsigned`, so a negative `right` (the `-1`
of a failed `indexOf`, or `length() - 1` of an empty string) becomes a value
above every length: the substring then runs to the end.  Otherwise the two
indices are put in order, `right` is cut to the length, and the result is
the characters from `left` up to and excluding `right`. -/
def substring (s : Str) (left : Nat) (right : Int) : Str :=
  if right < 0 then s.drop left
  else (s.take (max left right.toNat)).drop (min left right.toNat)

/-- `String::substring(left)`: the characters from `left` to the end. -/
def substringFrom (s : Str) (left : Nat) : Str := s.drop left

/-! ## `urlDecode` -/

/-- Value of a hexadecimal digit, if `c` is one. -/
def hexDigit (c : Char) : Option Nat :=
  if '0' ≤ c ∧ c ≤ '9' then some (c.toNat - '0'.toNat)
  else if 'a' ≤ c ∧ c ≤ 'f' then some (c.toNat - 'a'.toNat + 10)
  else if 'A' ≤ c ∧ c ≤ 'F' then some (c.toNat - 'A'.toNat + 10)
  else none

/-- The call `strtol(temp, NULL, 16)` on `temp = "0x" c2 c3`: the C library
skips the `0x` and reads hexadecimal digits as far as they go, so the result
is `0` when `c2` is no digit, the value of `c2` when only `c3` is none, and
`16 * c2 + c3` otherwise. -/
def strtol16 (c2 c3 : Char) : Nat :=
  match hexDigit c2 with
  | none => 0
  | some h =>
    match hexDigit c3 with
    | none => h
    | some l => 16 * h + l

/-- The loop of `urlDecode`: `i` is the read index, `decoded` the output so
far.  Every round advances `i`, so `len` rounds of fuel are enough. -/
def urlDecodeLoop (text : Str) (len : Nat) : Nat → Nat → Str → Str
  | 0, _, decoded => decoded
  | fuel + 1, i, decoded =>
    if i < len then
      let encodedChar := charAt text i
      let i1 := i + 1
      if encodedChar = '%' ∧ i1 + 1 < len then
        let t2 := charAt text i1
        let t3 := charAt text (i1 + 1)
        urlDecodeLoop text len fuel (i1 + 2) (decoded ++ [Char.ofNat (strtol16 t2 t3 % 256)])
      else if encodedChar = '+' then
        urlDecodeLoop text len fuel i1 (decoded ++ [' '])
      else
        urlDecodeLoop text len fuel i1 (decoded ++ [encodedChar])
    else decoded

/-- `EthernetWebServer::urlDecode`. -/
def urlDecode (text : Str) : Str :=
  urlDecodeLoop text text.length text.length 0 []

/-! ## `_parseArguments` -/

/-- A `RequestArgument`: a decoded key and value. -/
structure RequestArgument where
  key : Str
  value : Str
  deriving DecidableEq, Repr

/-- The first loop of `_parseArguments`: starting from `count`, one more for
every `'&'` found from index `i` on. -/
def countArgsLoop (data : Str) : Nat → Nat → Nat → Nat
  | 0, _, count => count
  | fuel + 1, i, count =>
    if i < data.length then
      let j := indexOfFrom data '&' i
      if j = -1 then count
      else countArgsLoop data fuel (j.toNat + 1) (count + 1)
    else count

/-- The second loop of `_parseArguments`: `pos` is the start of the current
segment, `args` the arguments stored so far (`iarg` is their number) and
`argCount` the bound of the `for`. -/
def parseArgsLoop (data : Str) (argCount : Nat) :
    Nat → Nat → List RequestArgument → List RequestArgument
  | 0, _, args => args
  | fuel + 1, pos, args =>
    if args.length < argCount then
      let equal_sign_index := indexOfFrom data '=' pos
      let next_arg_index := indexOfFrom data '&' pos
      if equal_sign_index = -1 ∨ (equal_sign_index > next_arg_index ∧ next_arg_index ≠ -1) then
        if next_arg_index = -1 then args
        else parseArgsLoop data argCount fuel (next_arg_index.toNat + 1) args
      else
        let arg : RequestArgument :=
          { key := urlDecode (substring data pos equal_sign_index)
            value := urlDecode (substring data (equal_sign_index.toNat + 1) next_arg_index) }
        if next_arg_index = -1 then args ++ [arg]
        else parseArgsLoop data argCount fuel (next_arg_index.toNat + 1) (args ++ [arg])
    else args

/-- The argument list `_parseArguments(data)` leaves in `_currentArgs`
(its first `_currentArgCount` entries). -/
def parseArgumentList (data : Str) : List RequestArgument :=
  if data.length = 0 then []
  else
    parseArgsLoop data (countArgsLoop data data.length 0 1) (data.length + 1) 0 []

/-- Number of slots `_parseArguments(data)` allocates for `_currentArgs`:
`new RequestArgument[1]` for the empty string, else one more than the count
of the first loop. -/
def parseArgumentSlots (data : Str) : Nat :=
  if data.length = 0 then 1
  else countArgsLoop data data.length 0 1 + 1

/-! ## More `String` operations -/

/-- `isspace` of the C library. -/
def isSpace (c : Char) : Bool :=
  c = ' ' || c = '\t' || c = '\n' || c = Char.ofNat 11 || c = Char.ofNat 12 || c = '\r'

/-- `String::trim()`: leading and trailing white space removed. -/
def trim (s : Str) : Str :=
  ((s.dropWhile isSpace).reverse.dropWhile isSpace).reverse

/-- `tolower` of the C library on one character. -/
def toLower (c : Char) : Char :=
  if 'A' ≤ c ∧ c ≤ 'Z' then Char.ofNat (c.toNat + 32) else c

/-- `String::equalsIgnoreCase`: same length and same characters up to the
case of letters. -/
def equalsIgnoreCase (a b : Str) : Bool :=
  a.length == b.length && a.map toLower == b.map toLower

/-- `String::startsWith(s2)`. -/
def startsWith (s s2 : Str) : Bool := s2.isPrefixOf s

/-- `String::replace(find, "")` for the one-character `find` the parser
uses: every occurrence of the character is removed. -/
def removeChar (s : Str) (c : Char) : Str := s.filter (fun x => x != c)

/-- The digits at the head of `s`, read as a decimal number continuing `acc`. -/
def readDigits : Str → Nat → Nat
  | [], acc => acc
  | c :: cs, acc =>
    if '0' ≤ c ∧ c ≤ '9' then readDigits cs (10 * acc + (c.toNat - '0'.toNat)) else acc

/-- `String::toInt()` (`atol`): white space is skipped, a sign is read, then
decimal digits as far as they go; `0` when there is no digit. -/
def toInt (s : Str) : Int :=
  match s.dropWhile isSpace with
  | '-' :: cs => - (readDigits cs 0 : Int)
  | '+' :: cs => (readDigits cs 0 : Int)
  | cs => (readDigits cs 0 : Int)

/-! ## The transport -/

/-- The `EthernetClient` as the parser sees it.  `rx` holds the bytes that
have arrived and are not read yet.  `wire` is the schedule of what arrives
next: its `k`-th entry is the (possibly empty) chunk that arrives during the
`k`-th step in which the program waits (`delay(1)`, `yield()`, one poll of
`timedRead`).  When the schedule is used up nothing arrives any more, and
`stays` tells whether the peer is then still connected.  `timeout` is the
`Stream` timeout, counted in waiting steps. -/
structure EthernetClient where
  rx : Str
  wire : List Str
  stays : Bool
  timeout : Nat
  deriving DecidableEq, Repr

namespace EthernetClient

/-- All bytes the transport will ever deliver, in order. -/
def stream (c : EthernetClient) : Str := c.rx ++ c.wire.flatten

/-- `client.available()`. -/
def available (c : EthernetClient) : Nat := c.rx.length

/-- `client.connected()`: true while unread bytes are buffered or the peer
has not closed the connection. -/
def connected (c : EthernetClient) : Bool :=
  !c.rx.isEmpty || !c.wire.isEmpty || c.stays

/-- One waiting step: the next chunk of the schedule arrives. -/
def tick (c : EthernetClient) : EthernetClient :=
  match c.wire with
  | [] => c
  | chunk :: rest => { c with rx := c.rx ++ chunk, wire := rest }

/-- `client.read()`: the next buffered byte, or `-1` when none is buffered. -/
def read (c : EthernetClient) : Int × EthernetClient :=
  match c.rx with
  | [] => (-1, c)
  | b :: rest => ((b.toNat : Int), { c with rx := rest })

end EthernetClient

/-- The conversion `(char)c` / `(uint8_t)c` of an `int` read result. -/
def byteOfInt (r : Int) : Char := Char.ofNat (r % 256).toNat

/-- The polling of `Stream::timedRead()`: a read, and while it fails and
waiting steps remain, a waiting step and another read. -/
def timedReadLoop : Nat → EthernetClient → Int × EthernetClient
  | 0, c => c.read
  | n + 1, c =>
    if 0 ≤ c.read.1 then c.read else timedReadLoop n c.tick

/-- `Stream::timedRead()`: `-1` when no byte arrives within the timeout. -/
def timedRead (c : EthernetClient) : Int × EthernetClient :=
  timedReadLoop c.timeout c

/-- The loop of `Stream::readStringUntil(terminator)`. -/
def readStringUntilLoop (terminator : Char) : Nat → EthernetClient → Str → Str × EthernetClient
  | 0, c, ret => (ret, c)
  | fuel + 1, c, ret =>
    let r := timedRead c
    if 0 ≤ r.1 ∧ byteOfInt r.1 ≠ terminator then
      readStringUntilLoop terminator fuel r.2 (ret ++ [byteOfInt r.1])
    else (ret, r.2)

/-- `client.readStringUntil(terminator)`: the bytes up to the terminator,
which is consumed and left out, or up to a timeout.  Every round but the
last consumes a byte, so the fuel suffices. -/
def readStringUntil (c : EthernetClient) (terminator : Char) : Str × EthernetClient :=
  readStringUntilLoop terminator (c.stream.length + 1) c []

/-- The pair `line = client.readStringUntil('\r'); client.readStringUntil('\n');`
with which the parser reads a line. -/
def readLine (c : EthernetClient) : Str × EthernetClient :=
  let r := readStringUntil c '\r'
  (r.1, (readStringUntil r.2 '\n').2)

/-- The loop of `Stream::readBytes(buffer, length)`: the bytes stored, in
order; it stops early when `timedRead` times out. -/
def readBytesLoop : Nat → EthernetClient → Str → Str × EthernetClient
  | 0, c, got => (got, c)
  | n + 1, c, got =>
    let r := timedRead c
    if r.1 < 0 then (got, r.2) else readBytesLoop n r.2 (got ++ [byteOfInt r.1])

/-- `client.readBytes(buffer, length)`. -/
def readBytes (c : EthernetClient) (length : Nat) : Str × EthernetClient :=
  readBytesLoop length c []

/-! ## `readBytesWithTimeout` (the `String` variant) -/

/-- The wait `while (!(avail = client.available()) && tries--) delay(1);`:
the value of `avail` at its end and the client then. -/
def waitAvailable : Nat → EthernetClient → Nat × EthernetClient
  | 0, c => (c.available, c)
  | tries + 1, c =>
    if c.available ≠ 0 then (c.available, c) else waitAvailable tries c.tick

/-- The copy `while (avail--) data += (char)client.read();`. -/
def readChars : Nat → EthernetClient → Str → Str × EthernetClient
  | 0, c, data => (data, c)
  | avail + 1, c, data => readChars avail c.read.2 (data ++ [byteOfInt c.read.1])

/-- The outer loop of `readBytesWithTimeout`.  Every round that goes on
appends at least one byte, so `maxLength + 1` rounds of fuel are enough. -/
def readBytesWithTimeoutLoop (maxLength timeout_ms : Nat) :
    Nat → EthernetClient → Str → Str × EthernetClient
  | 0, c, data => (data, c)
  | fuel + 1, c, data =>
    if data.length < maxLength then
      let w := waitAvailable timeout_ms c
      if w.1 = 0 then (data, w.2)
      else
        let avail := if data.length + w.1 > maxLength then maxLength - data.length else w.1
        let r := readChars avail w.2 data
        readBytesWithTimeoutLoop maxLength timeout_ms fuel r.2 r.1
    else (data, c)

/-- `readBytesWithTimeout(client, maxLength, data, timeout_ms)`: the
returned flag, the final `data` and the client.  `reserveOk` is the result
of `data.reserve(maxLength + 1)`; `data[0] = 0` overwrites the first
character of a non-empty `data` and leaves the length as it is. -/
def readBytesWithTimeout (reserveOk : Bool) (c : EthernetClient) (maxLength : Nat)
    (data : Str) (timeout_ms : Nat) : Bool × Str × EthernetClient :=
  if !reserveOk then (false, data, c)
  else
    let data0 : Str := match data with
      | [] => []
      | _ :: t => NUL :: t
    let r := readBytesWithTimeoutLoop maxLength timeout_ms (maxLength + 1) c data0
    (r.1.length == maxLength, r.1, r.2)

/-! ## The server state -/

/-- The `HTTPMethod` enumeration. -/
inductive HTTPMethod where
  | HTTP_GET | HTTP_HEAD | HTTP_POST | HTTP_PUT | HTTP_PATCH | HTTP_DELETE | HTTP_OPTIONS
  deriving DecidableEq, Repr

/-- The `HTTPUploadStatus` enumeration. -/
inductive HTTPUploadStatus where
  | UPLOAD_FILE_START | UPLOAD_FILE_WRITE | UPLOAD_FILE_END | UPLOAD_FILE_ABORTED
  deriving DecidableEq, Repr

/-- The `ethernetHTTPUpload` record.  `buf` holds the bytes written into the
buffer since it was last restarted, so `buf[0 .. currentSize)`. -/
structure HTTPUpload where
  status : HTTPUploadStatus
  filename : Str
  name : Str
  type : Str
  totalSize : Nat
  currentSize : Nat
  buf : Str
  contentLength : Nat
  deriving DecidableEq, Repr

/-- A request handler of the registry, as far as the parser uses it. -/
structure RequestHandler where
  canHandle : HTTPMethod → Str → Bool
  canUpload : Str → Bool

/-- Constants and surroundings of the parser that `Parsing-impl.h` takes from
elsewhere: the macros `HTTP_UPLOAD_BUFLEN` and `HTTP_MAX_POST_WAIT`, whether
the allocation `reserve(n)` succeeds, and the content `stackByte i` of cell
`i` of the local array `endBuf` where `readBytes` did not write. -/
structure Config where
  HTTP_UPLOAD_BUFLEN : Nat
  HTTP_MAX_POST_WAIT : Nat
  reserveOk : Nat → Bool
  stackByte : Nat → Char

/-- The macro `WEBSERVER_MAX_POST_ARGS`. -/
def WEBSERVER_MAX_POST_ARGS : Nat := 32

/-- Modelled from the spec: `mimeTable[txt].mimeType`, the MIME table entry
for plain text, which the spec gives as `text/plain`. -/
def mimeTxt : Str := "text/plain".toList

/-- The members of `EthernetWebServer` that the parser reads or writes.
`_currentArgs` is the list of the first `_currentArgCount` entries of the
array and `_currentArgsSlots` the number of entries allocated for it;
`_currentHeaders` has `_headerKeysCount` entries; `_postArgs` has
`_postArgsLen` entries.  `uploads` records every call of the handler's
`upload` callback with the upload record as it was passed. -/
structure WebServer where
  _firstHandler : List RequestHandler
  _currentHandler : Option RequestHandler
  _currentMethod : HTTPMethod
  _currentUri : Str
  _currentVersion : Nat
  _chunked : Bool
  _hostHeader : Str
  _clientContentLength : Nat
  _currentHeaders : List RequestArgument
  _currentArgs : List RequestArgument
  _currentArgsSlots : Nat
  _postArgs : List RequestArgument
  _currentUpload : Option HTTPUpload
  uploads : List HTTPUpload

/-- `EthernetWebServer::_parseArguments`: the argument array is deleted and
built anew from `data`. -/
def _parseArguments (s : WebServer) (data : Str) : WebServer :=
  { s with _currentArgs := parseArgumentList data, _currentArgsSlots := parseArgumentSlots data }

/-- Modelled from the spec: `hasArg(name)` of the server, true when an
argument with that key is in the argument list. -/
def hasArg (s : WebServer) (name : Str) : Bool :=
  s._currentArgs.any (fun a => a.key == name)

/-- Modelled from the spec: `arg(name)` of the server, the value of the first
argument with that key, empty when there is none. -/
def arg (s : WebServer) (name : Str) : Str :=
  match s._currentArgs.find? (fun a => a.key == name) with
  | some a => a.value
  | none => []

/-- The loop body of `_collectHeader` over the header table: the value of the
first entry whose key equals `headerName` up to case is replaced. -/
def collectHeaderLoop (headerName headerValue : Str) :
    List RequestArgument → List RequestArgument
  | [] => []
  | h :: rest =>
    if equalsIgnoreCase h.key headerName then { h with value := headerValue } :: rest
    else h :: collectHeaderLoop headerName headerValue rest

/-- `EthernetWebServer::_collectHeader`. -/
def _collectHeader (s : WebServer) (headerName headerValue : Str) : WebServer :=
  { s with _currentHeaders := collectHeaderLoop headerName headerValue s._currentHeaders }

/-- The test `_currentHandler && _currentHandler->canUpload(_currentUri)`. -/
def uploadWanted (s : WebServer) : Bool :=
  match s._currentHandler with
  | some h => h.canUpload s._currentUri
  | none => false

/-- The statement
`if (_currentHandler && _currentHandler->canUpload(_currentUri)) _currentHandler->upload(*this, _currentUri, *_currentUpload);`:
the callback is recorded with the upload record it receives. -/
def notifyUpload (s : WebServer) : WebServer :=
  if uploadWanted s then
    match s._currentUpload with
    | some u => { s with uploads := s.uploads ++ [u] }
    | none => s
  else s

/-- `EthernetWebServer::_uploadWriteByte`. -/
def _uploadWriteByte (cfg : Config) (s : WebServer) (b : Char) : WebServer :=
  match s._currentUpload with
  | none => s
  | some u =>
    if u.currentSize = cfg.HTTP_UPLOAD_BUFLEN then
      let s1 := notifyUpload s
      let u1 : HTTPUpload := { u with totalSize := u.totalSize + u.currentSize, currentSize := 0 }
      let u2 : HTTPUpload := { u1 with buf := u1.buf.take u1.currentSize ++ [b], currentSize := u1.currentSize + 1 }
      { s1 with _currentUpload := some u2 }
    else
      let u2 : HTTPUpload := { u with buf := u.buf.take u.currentSize ++ [b], currentSize := u.currentSize + 1 }
      { s with _currentUpload := some u2 }

/-- Several `_uploadWriteByte` calls in a row. -/
def uploadWriteBytes (cfg : Config) (s : WebServer) (bs : Str) : WebServer :=
  bs.foldl (_uploadWriteByte cfg) s

/-- The wait `while (!client.available() && client.connected()) yield();` of
`_uploadReadByte`, on the parts of the client: `none` when it never ends,
because the schedule is used up and the peer stays connected and silent. -/
def yieldLoop (stays : Bool) : Str → List Str → Option (Str × List Str)
  | b :: rx, wire => some (b :: rx, wire)
  | [], [] => if stays then none else some ([], [])
  | [], chunk :: wire => yieldLoop stays chunk wire

/-- `EthernetWebServer::_uploadReadByte`: the byte returned and the client,
or `none` when the wait never ends. -/
def _uploadReadByte (c : EthernetClient) : Option (Char × EthernetClient) :=
  if 0 ≤ c.read.1 then some (byteOfInt c.read.1, c.read.2)
  else
    match yieldLoop c.stays c.rx c.wire with
    | none => none
    | some (rx, wire) =>
      let c1 : EthernetClient := { c with rx := rx, wire := wire }
      some (byteOfInt c1.read.1, c1.read.2)

/-- `EthernetWebServer::_parseFormUploadAborted`; the result `false` is the
caller's. -/
def _parseFormUploadAborted (s : WebServer) : WebServer :=
  match s._currentUpload with
  | none => s
  | some u =>
    let u1 : HTTPUpload := { u with status := HTTPUploadStatus.UPLOAD_FILE_ABORTED }
    notifyUpload { s with _currentUpload := some u1 }

/-! ## `_parseForm` -/

/-- Carriage return and line feed. -/
def CR : Char := '\r'

/-- The line feed character. -/
def LF : Char := '\n'

/-- The `do ... while (line.length() == 0 && retry < 3)` loop at the head of
`_parseForm`; the argument is the number of further attempts allowed. -/
def preambleLoop : Nat → EthernetClient → Str × EthernetClient
  | 0, c => readStringUntil c '\r'
  | n + 1, c =>
    let r := readStringUntil c '\r'
    if r.1.length = 0 then preambleLoop n r.2 else r

/-- The loop that collects the lines of a field part: the value, the line
that ended the loop, and the client. -/
def fieldLoop (boundary : Str) : Nat → EthernetClient → Str → Option (Str × Str × EthernetClient)
  | 0, _, _ => none
  | fuel + 1, c, argValue =>
    let r := readLine c
    if startsWith r.1 ("--".toList ++ boundary) then some (argValue, r.1, r.2)
    else
      let argValue1 := if argValue.length > 0 then argValue ++ ['\n'] else argValue
      fieldLoop boundary fuel r.2 (argValue1 ++ r.1)

/-- The array `endBuf` after `client.readBytes(endBuf, boundary.length())`
stored the bytes `got`: the cells that were not written keep what the stack
held. -/
def endBufOf (cfg : Config) (length : Nat) (got : Str) : Str :=
  got ++ ((List.range length).drop got.length).map cfg.stackByte

/-- The test `strstr((const char*)endBuf, boundary.c_str()) != NULL`, taken
on the cells of `endBuf`: they are as many as the boundary has characters,
so the boundary is found in them exactly when they spell it. -/
def boundaryFound (endBuf boundary : Str) : Bool := endBuf == boundary

/-- The end of a file part, from the match of the boundary to the second
callback: the last chunk is passed on, the total is completed, the status
becomes `UPLOAD_FILE_END` and the handler is called again. -/
def finishUpload (s : WebServer) : WebServer :=
  let s1 := notifyUpload s
  match s1._currentUpload with
  | none => s1
  | some u =>
    let u1 : HTTPUpload :=
      { u with totalSize := u.totalSize + u.currentSize, status := HTTPUploadStatus.UPLOAD_FILE_END }
    notifyUpload { s1 with _currentUpload := some u1 }

/-- The byte scanner of a file part, from the label `readfile` on, with the
byte `argByte` in hand.  The result is `some (true, ..)` when the boundary was
found and the upload finished, `some (false, ..)` when the upload was aborted,
and `none` when the fuel is used up or a read never returns. -/
def readFile (cfg : Config) (boundary : Str) :
    Nat → WebServer → EthernetClient → Char → Option (Bool × WebServer × EthernetClient)
  | 0, _, _, _ => none
  | fuel + 1, s, c, argByte =>
    if argByte ≠ CR then
      if !c.connected then some (false, _parseFormUploadAborted s, c)
      else
        match _uploadReadByte c with
        | none => none
        | some (b, c1) => readFile cfg boundary fuel (_uploadWriteByte cfg s argByte) c1 b
    else
      match _uploadReadByte c with
      | none => none
      | some (b1, c1) =>
        if !c1.connected then some (false, _parseFormUploadAborted s, c1)
        else if b1 = LF then
          match _uploadReadByte c1 with
          | none => none
          | some (b2, c2) =>
            if !c2.connected then some (false, _parseFormUploadAborted s, c2)
            else if b2 ≠ '-' then
              readFile cfg boundary fuel (uploadWriteBytes cfg s [CR, LF]) c2 b2
            else
              match _uploadReadByte c2 with
              | none => none
              | some (b3, c3) =>
                if !c3.connected then some (false, _parseFormUploadAborted s, c3)
                else if b3 ≠ '-' then
                  readFile cfg boundary fuel (uploadWriteBytes cfg s [CR, LF, '-']) c3 b3
                else
                  let r := readBytes c3 boundary.length
                  let endBuf := endBufOf cfg boundary.length r.1
                  if boundaryFound endBuf boundary then some (true, finishUpload s, r.2)
                  else
                    let s1 := uploadWriteBytes cfg (uploadWriteBytes cfg s [CR, LF, '-', '-']) endBuf
                    match _uploadReadByte r.2 with
                    | none => none
                    | some (b4, c4) => readFile cfg boundary fuel s1 c4 b4
        else
          readFile cfg boundary fuel (_uploadWriteByte cfg s CR) c1 b1

/-- The start of a file part: the upload record is set up (a new one when
there is none yet) and the handler is called with status `UPLOAD_FILE_START`;
then the status becomes `UPLOAD_FILE_WRITE`. -/
def startUpload (s : WebServer) (argName argFilename argType : Str) (len : Nat) : WebServer :=
  let oldBuf : Str := match s._currentUpload with
    | some u => u.buf
    | none => []
  let u0 : HTTPUpload :=
    { status := HTTPUploadStatus.UPLOAD_FILE_START, filename := argFilename, name := argName,
      type := argType, totalSize := 0, currentSize := 0, buf := oldBuf, contentLength := len }
  let s1 := notifyUpload { s with _currentUpload := some u0 }
  { s1 with _currentUpload := some { u0 with status := HTTPUploadStatus.UPLOAD_FILE_WRITE } }

/-- The name, file name and file flag that the `Content-Disposition` branch
of `_parseForm` takes from `line`, whose first `'='` is at `nameStart`. -/
def dispositionNames (s : WebServer) (line : Str) (nameStart : Int) : Str × Str × Bool :=
  let argName := substringFrom line (nameStart + 2).toNat
  let nameStart2 := indexOf argName '='
  if nameStart2 = -1 then
    (substring argName 0 ((argName.length : Int) - 1), [], false)
  else
    let argFilename := substring argName (nameStart2 + 2).toNat ((argName.length : Int) - 1)
    let argName1 := substring argName 0 (indexOf argName '"')
    let argFilename1 :=
      if argFilename = "blob".toList ∧ hasArg s "filename".toList then arg s "filename".toList
      else argFilename
    (argName1, argFilename1, true)

/-- The `while (1)` loop of `_parseForm` over the parts.  The result is
`some (true, ..)` when the loop is left by `break`, `some (false, ..)` when
`_parseForm` returns `false` from inside it, `none` when the fuel is used up
or a read never returns. -/
def partsLoop (cfg : Config) (boundary : Str) (len : Nat) :
    Nat → WebServer → EthernetClient → Option (Bool × WebServer × EthernetClient)
  | 0, _, _ => none
  | fuel + 1, s, c =>
    let r := readLine c
    let line := r.1
    if line.length > 19 ∧ equalsIgnoreCase (substring line 0 19) "Content-Disposition".toList then
      let nameStart := indexOf line '='
      if nameStart ≠ -1 then
        let names := dispositionNames s line nameStart
        let r2 := readLine r.2
        let hasType : Bool :=
          decide (r2.1.length > 12) && equalsIgnoreCase (substring r2.1 0 12) "Content-Type".toList
        let argType := if hasType then substringFrom r2.1 (indexOf r2.1 ':' + 2).toNat else mimeTxt
        let c3 := if hasType then (readLine r2.2).2 else r2.2
        if !names.2.2 then
          match fieldLoop boundary fuel c3 [] with
          | none => none
          | some (argValue, last, c4) =>
            let s1 := { s with _postArgs := s._postArgs ++ [{ key := names.1, value := argValue }] }
            if last = "--".toList ++ boundary ++ "--".toList then some (true, s1, c4)
            else partsLoop cfg boundary len fuel s1 c4
        else
          let s1 := startUpload s names.1 names.2.1 argType len
          match _uploadReadByte c3 with
          | none => none
          | some (argByte, c4) =>
            match readFile cfg boundary fuel s1 c4 argByte with
            | none => none
            | some (false, s2, c5) => some (false, s2, c5)
            | some (true, s2, c5) =>
              let r3 := readLine c5
              if r3.1 = "--".toList then some (true, s2, r3.2)
              else partsLoop cfg boundary len fuel s2 r3.2
      else partsLoop cfg boundary len fuel s r.2
    else partsLoop cfg boundary len fuel s r.2

/-- The end of `_parseForm`: the query arguments are appended to the form
arguments as far as `WEBSERVER_MAX_POST_ARGS` allows, and the result becomes
the argument list.  The allocation `new RequestArgument[_postArgsLen]` is
taken to succeed. -/
def mergeArgs (s : WebServer) : WebServer :=
  let room : Int := (WEBSERVER_MAX_POST_ARGS : Int) - (s._postArgs.length : Int)
  let totalArgs : Int := if room < (s._currentArgs.length : Int) then room else s._currentArgs.length
  let postArgs := s._postArgs ++ s._currentArgs.take totalArgs.toNat
  { s with _currentArgs := postArgs, _currentArgsSlots := postArgs.length, _postArgs := [] }

/-- `EthernetWebServer::_parseForm`: the returned flag, the server and the
client; `none` when the fuel is used up or a read never returns. -/
def _parseForm (cfg : Config) (fuel : Nat) (s : WebServer) (c : EthernetClient)
    (boundary : Str) (len : Nat) : Option (Bool × WebServer × EthernetClient) :=
  let r := preambleLoop 2 c
  let c1 := (readStringUntil r.2 '\n').2
  if r.1 = "--".toList ++ boundary then
    match partsLoop cfg boundary len fuel { s with _postArgs := [] } c1 with
    | none => none
    | some (false, s2, c2) => some (false, s2, c2)
    | some (true, s2, c2) => some (true, mergeArgs s2, c2)
  else some (false, s, c1)

/-! ## `_parseRequest` -/

/-- The start of `_parseRequest` on the request line `req`: `none` when one
of the two spaces is missing (`return false`), else `methodStr`, `url` and
`versionEnd`. -/
def splitRequestLine (req : Str) : Option (Str × Str × Str) :=
  let addr_start := indexOf req ' '
  let addr_end := indexOfFrom req ' ' (addr_start + 1).toNat
  if addr_start = -1 ∨ addr_end = -1 then none
  else
    some (substring req 0 addr_start,
          substring req (addr_start + 1).toNat addr_end,
          substringFrom req (addr_end + 8).toNat)

/-- The split of `url` at its first `'?'`: the path and `searchStr`. -/
def splitUrl (url : Str) : Str × Str :=
  let hasSearch := indexOf url '?'
  if hasSearch ≠ -1 then (substring url 0 hasSearch, substringFrom url (hasSearch + 1).toNat)
  else (url, [])

/-- The chain of comparisons that turns `methodStr` into the method. -/
def methodOf (methodStr : Str) : HTTPMethod :=
  if methodStr = "HEAD".toList then HTTPMethod.HTTP_HEAD
  else if methodStr = "POST".toList then HTTPMethod.HTTP_POST
  else if methodStr = "DELETE".toList then HTTPMethod.HTTP_DELETE
  else if methodStr = "OPTIONS".toList then HTTPMethod.HTTP_OPTIONS
  else if methodStr = "PUT".toList then HTTPMethod.HTTP_PUT
  else if methodStr = "PATCH".toList then HTTPMethod.HTTP_PATCH
  else HTTPMethod.HTTP_GET

/-- The test `method == HTTP_POST || method == HTTP_PUT || method == HTTP_PATCH || method == HTTP_DELETE`. -/
def hasBody (m : HTTPMethod) : Bool :=
  m = HTTPMethod.HTTP_POST || m = HTTPMethod.HTTP_PUT || m = HTTPMethod.HTTP_PATCH
    || m = HTTPMethod.HTTP_DELETE

/-- The locals of the branch of `_parseRequest` for requests with a body. -/
structure PostLocals where
  boundaryStr : Str
  isEncoded : Bool
  isForm : Bool
  contentLength : Nat
  deriving DecidableEq, Repr

/-- What one header line `headerName: headerValue` does in the branch for
requests with a body, after `_collectHeader`. -/
def postHeader (s : WebServer) (l : PostLocals) (headerName headerValue : Str) :
    WebServer × PostLocals :=
  if equalsIgnoreCase headerName "Content-Type".toList then
    if startsWith headerValue mimeTxt then (s, { l with isForm := false })
    else if startsWith headerValue "application/x-www-form-urlencoded".toList then
      (s, { l with isForm := false, isEncoded := true })
    else if startsWith headerValue "multipart/".toList then
      let boundaryStr := removeChar (substringFrom headerValue (indexOf headerValue '=' + 1).toNat) '"'
      (s, { l with boundaryStr := boundaryStr, isForm := true })
    else (s, l)
  else if equalsIgnoreCase headerName "Content-Length".toList then
    let contentLength := (toInt headerValue % 4294967296).toNat
    ({ s with _clientContentLength := contentLength }, { l with contentLength := contentLength })
  else if equalsIgnoreCase headerName "Host".toList then
    ({ s with _hostHeader := headerValue }, l)
  else (s, l)

/-- The header loop of the branch for requests with a body.  Every round
that goes on has read a non-empty line, so the fuel `stream.length + 1` that
`_parseRequest` passes suffices. -/
def postHeaderLoop : Nat → WebServer → EthernetClient → PostLocals →
    WebServer × EthernetClient × PostLocals
  | 0, s, c, l => (s, c, l)
  | fuel + 1, s, c, l =>
    let r := readLine c
    if r.1 = [] then (s, r.2, l)
    else
      let headerDiv := indexOf r.1 ':'
      if headerDiv = -1 then (s, r.2, l)
      else
        let headerName := substring r.1 0 headerDiv
        let headerValue := trim (substringFrom r.1 (headerDiv + 1).toNat)
        let p := postHeader (_collectHeader s headerName headerValue) l headerName headerValue
        postHeaderLoop fuel p.1 r.2 p.2

/-- The header loop of the branch for requests without a body. -/
def getHeaderLoop : Nat → WebServer → EthernetClient → WebServer × EthernetClient
  | 0, s, c => (s, c)
  | fuel + 1, s, c =>
    let r := readLine c
    if r.1 = [] then (s, r.2)
    else
      let headerDiv := indexOf r.1 ':'
      if headerDiv = -1 then (s, r.2)
      else
        let headerName := substring r.1 0 headerDiv
        let headerValue := substringFrom r.1 (headerDiv + 2).toNat
        let s1 := _collectHeader s headerName headerValue
        let s2 := if equalsIgnoreCase headerName "Host".toList then
          { s1 with _hostHeader := headerValue } else s1
        getHeaderLoop fuel s2 r.2

/-- The body part of the branch for requests with a body, after the header
loop: the body is read unless the request is a form, the arguments are
parsed, and the `plain` argument is appended or the form is decoded. -/
def postBody (cfg : Config) (fuel : Nat) (s : WebServer) (c : EthernetClient)
    (l : PostLocals) (searchStr : Str) : Option (Bool × WebServer × EthernetClient) :=
  let rb : Bool × Str × EthernetClient :=
    if !l.isForm then
      readBytesWithTimeout (cfg.reserveOk (l.contentLength + 1)) c l.contentLength []
        cfg.HTTP_MAX_POST_WAIT
    else (true, [], c)
  if !l.isForm ∧ (!rb.1 ∨ rb.2.1.length < l.contentLength) then some (false, s, rb.2.2)
  else
    let plainBuf := rb.2.1
    let searchStr1 :=
      if l.isEncoded then
        (if searchStr.length ≠ 0 then searchStr ++ ['&'] else searchStr) ++ plainBuf
      else searchStr
    let s1 := _parseArguments s searchStr1
    if !l.isForm then
      if l.contentLength ≠ 0 then
        some (true,
          { s1 with _currentArgs := s1._currentArgs ++ [{ key := "plain".toList, value := plainBuf }] },
          rb.2.2)
      else some (true, s1, rb.2.2)
    else
      _parseForm cfg fuel s1 rb.2.2 l.boundaryStr l.contentLength

/-- The reset of the header values at the start of `_parseRequest`. -/
def resetHeaders (s : WebServer) : WebServer :=
  { s with _currentHeaders := s._currentHeaders.map (fun h => { h with value := [] }) }

/-- The assignments between the request line and the header loop: version,
uri, chunked flag and method are set, and the first handler of the registry
that can handle the method and uri becomes the current handler. -/
def startRequest (s0 : WebServer) (method : HTTPMethod) (uri : Str) : WebServer :=
  let s1 : WebServer :=
    { s0 with _currentVersion := 0, _currentUri := uri, _chunked := false,
              _currentMethod := method }
  { s1 with _currentHandler := s1._firstHandler.find? (fun h => h.canHandle method uri) }

/-- The locals of the branch for requests with a body as they are declared. -/
def initLocals : PostLocals :=
  { boundaryStr := [], isEncoded := false, isForm := false, contentLength := 0 }

/-- `EthernetWebServer::_parseRequest`: the returned flag, the server and the
client; `none` when the multipart decoder does not return with this fuel.
`client.flush()` acts on the sending side and leaves the model unchanged. -/
def _parseRequest (cfg : Config) (fuel : Nat) (s : WebServer) (c : EthernetClient) :
    Option (Bool × WebServer × EthernetClient) :=
  let r := readLine c
  let s0 := resetHeaders s
  match splitRequestLine r.1 with
  | none => some (false, s0, r.2)
  | some (methodStr, url, _) =>
    let u := splitUrl url
    let method := methodOf methodStr
    let s2 := startRequest s0 method u.1
    if hasBody method then
      let h := postHeaderLoop (r.2.stream.length + 1) s2 r.2 initLocals
      postBody cfg fuel h.1 h.2.1 h.2.2 u.2
    else
      let h := getHeaderLoop (r.2.stream.length + 1) s2 r.2
      some (true, _parseArguments h.1 u.2, h.2)

/-! ## Notions of the specification -/

/-- The character a byte that is not decoded as an escape turns into: a
space for `'+'`, else the byte itself. -/
def plainChar (c : Char) : Char := if c = '+' then ' ' else c

/-- `hexOf v c`: the character `c` is the hexadecimal digit of value `v`,
in lower or upper case. -/
def hexOf (v : Nat) (c : Char) : Prop :=
  "0123456789abcdef".toList[v]? = some c ∨ "0123456789ABCDEF".toList[v]? = some c

/-- `hexSpelling b x1 x2`: the two characters `x1 x2` spell the byte value
`b` in hexadecimal. -/
def hexSpelling (b : Nat) (x1 x2 : Char) : Prop :=
  ∃ hi lo : Nat, b = 16 * hi + lo ∧ hexOf hi x1 ∧ hexOf lo x2

/-- `inEscape text i`: position `i` of `text` is one of the two characters
of an escape, where an escape is a `'%'` that is itself outside an escape and
has at least two characters after it, together with these two. -/
def inEscape : Str → Nat → Bool
  | [], _ => false
  | '%' :: _ :: _ :: r, i => if i = 0 then false else if i ≤ 2 then true else inEscape r (i - 3)
  | _ :: r, i => if i = 0 then false else inEscape r (i - 1)

/-- The `'&'`-delimited segments of a string, in order; the empty string
has the one empty segment. -/
def segments : Str → List Str
  | [] => [[]]
  | c :: cs =>
    if c = '&' then [] :: segments cs
    else
      match segments cs with
      | seg :: rest => (c :: seg) :: rest
      | [] => [[c]]

/-- The argument a segment contributes: none without `'='`, else the decoded
text before its first `'='` as key and the decoded text after it as value. -/
def segmentArg (seg : Str) : Option RequestArgument :=
  if '=' ∈ seg then
    some { key := urlDecode (seg.takeWhile (fun x => x != '='))
           value := urlDecode ((seg.dropWhile (fun x => x != '=')).drop 1) }
  else none

/-- The argument list the specification gives for the string `s`. -/
def specArguments (s : Str) : List RequestArgument :=
  (segments s).filterMap segmentArg

/-- The characters of `s` are bytes: their codes are below 256, as those of
everything a transport delivers. -/
def isBytes (s : Str) : Prop := ∀ c ∈ s, c.toNat < 256

instance (s : Str) : Decidable (isBytes s) := by
  unfold isBytes; infer_instance

/-- A server state for examples: one handler that accepts every request and
every upload, earlier values in the request fields, and the subscribed
header `X-A`. -/
def sampleServer : WebServer :=
  { _firstHandler := [{ canHandle := fun _ _ => true, canUpload := fun _ => true }]
    _currentHandler := none
    _currentMethod := HTTPMethod.HTTP_PUT
    _currentUri := "/old".toList
    _currentVersion := 1
    _chunked := true
    _hostHeader := "old".toList
    _clientContentLength := 7
    _currentHeaders := [{ key := "X-A".toList, value := "v".toList }]
    _currentArgs := [{ key := "k".toList, value := "v".toList }]
    _currentArgsSlots := 2
    _postArgs := []
    _currentUpload := none
    uploads := [] }

/-- Constants for examples: an upload buffer of four bytes, a wait of five
steps for a body, allocation that succeeds, and `'Y'` in the cells of
`endBuf` that were not written. -/
def sampleConfig : Config :=
  { HTTP_UPLOAD_BUFLEN := 4
    HTTP_MAX_POST_WAIT := 5
    reserveOk := fun _ => true
    stackByte := fun _ => 'Y' }

/-- A client that has received `text` in full, with nothing more to come;
`stays` tells whether the peer remains connected. -/
def clientOf (text : String) (stays : Bool) : EthernetClient :=
  { rx := text.toList, wire := [], stays := stays, timeout := 3 }

/-- Number of bytes the transport has delivered when `i` waiting steps have
passed. -/
def delivered (c : EthernetClient) (i : Nat) : Nat :=
  c.rx.length + (c.wire.take i).flatten.length

/-- The transport delivers at least `L` bytes without a stall longer than
`t`: as long as fewer than `L` bytes have been delivered, a non-empty chunk
arrives within the next `t` waiting steps. -/
def deliversInTime (t L : Nat) (c : EthernetClient) : Prop :=
  ∀ i, i ≤ c.wire.length → delivered c i < L →
    ∃ j, i ≤ j ∧ j < i + t ∧ c.wire.getD j [] ≠ []

/-- The transport delivers fewer than `L` bytes and then stalls past `t`:
at some point fewer than `L` bytes have been delivered and nothing arrives in
the next `t` waiting steps. -/
def stallsBefore (t L : Nat) (c : EthernetClient) : Prop :=
  ∃ i, i ≤ c.wire.length ∧ delivered c i < L ∧ ∀ j, i ≤ j → j < i + t → c.wire.getD j [] = []
/-- A client for examples that holds `ab` and receives `cd` in the second
waiting step and `ef` in the fourth. -/
def slowClient : EthernetClient :=
  { rx := "ab".toList, wire := [[], "cd".toList, [], "ef".toList], stays := true, timeout := 3 }

/-- What the header loop of a request with a body leaves, for the request
whose line has the method token `m` and the target `t` and whose first line
has been read from `c`: the server, the client at the start of the body, and
the locals (`isForm`, `isEncoded`, `contentLength`, `boundaryStr`). -/
def afterPostHeaders (s : WebServer) (c : EthernetClient) (m t : Str) :
    WebServer × EthernetClient × PostLocals :=
  postHeaderLoop ((readLine c).2.stream.length + 1)
    (startRequest (resetHeaders s) (methodOf m) (splitUrl t).1) (readLine c).2 initLocals

/-- The statuses of the upload notifications a server has recorded, in
order. -/
def uploadStatuses (s : WebServer) : List HTTPUploadStatus :=
  s.uploads.map (fun u => u.status)

/-- The bytes passed to the upload sink: the chunks `buf[0 .. currentSize)`
of the notifications with status `UPLOAD_FILE_WRITE`, in order. -/
def uploadedBytes (s : WebServer) : Str :=
  (s.uploads.filter (fun u => u.status == HTTPUploadStatus.UPLOAD_FILE_WRITE)).flatMap
    (fun u => u.buf.take u.currentSize)

/-- The total sizes that the notifications with status `UPLOAD_FILE_END`
carry, in order. -/
def uploadEndSizes (s : WebServer) : List Nat :=
  (s.uploads.filter (fun u => u.status == HTTPUploadStatus.UPLOAD_FILE_END)).map
    (fun u => u.totalSize)

/-- A multipart request with boundary `XY`: a field part `t` with value `hi`
and a file part `f` with the given content, ended by the closing line. -/
def uploadRequest (content : String) : String :=
  "POST /up HTTP/1.1\r\nContent-Type: multipart/form-data; boundary=XY\r\n\r\n"
    ++ "--XY\r\nContent-Disposition: form-data; name=\"t\"\r\n\r\nhi\r\n"
    ++ "--XY\r\nContent-Disposition: form-data; name=\"f\"; filename=\"a.txt\"\r\n\r\n"
    ++ content ++ "\r\n--XY--\r\n"

/-- What a parse shows from outside: the returned flag, the argument list,
the statuses of the upload notifications, the bytes passed to the sink and
the sizes reported at the end of files. -/
structure Outcome where
  ok : Bool
  args : List RequestArgument
  statuses : List HTTPUploadStatus
  bytes : Str
  endSizes : List Nat
  deriving DecidableEq, Repr

/-- The outcome of a parse, when it returns. -/
def parseOutcome (r : Option (Bool × WebServer × EthernetClient)) : Option Outcome :=
  r.map (fun x =>
    { ok := x.1, args := x.2.1._currentArgs, statuses := uploadStatuses x.2.1,
      bytes := uploadedBytes x.2.1, endSizes := uploadEndSizes x.2.1 })

/-- A multipart request with boundary `XY` whose only part is a file part
`f` with the given content, ended by the closing line. -/
def fileRequest (content : String) : String :=
  "POST /up HTTP/1.1\r\nContent-Type: multipart/form-data; boundary=XY\r\n\r\n"
    ++ "--XY\r\nContent-Disposition: form-data; name=\"f\"; filename=\"a.txt\"\r\n\r\n"
    ++ content ++ "\r\n--XY--\r\n"

/-- Position of the first occurrence of `pat` in `text`, if there is one. -/
def firstOccurrence (pat text : Str) : Option Nat :=
  (List.range (text.length + 1)).find? (fun i => pat.isPrefixOf (text.drop i))

/-- The server at the start of the body of the file part `f` of a request
`POST /up`: the request is started, the handler is attached and the upload
record is set up. -/
def uploadingServer : WebServer :=
  startUpload (startRequest (resetHeaders sampleServer) HTTPMethod.HTTP_POST "/up".toList)
    "f".toList "a.txt".toList mimeTxt 0

/-- `sameLink c c'`: the client `c'` is the client `c` later on: the same
`Stream` timeout and the same peer, and no more of the schedule ahead. -/
def sameLink (c c' : EthernetClient) : Prop :=
  c'.timeout = c.timeout ∧ c'.stays = c.stays ∧ c'.wire.length ≤ c.wire.length

/-- `sameRequestFields s s'`: the members that the request line and the
headers determine are the same in `s` and `s'`; the body of a request
changes none of them. -/
def sameRequestFields (s s' : WebServer) : Prop :=
  s'._currentMethod = s._currentMethod ∧ s'._currentUri = s._currentUri
  ∧ s'._currentVersion = s._currentVersion ∧ s'._chunked = s._chunked
  ∧ s'._hostHeader = s._hostHeader ∧ s'._clientContentLength = s._clientContentLength
  ∧ s'._currentHeaders = s._currentHeaders

/-! ## Header blocks -/

/-- The text of a header line with name `h.1` and the text `h.2` after the
colon. -/
def headerLineText (h : Str × Str) : Str := h.1 ++ ':' :: h.2

/-- The text of a sequence of header lines, each with its CR LF. -/
def headerBlock : List (Str × Str) → Str
  | [] => []
  | h :: hs => headerLineText h ++ '\r' :: '\n' :: headerBlock hs

/-- A header line is well formed when its name holds no colon, so that the
first colon of the line ends the name, and the line holds no carriage return
and only bytes. -/
def wellFormedHeader (h : Str × Str) : Prop :=
  ':' ∉ h.1 ∧ '\r' ∉ h.1 ∧ '\r' ∉ h.2 ∧ isBytes h.1 ∧ isBytes h.2

/-- One round of the header loop for requests without a body on the line with
name `h.1` and the text `h.2` after the colon: the value is the text from the
second character after the colon on. -/
def getHeaderStep (s : WebServer) (h : Str × Str) : WebServer :=
  let headerValue := h.2.drop 1
  let s1 := _collectHeader s h.1 headerValue
  if equalsIgnoreCase h.1 "Host".toList then { s1 with _hostHeader := headerValue } else s1

/-- One round of the header loop for requests with a body on the line with
name `h.1` and the text `h.2` after the colon: the value is that text
trimmed. -/
def postHeaderStep (p : WebServer × PostLocals) (h : Str × Str) : WebServer × PostLocals :=
  postHeader (_collectHeader p.1 h.1 (trim h.2)) p.2 h.1 (trim h.2)

/-- The text after the colon of the last line of `hs` whose name equals `K`
up to the case of letters, if there is such a line. -/
def lastHeader (K : Str) : List (Str × Str) → Option Str
  | [] => none
  | h :: hs =>
    match lastHeader K hs with
    | some v => some v
    | none => if equalsIgnoreCase h.1 K then some h.2 else none

/-- The value a header table stores for the name `K`: that of the first entry
whose key equals `K` up to the case of letters, which is the entry
`_collectHeader` writes; empty when no entry has that key. -/
def headerValueOf (table : List RequestArgument) (K : Str) : Str :=
  match table.find? (fun e => equalsIgnoreCase e.key K) with
  | some e => e.value
  | none => []

/-- The header table has an entry for the name `K`: one of its keys equals
`K` up to the case of letters. -/
def subscribed (table : List RequestArgument) (K : Str) : Prop :=
  ∃ e ∈ table, equalsIgnoreCase e.key K = true

instance (h : Str × Str) : Decidable (wellFormedHeader h) := by
  unfold wellFormedHeader; infer_instance

/-- The constants of `sampleConfig` with an allocator that fails. -/
def noMemoryConfig : Config :=
  { HTTP_UPLOAD_BUFLEN := 4
    HTTP_MAX_POST_WAIT := 5
    reserveOk := fun _ => false
    stackByte := fun _ => 'Y' }

/-- The server `sampleServer` with no earlier host and content length: the
same subscription table and the same handlers. -/
def idleServer : WebServer :=
  { sampleServer with _hostHeader := [], _clientContentLength := 0 }

/-- A form body with boundary `XY` and the one field `t = hi`. -/
def fieldBody : String :=
  "--XY\r\nContent-Disposition: form-data; name=\"t\"\r\n\r\nhi\r\n--XY--\r\n"

/-- The loop of the `char*` variant of `readBytesWithTimeout`, with the buffer
(`none` for `nullptr`) and `dataLength`.  `allocOk` gives the result of
`malloc` and `realloc` for the size asked; `heapByte` is what the cells hold
that `client.readBytes` did not write.  In every round that goes on
`dataLength` grows, so `maxLength + 1` rounds of fuel are enough. -/
def Legacy.readBytesWithTimeoutLoop (allocOk : Nat → Bool) (heapByte : Nat → Char)
    (maxLength timeout_ms : Nat) :
    Nat → EthernetClient → Option Str → Nat → Option Str × Nat × EthernetClient
  | 0, c, buf, dataLength => (buf, dataLength, c)
  | fuel + 1, c, buf, dataLength =>
    if dataLength < maxLength then
      let w := waitAvailable timeout_ms c
      let newLength := w.1
      if newLength = 0 then (buf, dataLength, w.2)
      else
        let size := match buf with
          | none => newLength + 1
          | some _ => dataLength + newLength + 1
        if !allocOk size then (none, dataLength, w.2)
        else
          let held : Str := buf.getD []
          let r := readBytes w.2 newLength
          let unwritten := ((List.range newLength).drop r.1.length).map heapByte
          Legacy.readBytesWithTimeoutLoop allocOk heapByte maxLength timeout_ms fuel r.2
            (some (held ++ r.1 ++ unwritten)) (dataLength + newLength)
    else (buf, dataLength, c)

/-- The `char*` variant `readBytesWithTimeout(client, maxLength, dataLength, timeout_ms)`:
the returned buffer, `dataLength` and the client. -/
def Legacy.readBytesWithTimeout (allocOk : Nat → Bool) (heapByte : Nat → Char)
    (c : EthernetClient) (maxLength timeout_ms : Nat) : Option Str × Nat × EthernetClient :=
  Legacy.readBytesWithTimeoutLoop allocOk heapByte maxLength timeout_ms (maxLength + 1) c none 0

/-- `sameArguments s s'`: the argument list built from the search string and
the list of form arguments collected so far are the same in `s` and `s'`; the
upload of a file part changes neither. -/
def sameArguments (s s' : WebServer) : Prop :=
  s'._currentArgs = s._currentArgs ∧ s'._postArgs = s._postArgs

/-! ## Form bodies made of field parts -/

/-- The lines `ls`, each with its CR LF. -/
def linesText : List Str → Str
  | [] => []
  | l :: ls => l ++ '\r' :: '\n' :: linesText ls

/-- The header line of a field part with the name `N`. -/
def fieldHeaderLine (N : Str) : Str :=
  "Content-Disposition: form-data; name".toList ++ '=' :: '"' :: (N ++ ['"'])

/-- The text of a field part with the name `p.1` and the value lines `p.2`, up
to the delimiter line: the header line, the empty line, the value lines. -/
def fieldPartText (p : Str × List Str) : Str :=
  fieldHeaderLine p.1 ++ '\r' :: '\n' :: '\r' :: '\n' :: linesText p.2

/-- One round of the loop over the lines of a field: a line feed is put in
front of the line when the value so far is not empty. -/
def fieldStep (argValue line : Str) : Str :=
  (if argValue.length > 0 then argValue ++ ['\n'] else argValue) ++ line

/-- The value `_parseForm` gives a field whose lines are `ls`. -/
def fieldValue (ls : List Str) : Str := ls.foldl fieldStep []

/-- The argument of the field part `p`. -/
def fieldArgument (p : Str × List Str) : RequestArgument :=
  { key := p.1, value := fieldValue p.2 }

/-- The parts `ps` of a form body with boundary `B`, each followed by its
delimiter line: `--B` between two parts, `--B--` after the last. -/
def formParts (B : Str) : List (Str × List Str) → Str
  | [] => []
  | [p] => fieldPartText p ++ (("--".toList ++ B ++ "--".toList) ++ ['\r', '\n'])
  | p :: q :: ps =>
    fieldPartText p ++ (("--".toList ++ B) ++ '\r' :: '\n' :: formParts B (q :: ps))

/-- A field part is well formed for the boundary `B` when its name holds no
`'='` and no carriage return, no line of its value starts with `--B` or holds a
carriage return, and all is bytes. -/
def wellFormedField (B : Str) (p : Str × List Str) : Prop :=
  '=' ∉ p.1 ∧ '\r' ∉ p.1 ∧ isBytes p.1
  ∧ ∀ l ∈ p.2, startsWith l ("--".toList ++ B) = false ∧ '\r' ∉ l ∧ isBytes l

instance (B : Str) (p : Str × List Str) : Decidable (wellFormedField B p) := by
  unfold wellFormedField; infer_instance

/-- Rounds of fuel that suffice for the loop over the parts `ps`: one per
part and one per line, and one more. -/
def formFuel : List (Str × List Str) → Nat
  | [] => 1
  | p :: ps => p.2.length + 1 + formFuel ps

/-- The chunk an upload record carries: the cells `buf[0 .. currentSize)`. -/
def chunkOf (u : HTTPUpload) : Str := u.buf.take u.currentSize

/-- `writeInvariant cfg n0 w s`: the state of an upload into which the bytes
`w` have been written since its start, `n0` being the number of notifications
recorded before.  The buffer holds at most `HTTP_UPLOAD_BUFLEN` bytes, the
total and the buffer account for all of `w`, the total is a multiple of the
buffer length, the buffer holds the bytes of `w` after the total, and every
notification since the start carries a full buffer; when the handler takes
uploads these chunks make up the bytes of `w` before the total, else there is
no notification. -/
def writeInvariant (cfg : Config) (n0 : Nat) (w : Str) (s : WebServer) : Prop :=
  ∃ u, s._currentUpload = some u
    ∧ u.currentSize ≤ cfg.HTTP_UPLOAD_BUFLEN
    ∧ u.totalSize + u.currentSize = w.length
    ∧ cfg.HTTP_UPLOAD_BUFLEN ∣ u.totalSize
    ∧ chunkOf u = w.drop u.totalSize
    ∧ (∀ f ∈ s.uploads.drop n0, f.currentSize = cfg.HTTP_UPLOAD_BUFLEN)
    ∧ (uploadWanted s = true → (s.uploads.drop n0).flatMap chunkOf = w.take u.totalSize)
    ∧ (uploadWanted s = false → s.uploads.drop n0 = [])

/-- The header line of a file part with the name `N` and the file name `F`. -/
def fileHeaderLine (N F : Str) : Str :=
  fieldHeaderLine N ++ ("; filename".toList ++ '=' :: '"' :: (F ++ ['"']))

/-- A client for examples at the body of a file part, after its first byte
`a`: it holds `b CR LF - - Z`, then nothing arrives for four waiting steps
(the timeout is three), then the rest of the part arrives: `cd` and the
closing line for the boundary `XQ`.  The peer stays connected. -/
def stalledUploadClient : EthernetClient :=
  { rx := "b\r\n--Z".toList, wire := [[], [], [], [], "cd\r\n--XQ--\r\n".toList],
    stays := true, timeout := 3 }

/-- The field parts `a = b`, `n` of them. -/
def manyFields (n : Nat) : List (Str × List Str) :=
  List.replicate n ("a".toList, ["b".toList])

/-- A client that has received the form body with boundary `XY` made of `n`
field parts `a = b`; the peer stays connected. -/
def manyFieldsClient (n : Nat) : EthernetClient :=
  { rx := ("--".toList ++ "XY".toList) ++ '\r' :: '\n' :: (formParts "XY".toList (manyFields n) ++ []),
    wire := [], stays := true, timeout := 3 }

theorem charAt_append_right (pre suf : Str) (i : Nat) :
    charAt (pre ++ suf) (pre.length + i) = charAt suf i := by
  simp [charAt, List.getD_eq_getElem?_getD, List.getElem?_append_right]

theorem urlDecodeLoop_acc (text : Str) (len : Nat) :
    ∀ (fuel i : Nat) (d e : Str),
      urlDecodeLoop text len fuel i (d ++ e) = d ++ urlDecodeLoop text len fuel i e := by
  intro fuel
  induction fuel with
  | zero => intro i d e; simp [urlDecodeLoop]
  | succ n ih =>
    intro i d e
    simp only [urlDecodeLoop]
    split
    · split
      · rw [List.append_assoc, ih]
      · split
        · rw [List.append_assoc, ih]
        · rw [List.append_assoc, ih]
    · rfl

theorem urlDecodeLoop_acc_nil (text : Str) (len fuel i : Nat) (d : Str) :
    urlDecodeLoop text len fuel i d = d ++ urlDecodeLoop text len fuel i [] := by
  have h := urlDecodeLoop_acc text len fuel i d []
  simpa using h

theorem urlDecodeLoop_shift (pre suf : Str) :
    ∀ (fuel i : Nat) (d : Str),
      urlDecodeLoop (pre ++ suf) (pre.length + suf.length) fuel (pre.length + i) d
        = d ++ urlDecodeLoop suf suf.length fuel i [] := by
  intro fuel
  induction fuel with
  | zero => intro i d; simp [urlDecodeLoop]
  | succ n ih =>
    intro i d
    simp only [urlDecodeLoop, charAt_append_right, Nat.add_assoc, Nat.add_lt_add_iff_left,
      List.nil_append]
    split
    · split
      · rw [← Nat.add_assoc, ← Nat.add_assoc, ← Nat.add_assoc, Nat.add_assoc pre.length,
          Nat.add_assoc pre.length, ih, urlDecodeLoop_acc_nil suf _ _ _ [_]]
        simp [Nat.add_assoc]
      · split
        · rw [ih, urlDecodeLoop_acc_nil suf _ _ _ [_]]; simp
        · rw [ih, urlDecodeLoop_acc_nil suf _ _ _ [_]]; simp
    · simp

theorem urlDecodeLoop_fuel (text : Str) (len : Nat) :
    ∀ (fuel i : Nat) (d : Str), len - i ≤ fuel →
      urlDecodeLoop text len (fuel + 1) i d = urlDecodeLoop text len fuel i d := by
  intro fuel
  induction fuel with
  | zero =>
    intro i d h
    have : ¬ i < len := by omega
    simp [urlDecodeLoop, this]
  | succ n ih =>
    intro i d h
    rw [urlDecodeLoop]
    conv => rhs; rw [urlDecodeLoop]
    simp only []
    split
    · split
      · exact ih _ _ (by omega)
      · split
        · exact ih _ _ (by omega)
        · exact ih _ _ (by omega)
    · rfl

theorem urlDecodeLoop_fuel_add (text : Str) (len : Nat) (fuel i : Nat) (d : Str)
    (h : len - i ≤ fuel) (k : Nat) :
    urlDecodeLoop text len (fuel + k) i d = urlDecodeLoop text len fuel i d := by
  induction k with
  | zero => rfl
  | succ k ih => rw [← Nat.add_assoc, urlDecodeLoop_fuel _ _ _ _ _ (by omega), ih]




theorem urlDecode_nil : urlDecode [] = [] := rfl

theorem urlDecode_cons_of_ne (c : Char) (rest : Str) (hc : c ≠ '%') :
    urlDecode (c :: rest) = plainChar c :: urlDecode rest := by
  have hs := urlDecodeLoop_shift [c] rest rest.length 0
  simp only [List.singleton_append, List.length_singleton, Nat.add_zero] at hs
  unfold urlDecode plainChar
  simp only [List.length_cons, urlDecodeLoop, charAt, List.getD_cons_zero, hc, false_and,
    if_false, Nat.zero_lt_succ, if_true, List.nil_append, Nat.zero_add]
  split
  · rw [Nat.add_comm rest.length 1, hs]; simp
  · rw [Nat.add_comm rest.length 1, hs]; simp

theorem urlDecode_percent_short (rest : Str) (h : rest.length < 2) :
    urlDecode ('%' :: rest) = '%' :: urlDecode rest := by
  have hs := urlDecodeLoop_shift ['%'] rest rest.length 0
  simp only [List.singleton_append, List.length_singleton, Nat.add_zero] at hs
  have h2 : ¬ (0 + 1 + 1 < rest.length + 1) := by omega
  have h3 : ('%' : Char) ≠ '+' := by decide
  unfold urlDecode
  simp only [List.length_cons, urlDecodeLoop, charAt, List.getD_cons_zero, h2, and_false,
    if_false, Nat.zero_lt_succ, if_true, List.nil_append, Nat.zero_add, h3]
  rw [Nat.add_comm rest.length 1, hs]; simp

theorem urlDecodeLoop_succ (text : Str) (len fuel i : Nat) (d : Str) :
    urlDecodeLoop text len (fuel + 1) i d =
      if i < len then
        if charAt text i = '%' ∧ i + 1 + 1 < len then
          urlDecodeLoop text len fuel (i + 1 + 2)
            (d ++ [Char.ofNat (strtol16 (charAt text (i + 1)) (charAt text (i + 1 + 1)) % 256)])
        else if charAt text i = '+' then urlDecodeLoop text len fuel (i + 1) (d ++ [' '])
        else urlDecodeLoop text len fuel (i + 1) (d ++ [charAt text i])
      else d := rfl

theorem urlDecode_escape (a b : Char) (r : Str) :
    urlDecode ('%' :: a :: b :: r) = Char.ofNat (strtol16 a b % 256) :: urlDecode r := by
  have hs := urlDecodeLoop_shift ['%', a, b] r (r.length + 2) 0
  have hf := urlDecodeLoop_fuel_add r r.length r.length 0 [] (by omega) 2
  simp only [List.length_cons, List.length_nil, Nat.add_zero] at hs
  have h2 : 0 + 1 + 1 < r.length + 1 + 1 + 1 := by omega
  unfold urlDecode
  rw [show ('%' :: a :: b :: r).length = (r.length + 2) + 1 from rfl, urlDecodeLoop_succ]
  have e : r.length + 2 + 1 = 0 + 1 + 1 + 1 + r.length := by omega
  have e2 : ('%' :: a :: b :: r) = ['%', a, b] ++ r := rfl
  have h3 : (0 : Nat) < r.length + 2 + 1 := by omega
  have h4 : 0 + 1 + 1 < r.length + 2 + 1 := by omega
  simp only [h3, h4, if_true, charAt, List.getD_cons_zero, and_self, List.getD_cons_succ,
    List.nil_append]
  rw [e, e2, hs, hf]; simp [urlDecode]

theorem urlDecode_append_of_no_percent (p r : Str) (hp : '%' ∉ p) :
    urlDecode (p ++ r) = urlDecode p ++ urlDecode r := by
  induction p with
  | nil => simp [urlDecode_nil]
  | cons c p ih =>
    have hc : c ≠ '%' := fun h => hp (by simp [h])
    have hp' : '%' ∉ p := fun h => hp (by simp [h])
    rw [List.cons_append, urlDecode_cons_of_ne _ _ hc, urlDecode_cons_of_ne _ _ hc, ih hp']
    rfl

theorem hexDigit_of_hexOf (v : Nat) (c : Char) (h : hexOf v c) : hexDigit c = some v ∧ v < 16 := by
  have hv : v < 16 := by
    rcases h with h | h
    · have := (List.getElem?_eq_some_iff.mp h).1
      simpa using this
    · have := (List.getElem?_eq_some_iff.mp h).1
      simpa using this
  refine ⟨?_, hv⟩
  unfold hexOf at h
  interval_cases v <;> simp at h <;> rcases h with rfl | rfl <;> decide

theorem inEscape_escape (a b : Char) (r : Str) (i : Nat) :
    inEscape ('%' :: a :: b :: r) i
      = if i = 0 then false else if i ≤ 2 then true else inEscape r (i - 3) := by
  simp [inEscape]

theorem inEscape_cons_of_ne (c : Char) (r : Str) (i : Nat) (hc : c ≠ '%') :
    inEscape (c :: r) i = if i = 0 then false else inEscape r (i - 1) := by
  conv => lhs; unfold inEscape
  split
  · rename_i heq; cases heq
  · rename_i heq; cases heq; exact absurd rfl hc
  · rename_i heq; cases heq; rfl

theorem inEscape_percent_short (r : Str) (i : Nat) (hr : r.length < 2) :
    inEscape ('%' :: r) i = if i = 0 then false else inEscape r (i - 1) := by
  match r, hr with
  | [], _ => simp [inEscape]
  | [a], _ => simp [inEscape]

theorem urlDecode_plus_aux (n : Nat) : ∀ (p q : Str), p.length = n →
    inEscape (p ++ '+' :: q) p.length = false →
    urlDecode (p ++ '+' :: q) = urlDecode p ++ ' ' :: urlDecode q := by
  induction n using Nat.strong_induction_on with
  | _ n ih =>
    intro p q hn h
    match p, hn, h with
    | [], _, _ =>
      simp [urlDecode_nil, urlDecode_cons_of_ne '+' q (by decide), plainChar]
    | c :: p', hn, h =>
      by_cases hc : c = '%'
      · subst hc
        match p', hn, h with
        | [], _, h =>
          match q, h with
          | [], _ =>
            simp [urlDecode_percent_short, urlDecode_nil, urlDecode_cons_of_ne '+' [] (by decide),
              plainChar]
          | q0 :: q', h => simp [inEscape] at h
        | [a], _, h => simp [inEscape] at h
        | a :: b :: p'', hn, h =>
          simp only [List.cons_append, List.length_cons, inEscape_escape] at h
          have h' : inEscape (p'' ++ '+' :: q) p''.length = false := by
            simpa using h
          have hlen : p''.length < n := by simp at hn; omega
          simp only [List.cons_append, urlDecode_escape]
          rw [ih _ hlen p'' q rfl h']
      · simp only [List.cons_append, List.length_cons, inEscape_cons_of_ne _ _ _ hc] at h
        have h' : inEscape (p' ++ '+' :: q) p'.length = false := by simpa using h
        have hlen : p'.length < n := by simp at hn; omega
        simp only [List.cons_append, urlDecode_cons_of_ne _ _ hc]
        rw [ih _ hlen p' q rfl h']

/-! ## `_parseArguments` -/

theorem firstIndex_none {c : Char} {l : Str} (h : firstIndex c l = none) : c ∉ l := by
  induction l with
  | nil => simp
  | cons x xs ih =>
    simp only [firstIndex] at h
    split at h
    · cases h
    · rename_i hx
      have h' : firstIndex c xs = none := by
        cases hf : firstIndex c xs with
        | none => rfl
        | some k => rw [hf] at h; cases h
      simp only [List.mem_cons, not_or]
      exact ⟨fun e => hx e.symm, ih h'⟩

theorem firstIndex_some {c : Char} {l : Str} {k : Nat} (h : firstIndex c l = some k) :
    c ∉ l.take k ∧ l.drop k = c :: l.drop (k + 1) ∧ k < l.length := by
  induction l generalizing k with
  | nil => simp [firstIndex] at h
  | cons x xs ih =>
    simp only [firstIndex] at h
    split at h
    · rename_i hx
      cases h
      subst hx
      simp
    · rename_i hx
      cases hf : firstIndex c xs with
      | none => rw [hf] at h; cases h
      | some j =>
        rw [hf] at h
        simp only [Option.map_some', Option.some.injEq] at h
        subst h
        obtain ⟨h1, h2, h3⟩ := ih hf
        refine ⟨?_, ?_, ?_⟩
        · simp only [List.take_succ_cons, List.mem_cons, not_or]
          exact ⟨fun e => hx e.symm, h1⟩
        · simpa using h2
        · simp; omega

theorem firstIndex_of_split {c : Char} (pre post : Str) (h : c ∉ pre) :
    firstIndex c (pre ++ c :: post) = some pre.length := by
  induction pre with
  | nil => simp [firstIndex]
  | cons x xs ih =>
    have hx : ¬ x = c := fun e => h (by simp [e])
    have hxs : c ∉ xs := fun e => h (by simp [e])
    simp [firstIndex, hx, ih hxs]

theorem firstIndex_of_not_mem {c : Char} {l : Str} (h : c ∉ l) : firstIndex c l = none := by
  cases hf : firstIndex c l with
  | none => rfl
  | some k =>
    obtain ⟨_, h2, h3⟩ := firstIndex_some hf
    exfalso; apply h
    have : c ∈ l.drop k := by rw [h2]; simp
    exact List.mem_of_mem_drop this

theorem takeWhile_ne_of_split {c : Char} (pre post : Str) (h : c ∉ pre) :
    (pre ++ c :: post).takeWhile (fun x => x != c) = pre
    ∧ (pre ++ c :: post).dropWhile (fun x => x != c) = c :: post := by
  induction pre with
  | nil => simp
  | cons x xs ih =>
    have hx : ¬ x = c := fun e => h (by simp [e])
    have hxs : c ∉ xs := fun e => h (by simp [e])
    obtain ⟨h1, h2⟩ := ih hxs
    simp [List.takeWhile_cons, List.dropWhile_cons, hx, h1, h2]

theorem segments_of_not_mem {l : Str} (h : '&' ∉ l) : segments l = [l] := by
  induction l with
  | nil => rfl
  | cons x xs ih =>
    have hx : ¬ x = '&' := fun e => h (by simp [e])
    have hxs : '&' ∉ xs := fun e => h (by simp [e])
    simp [segments, hx, ih hxs]

theorem segments_of_split (pre post : Str) (h : '&' ∉ pre) :
    segments (pre ++ '&' :: post) = pre :: segments post := by
  induction pre with
  | nil => simp [segments]
  | cons x xs ih =>
    have hx : ¬ x = '&' := fun e => h (by simp [e])
    have hxs : '&' ∉ xs := fun e => h (by simp [e])
    simp [segments, hx, ih hxs]

theorem segments_length_pos (l : Str) : 0 < (segments l).length := by
  induction l with
  | nil => simp [segments]
  | cons x xs ih =>
    simp only [segments]
    split
    · simp
    · split <;> simp
theorem indexOfFrom_of_lt (data : Str) (c : Char) (pos : Nat) (h : pos < data.length) :
    indexOfFrom data c pos =
      match firstIndex c (data.drop pos) with
      | none => -1
      | some k => ((pos + k : Nat) : Int) := by
  simp [indexOfFrom, Nat.not_le.mpr h]

theorem indexOfFrom_of_ge (data : Str) (c : Char) (pos : Nat) (h : data.length ≤ pos) :
    indexOfFrom data c pos = -1 := by
  simp [indexOfFrom, h]

theorem substring_window (data : Str) (pos a b : Nat) (hab : a ≤ b) :
    substring data (pos + a) ((pos + b : Nat) : Int) = ((data.drop pos).take b).drop a := by
  have h1 : ¬ (((pos + b : Nat) : Int) < 0) := by omega
  have h2 : max (pos + a) (((pos + b : Nat) : Int)).toNat = pos + b := by
    rw [Int.toNat_ofNat]; omega
  have h3 : min (pos + a) (((pos + b : Nat) : Int)).toNat = pos + a := by
    rw [Int.toNat_ofNat]; omega
  unfold substring
  rw [if_neg h1, h2, h3]
  rw [List.take_drop, List.drop_drop]

theorem substring_to_end (data : Str) (pos a : Nat) :
    substring data (pos + a) (-1) = (data.drop pos).drop a := by
  unfold substring
  rw [if_pos (by decide), List.drop_drop]

theorem segmentArg_of_not_mem {seg : Str} (h : '=' ∉ seg) : segmentArg seg = none := by
  simp [segmentArg, h]

theorem segmentArg_of_split (k v : Str) (h : '=' ∉ k) :
    segmentArg (k ++ '=' :: v) = some { key := urlDecode k, value := urlDecode v } := by
  obtain ⟨h1, h2⟩ := takeWhile_ne_of_split (c := '=') k v h
  simp [segmentArg, h1, h2]

theorem take_split_at (l : Str) (ke ka : Nat) (c : Char)
    (h : l.drop ke = c :: l.drop (ke + 1)) (hlt : ke < ka) :
    l.take ka = l.take ke ++ c :: (l.take ka).drop (ke + 1) := by
  have h1 : (l.take ka).take ke = l.take ke := by
    rw [List.take_take, Nat.min_eq_left (Nat.le_of_lt hlt)]
  have h2 : (l.take ka).drop ke = c :: (l.take ka).drop (ke + 1) := by
    rw [List.drop_take, List.drop_take, h]
    have : ka - ke = (ka - (ke + 1)) + 1 := by omega
    rw [this, List.take_succ_cons]
  conv => lhs; rw [← List.take_append_drop ke (l.take ka), h1, h2]

theorem not_mem_take_of_le (l : Str) (c : Char) (ka ke : Nat) (hle : ka ≤ ke)
    (h : c ∉ l.take ke) : c ∉ l.take ka := by
  intro hm
  apply h
  have : l.take ka = (l.take ke).take ka := by
    rw [List.take_take, Nat.min_eq_left hle]
  rw [this] at hm
  exact List.mem_of_mem_take hm

/-- The second loop of `_parseArguments` from position `pos` on appends the
arguments of the segments of the rest of the text. -/
theorem parseArgsLoop_spec (data : Str) (argCount : Nat) :
    ∀ (fuel pos : Nat) (args : List RequestArgument),
      pos ≤ data.length → data.length - pos + 1 ≤ fuel →
      args.length + (segments (data.drop pos)).length ≤ argCount →
      parseArgsLoop data argCount fuel pos args
        = args ++ (segments (data.drop pos)).filterMap segmentArg := by
  intro fuel
  induction fuel with
  | zero => intro pos args _ h; omega
  | succ n ih =>
    intro pos args hpos hfuel hcount
    have hseg := segments_length_pos (data.drop pos)
    have hlt : args.length < argCount := by omega
    rw [parseArgsLoop]
    simp only [hlt, if_true]
    rcases Nat.lt_or_ge pos data.length with hp | hp
    · rw [indexOfFrom_of_lt _ _ _ hp, indexOfFrom_of_lt _ _ _ hp]
      cases hamp : firstIndex '&' (data.drop pos) with
      | none =>
        have hna := firstIndex_none hamp
        rw [segments_of_not_mem hna]
        cases heq : firstIndex '=' (data.drop pos) with
        | none =>
          have hne := firstIndex_none heq
          simp [segmentArg_of_not_mem hne]
        | some ke =>
          obtain ⟨e1, e2, e3⟩ := firstIndex_some heq
          have hsplit : data.drop pos
              = (data.drop pos).take ke ++ '=' :: (data.drop pos).drop (ke + 1) := by
            conv => lhs; rw [← List.take_append_drop ke (data.drop pos), e2]
          have hc : ¬ (((pos + ke : Nat) : Int) = -1 ∨ ((pos + ke : Nat) : Int) > -1 ∧ (-1 : Int) ≠ -1) := by
            omega
          have k1 := substring_window data pos 0 ke (Nat.zero_le _)
          have k2 := substring_to_end data pos (ke + 1)
          simp only [Nat.add_zero, List.drop_zero] at k1
          simp only [hc, if_false, if_true, Int.toNat_ofNat, k1, Nat.add_assoc, k2]
          conv => rhs; rw [hsplit]
          simp [segmentArg_of_split _ _ e1]
      | some ka =>
        obtain ⟨a1, a2, a3⟩ := firstIndex_some hamp
        have hsplitA : data.drop pos
            = (data.drop pos).take ka ++ '&' :: (data.drop pos).drop (ka + 1) := by
          conv => lhs; rw [← List.take_append_drop ka (data.drop pos), a2]
        have hsegs : segments (data.drop pos)
            = (data.drop pos).take ka :: segments (data.drop (pos + ka + 1)) := by
          conv => lhs; rw [hsplitA]
          rw [segments_of_split _ _ a1, List.drop_drop]
          rfl
        have hlen : (data.drop pos).length = data.length - pos := List.length_drop _ _
        have hpos' : pos + ka + 1 ≤ data.length := by omega
        have hfuel' : data.length - (pos + ka + 1) + 1 ≤ n := by omega
        have hne : ¬ (((pos + ka : Nat) : Int) = -1) := by omega
        rw [hsegs] at hcount
        simp only [List.length_cons] at hcount
        rw [hsegs]
        cases heq : firstIndex '=' (data.drop pos) with
        | none =>
          have hne' := firstIndex_none heq
          have hseg1 : segmentArg ((data.drop pos).take ka) = none :=
            segmentArg_of_not_mem (fun h => hne' (List.mem_of_mem_take h))
          simp only [true_or, if_true, hne, if_false, Int.toNat_ofNat]
          rw [ih _ _ hpos' hfuel' (by omega)]
          simp [hseg1]
        | some ke =>
          obtain ⟨e1, e2, e3⟩ := firstIndex_some heq
          have hkk : ke ≠ ka := by
            intro e
            rw [e, a2] at e2
            have := (List.cons.inj e2).1
            exact absurd this (by decide)
          rcases Nat.lt_or_ge ka ke with hgt | hle
          · have hc : (((pos + ke : Nat) : Int) = -1 ∨
                ((pos + ke : Nat) : Int) > ((pos + ka : Nat) : Int) ∧ ((pos + ka : Nat) : Int) ≠ -1) := by
              omega
            have hseg1 : segmentArg ((data.drop pos).take ka) = none :=
              segmentArg_of_not_mem (not_mem_take_of_le _ _ _ _ (Nat.le_of_lt hgt) e1)
            simp only [hc, if_true, hne, if_false, Int.toNat_ofNat]
            rw [ih _ _ hpos' hfuel' (by omega)]
            simp [hseg1]
          · have hlt' : ke < ka := by omega
            have hc : ¬ (((pos + ke : Nat) : Int) = -1 ∨
                ((pos + ke : Nat) : Int) > ((pos + ka : Nat) : Int) ∧ ((pos + ka : Nat) : Int) ≠ -1) := by
              omega
            have k1 := substring_window data pos 0 ke (Nat.zero_le _)
            have k2 : substring data (pos + ke + 1) ((pos + ka : Nat) : Int)
                = ((data.drop pos).take ka).drop (ke + 1) :=
              substring_window data pos (ke + 1) ka (by omega)
            simp only [Nat.add_zero, List.drop_zero] at k1
            have hseg1 := take_split_at (data.drop pos) ke ka '=' e2 hlt'
            have hseg2 : segmentArg ((data.drop pos).take ka)
                = some { key := urlDecode ((data.drop pos).take ke),
                         value := urlDecode (((data.drop pos).take ka).drop (ke + 1)) } := by
              conv => lhs; rw [hseg1]
              exact segmentArg_of_split _ _ e1
            simp only [hc, if_false, hne, Int.toNat_ofNat, k1, k2]
            rw [ih _ _ hpos' hfuel' (by simp; omega)]
            simp [hseg2]
    · have hd : data.drop pos = [] := List.drop_eq_nil_of_le hp
      rw [indexOfFrom_of_ge _ _ _ hp, indexOfFrom_of_ge _ _ _ hp, hd]
      simp [segments, segmentArg]
theorem segments_drop_of_firstIndex (data : Str) (pos ka : Nat)
    (hamp : firstIndex '&' (data.drop pos) = some ka) :
    segments (data.drop pos)
      = (data.drop pos).take ka :: segments (data.drop (pos + ka + 1)) := by
  obtain ⟨a1, a2, _⟩ := firstIndex_some hamp
  have hsplitA : data.drop pos
      = (data.drop pos).take ka ++ '&' :: (data.drop pos).drop (ka + 1) := by
    conv => lhs; rw [← List.take_append_drop ka (data.drop pos), a2]
  conv => lhs; rw [hsplitA]
  rw [segments_of_split _ _ a1, List.drop_drop]
  rfl

/-- The first loop of `_parseArguments` counts the segments of the text. -/
theorem countArgsLoop_spec (data : Str) :
    ∀ (fuel i count : Nat), i ≤ data.length → data.length - i ≤ fuel →
      countArgsLoop data fuel i count + 1 = count + (segments (data.drop i)).length := by
  intro fuel
  induction fuel with
  | zero =>
    intro i count hi hf
    have hd : data.drop i = [] := List.drop_eq_nil_of_le (by omega)
    simp [countArgsLoop, hd, segments]
  | succ n ih =>
    intro i count hi hf
    rw [countArgsLoop]
    rcases Nat.lt_or_ge i data.length with hp | hp
    · simp only [hp, if_true]
      rw [indexOfFrom_of_lt _ _ _ hp]
      cases hamp : firstIndex '&' (data.drop i) with
      | none =>
        rw [segments_of_not_mem (firstIndex_none hamp)]
        simp
      | some ka =>
        obtain ⟨_, _, a3⟩ := firstIndex_some hamp
        have hlen : (data.drop i).length = data.length - i := List.length_drop _ _
        have hne : ¬ (((i + ka : Nat) : Int) = -1) := by omega
        simp only [hne, if_false, Int.toNat_ofNat]
        rw [ih _ _ (by omega) (by omega), segments_drop_of_firstIndex _ _ _ hamp]
        simp only [List.length_cons]
        omega
    · have hd : data.drop i = [] := List.drop_eq_nil_of_le hp
      simp [Nat.not_lt.mpr hp, hd, segments]

theorem parseArgumentList_eq_spec (s : Str) : parseArgumentList s = specArguments s := by
  unfold parseArgumentList specArguments
  by_cases h : s.length = 0
  · have : s = [] := List.length_eq_zero.mp h
    subst this
    simp [segments, segmentArg]
  · rw [if_neg h]
    have hc := countArgsLoop_spec s s.length 0 1 (Nat.zero_le _) (by omega)
    simp only [List.drop_zero] at hc
    have := parseArgsLoop_spec s (countArgsLoop s s.length 0 1) (s.length + 1) 0 []
      (Nat.zero_le _) (by omega) (by simp; omega)
    simpa using this

/-- C1: for every string `s` and whatever the server held before,
`_parseArguments(s)` leaves as argument list exactly one pair per
`'&'`-delimited segment of `s` that contains `'='`, in order, with the decoded
text before the segment's first `'='` as key and the decoded text after it as
value; segments without `'='` contribute nothing.  In particular `a=1&b&c=2`
gives `[(a,1),(c,2)]`. -/
theorem parseArguments_segments (srv : WebServer) (s : Str) :
    (_parseArguments srv s)._currentArgs = (segments s).filterMap segmentArg
    ∧ (∀ seg, '=' ∉ seg → segmentArg seg = none)
    ∧ (∀ k v, '=' ∉ k →
        segmentArg (k ++ '=' :: v) = some { key := urlDecode k, value := urlDecode v })
    ∧ (_parseArguments srv "a=1&b&c=2".toList)._currentArgs
        = [{ key := "a".toList, value := "1".toList }, { key := "c".toList, value := "2".toList }] := by
  refine ⟨?_, ?_, ?_, ?_⟩
  · exact parseArgumentList_eq_spec s
  · intro seg h; exact segmentArg_of_not_mem h
  · intro k v h; exact segmentArg_of_split k v h
  · show parseArgumentList "a=1&b&c=2".toList = _
    decide

/-! ## Escapes and `'+'` in `urlDecode` -/

theorem hexSpelling_value (b : Nat) (x1 x2 : Char) (hx : hexSpelling b x1 x2) :
    strtol16 x1 x2 = b ∧ b < 256 := by
  obtain ⟨hi, lo, hb, h1, h2⟩ := hx
  obtain ⟨d1, l1⟩ := hexDigit_of_hexOf hi x1 h1
  obtain ⟨d2, l2⟩ := hexDigit_of_hexOf lo x2 h2
  refine ⟨?_, by omega⟩
  simp [strtol16, d1, d2, hb]

/-- Every byte value has a hexadecimal spelling. -/
theorem hexSpelling_exists (b : Nat) (hb : b < 256) : ∃ x1 x2, hexSpelling b x1 x2 := by
  have h1 : b / 16 < "0123456789abcdef".toList.length := by
    have : "0123456789abcdef".toList.length = 16 := by decide
    omega
  have h2 : b % 16 < "0123456789abcdef".toList.length := by
    have : "0123456789abcdef".toList.length = 16 := by decide
    omega
  refine ⟨"0123456789abcdef".toList[b / 16], "0123456789abcdef".toList[b % 16], b / 16, b % 16,
    by omega, Or.inl ?_, Or.inl ?_⟩
  · exact List.getElem?_eq_getElem h1
  · exact List.getElem?_eq_getElem h2

/-- C3: for every byte value `b` in `0..255` (`0` included), every
two-digit hexadecimal spelling `x1 x2` of `b` in either case, and all strings
`p`, `q` with no `'%'` in `p`, `urlDecode(p ++ "%x1x2" ++ q)` is
`urlDecode(p)`, then the byte `b`, then `urlDecode(q)`; in particular
`urlDecode("%x1x2")` is the one-byte string `[b]`. -/
theorem urlDecode_valid_escape (b : Nat) (x1 x2 : Char) (p q : Str)
    (hb : b < 256) (hx : hexSpelling b x1 x2) (hp : '%' ∉ p) :
    urlDecode (p ++ '%' :: x1 :: x2 :: q) = urlDecode p ++ Char.ofNat b :: urlDecode q
    ∧ urlDecode ['%', x1, x2] = [Char.ofNat b] := by
  obtain ⟨hv, _⟩ := hexSpelling_value b x1 x2 hx
  have hmod : b % 256 = b := Nat.mod_eq_of_lt hb
  constructor
  · rw [urlDecode_append_of_no_percent _ _ hp, urlDecode_escape, hv, hmod]
  · rw [urlDecode_escape, hv, hmod, urlDecode_nil]

/-- Witness of C3: the escape `%00` between `a` and `b`, and the escape `%fF`. -/
theorem urlDecode_valid_escape_witness :
    (urlDecode ("a".toList ++ '%' :: '0' :: '0' :: "b".toList)
        = urlDecode "a".toList ++ Char.ofNat 0 :: urlDecode "b".toList
      ∧ urlDecode ['%', '0', '0'] = [Char.ofNat 0])
    ∧ (urlDecode ([] ++ '%' :: 'f' :: 'F' :: [])
        = urlDecode [] ++ Char.ofNat 255 :: urlDecode []
      ∧ urlDecode ['%', 'f', 'F'] = [Char.ofNat 255]) :=
  ⟨urlDecode_valid_escape 0 '0' '0' "a".toList "b".toList (by decide)
      ⟨0, 0, rfl, Or.inl rfl, Or.inl rfl⟩ (by decide),
   urlDecode_valid_escape 255 'f' 'F' [] [] (by decide)
      ⟨15, 15, rfl, Or.inl rfl, Or.inr rfl⟩ (by decide)⟩

/-- C4: a `'%'` with fewer than two characters after it is passed through:
for `s` without `'%'` and any character `c`, `urlDecode(s ++ "%")` is
`urlDecode(s) ++ "%"` and `urlDecode(s ++ "%" ++ [c])` is
`urlDecode(s) ++ "%" ++ urlDecode([c])`; and a `'+'` that is not one of the
two characters of an escape decodes to a space, whatever stands around it. -/
theorem urlDecode_short_percent_and_plus (s : Str) (c : Char) (p q : Str)
    (hs : '%' ∉ s) (hplus : inEscape (p ++ '+' :: q) p.length = false) :
    urlDecode (s ++ ['%']) = urlDecode s ++ ['%']
    ∧ urlDecode (s ++ ['%', c]) = urlDecode s ++ '%' :: urlDecode [c]
    ∧ urlDecode (p ++ '+' :: q) = urlDecode p ++ ' ' :: urlDecode q := by
  refine ⟨?_, ?_, ?_⟩
  · rw [urlDecode_append_of_no_percent _ _ hs, urlDecode_percent_short [] (by simp),
      urlDecode_nil]
  · rw [urlDecode_append_of_no_percent _ _ hs, urlDecode_percent_short [c] (by simp)]
  · exact urlDecode_plus_aux p.length p q rfl hplus

/-- Witness of C4: `s = "a+b"`, `c = '4'`, and the `'+'` that follows the
escape in `"%41+%2"`. -/
theorem urlDecode_short_percent_and_plus_witness :
    urlDecode ("a+b".toList ++ ['%']) = urlDecode "a+b".toList ++ ['%']
    ∧ urlDecode ("a+b".toList ++ ['%', '4']) = urlDecode "a+b".toList ++ '%' :: urlDecode ['4']
    ∧ urlDecode ("%41".toList ++ '+' :: "%2".toList)
        = urlDecode "%41".toList ++ ' ' :: urlDecode "%2".toList :=
  urlDecode_short_percent_and_plus "a+b".toList '4' "%41".toList "%2".toList
    (by decide) (by decide)

/-! ## Reading lines from the transport -/

theorem byteOfInt_toNat (b : Char) (hb : b.toNat < 256) : byteOfInt (b.toNat : Int) = b := by
  unfold byteOfInt
  have h : ((b.toNat : Int) % 256).toNat = b.toNat := by omega
  rw [h]
  exact Char.ofNat_toNat b

theorem read_cons (c : EthernetClient) (b : Char) (rest : Str) (h : c.rx = b :: rest) :
    c.read = ((b.toNat : Int), { c with rx := rest }) := by
  simp [EthernetClient.read, h]

theorem timedReadLoop_cons (n : Nat) (c : EthernetClient) (b : Char) (rest : Str)
    (h : c.rx = b :: rest) :
    timedReadLoop n c = ((b.toNat : Int), { c with rx := rest }) := by
  have hr := read_cons c b rest h
  cases n with
  | zero => simp [timedReadLoop, hr]
  | succ n =>
    have : (0 : Int) ≤ (b.toNat : Int) := by omega
    simp [timedReadLoop, hr]

theorem timedRead_cons (c : EthernetClient) (b : Char) (rest : Str) (h : c.rx = b :: rest) :
    timedRead c = ((b.toNat : Int), { c with rx := rest }) := by
  unfold timedRead
  exact timedReadLoop_cons _ c b rest h

theorem readStringUntilLoop_line (t : Char) (ht : t.toNat < 256) (rest : Str) :
    ∀ (line : Str) (fuel : Nat) (c : EthernetClient) (ret : Str),
      c.rx = line ++ t :: rest → t ∉ line → isBytes line → line.length + 1 ≤ fuel →
      readStringUntilLoop t fuel c ret = (ret ++ line, { c with rx := rest }) := by
  intro line
  induction line with
  | nil =>
    intro fuel c ret hrx _ _ hf
    obtain ⟨n, rfl⟩ : ∃ n, fuel = n + 1 := ⟨fuel - 1, by omega⟩
    have hr := timedRead_cons c t rest (by simpa using hrx)
    simp [readStringUntilLoop, hr, byteOfInt_toNat t ht]
  | cons b line ih =>
    intro fuel c ret hrx hnot hbytes hf
    obtain ⟨n, rfl⟩ : ∃ n, fuel = n + 1 := ⟨fuel - 1, by simp at hf; omega⟩
    have hr := timedRead_cons c b (line ++ t :: rest) (by simpa using hrx)
    have hb : b.toNat < 256 := hbytes b (by simp)
    have hne : b ≠ t := fun e => hnot (by simp [e])
    have hge : (0 : Int) ≤ (b.toNat : Int) := by omega
    rw [readStringUntilLoop]
    simp only [hr, byteOfInt_toNat b hb, hge, hne, ne_eq, not_false_eq_true, and_self, if_true]
    rw [ih n _ (ret ++ [b]) rfl (fun h => hnot (by simp [h]))
      (fun x hx => hbytes x (by simp [hx])) (by simp at hf; omega)]
    simp

/-- A line that is already received, with its terminator, is read whole and
the terminator is consumed. -/
theorem readStringUntil_line (c : EthernetClient) (t : Char) (line rest : Str)
    (hrx : c.rx = line ++ t :: rest) (ht : t.toNat < 256) (hnot : t ∉ line)
    (hbytes : isBytes line) :
    readStringUntil c t = (line, { c with rx := rest }) := by
  unfold readStringUntil
  have hlen : line.length + 1 ≤ c.stream.length + 1 := by
    simp [EthernetClient.stream, hrx]
  have := readStringUntilLoop_line t ht rest line _ c [] hrx hnot hbytes hlen
  simpa using this

/-- A received line ending in CR LF is read by `readLine`. -/
theorem readLine_line (c : EthernetClient) (line rest : Str)
    (hrx : c.rx = line ++ '\r' :: '\n' :: rest) (hnot : '\r' ∉ line) (hbytes : isBytes line) :
    readLine c = (line, { c with rx := rest }) := by
  unfold readLine
  rw [readStringUntil_line c '\r' line ('\n' :: rest) hrx (by decide) hnot hbytes]
  simp only
  rw [readStringUntil_line _ '\n' [] rest rfl (by decide) (by simp) (by intro x hx; cases hx)]

/-! ## The request line -/

theorem substring_nat (data : Str) (l r : Nat) (h : l ≤ r) :
    substring data l (r : Int) = (data.take r).drop l := by
  have := substring_window data 0 l r h
  simpa using this

theorem indexOf_of_split (c : Char) (pre post : Str) (h : c ∉ pre) :
    indexOf (pre ++ c :: post) c = (pre.length : Int) := by
  unfold indexOf
  rw [indexOfFrom_of_lt _ _ _ (by simp)]
  simp [firstIndex_of_split pre post h]

theorem indexOf_of_not_mem (c : Char) (l : Str) (h : c ∉ l) : indexOf l c = -1 := by
  unfold indexOf indexOfFrom
  split
  · rfl
  · simp [firstIndex_of_not_mem h]

theorem indexOfFrom_of_split (c : Char) (skip pre post : Str) (h : c ∉ pre) :
    indexOfFrom (skip ++ pre ++ c :: post) c skip.length = ((skip.length + pre.length : Nat) : Int) := by
  rw [indexOfFrom_of_lt _ _ _ (by simp)]
  have : (skip ++ pre ++ c :: post).drop skip.length = pre ++ c :: post := by
    rw [List.append_assoc]; simp
  rw [this, firstIndex_of_split pre post h]

theorem indexOfFrom_of_not_mem (c : Char) (skip rest : Str) (h : c ∉ rest) :
    indexOfFrom (skip ++ rest) c skip.length = -1 := by
  unfold indexOfFrom
  split
  · rfl
  · have : (skip ++ rest).drop skip.length = rest := by simp
    simp [this, firstIndex_of_not_mem h]

theorem take_append_of_length (a b : Str) (n : Nat) (h : n = a.length) :
    (a ++ b).take n = a := by
  subst h; exact List.take_left a b

theorem drop_append_of_length (a b : Str) (n k : Nat) (h : n = a.length + k) :
    (a ++ b).drop n = b.drop k := by
  subst h; exact List.drop_append k

/-- A request line with two spaces splits into the text before the first
space, the text between the two, and the text after the second space less
its first seven characters. -/
theorem splitRequestLine_two_spaces (m t v : Str) (hm : ' ' ∉ m) (ht : ' ' ∉ t) :
    splitRequestLine (m ++ ' ' :: t ++ ' ' :: v) = some (m, t, v.drop 7) := by
  have h1 : indexOf (m ++ ' ' :: t ++ ' ' :: v) ' ' = (m.length : Int) := by
    have := indexOf_of_split ' ' m (t ++ ' ' :: v) hm
    simpa using this
  have e : m ++ ' ' :: t ++ ' ' :: v = (m ++ [' ']) ++ t ++ ' ' :: v := by simp
  have h2 : indexOfFrom (m ++ ' ' :: t ++ ' ' :: v) ' ' (m.length + 1)
      = ((m.length + 1 + t.length : Nat) : Int) := by
    have := indexOfFrom_of_split ' ' (m ++ [' ']) t v ht
    rw [e]
    simpa using this
  unfold splitRequestLine
  have h3 : ((m.length : Int) + 1).toNat = m.length + 1 := by omega
  simp only [h1, h3, h2]
  have hc : ¬ ((m.length : Int) = -1 ∨ ((m.length + 1 + t.length : Nat) : Int) = -1) := by omega
  rw [if_neg hc]
  have s1 : substring (m ++ ' ' :: t ++ ' ' :: v) 0 (m.length : Int) = m := by
    rw [substring_nat _ _ _ (Nat.zero_le _)]; simp
  have s2 : substring (m ++ ' ' :: t ++ ' ' :: v) (m.length + 1)
      ((m.length + 1 + t.length : Nat) : Int) = t := by
    rw [substring_nat _ _ _ (by omega), e]
    rw [take_append_of_length ((m ++ [' ']) ++ t) (' ' :: v) _ (by simp; omega),
      drop_append_of_length (m ++ [' ']) t _ 0 (by simp)]
    rfl
  have s3 : substringFrom (m ++ ' ' :: t ++ ' ' :: v)
      ((((m.length + 1 + t.length : Nat) : Int) + 8).toNat) = v.drop 7 := by
    have h5 : ((((m.length + 1 + t.length : Nat) : Int) + 8).toNat)
        = ((m ++ [' ']) ++ t ++ [' ']).length + 7 := by simp; omega
    have e' : m ++ ' ' :: t ++ ' ' :: v = ((m ++ [' ']) ++ t ++ [' ']) ++ v := by simp
    unfold substringFrom
    rw [h5, e', drop_append_of_length _ v _ 7 rfl]
  rw [s1, s2, s3]

theorem exists_first_split {c : Char} {l : Str} (h : 0 < l.count c) :
    ∃ pre post, l = pre ++ c :: post ∧ c ∉ pre ∧ l.count c = post.count c + 1 := by
  obtain ⟨pre, post, hl, hn⟩ := List.eq_append_cons_of_mem (List.count_pos_iff.mp h)
  refine ⟨pre, post, hl, hn, ?_⟩
  rw [hl, List.count_append, List.count_cons_self, List.count_eq_zero_of_not_mem hn]
  omega

/-- A text with at least two spaces has a first and a second one. -/
theorem exists_two_spaces (req : Str) (h : 2 ≤ req.count ' ') :
    ∃ m t v, req = m ++ ' ' :: t ++ ' ' :: v ∧ ' ' ∉ m ∧ ' ' ∉ t := by
  obtain ⟨m, post, h1, hm, hc⟩ := exists_first_split (c := ' ') (l := req) (by omega)
  obtain ⟨t, v, h2, ht, _⟩ := exists_first_split (c := ' ') (l := post) (by omega)
  refine ⟨m, t, v, ?_, hm, ht⟩
  rw [h1, h2]; simp

/-- A text with fewer than two spaces is refused as a request line. -/
theorem splitRequestLine_few_spaces (req : Str) (h : req.count ' ' < 2) :
    splitRequestLine req = none := by
  unfold splitRequestLine
  by_cases h0 : ' ' ∈ req
  · obtain ⟨m, post, h1, hm, hc⟩ :=
      exists_first_split (c := ' ') (l := req) (List.count_pos_iff.mpr h0)
    have hpost : ' ' ∉ post := by
      intro hp
      have := List.count_pos_iff.mpr hp
      omega
    have i1 : indexOf req ' ' = (m.length : Int) := by
      rw [h1]; exact indexOf_of_split ' ' m post hm
    have e : req = (m ++ [' ']) ++ post := by rw [h1]; simp
    have i2 : indexOfFrom req ' ' (m.length + 1) = -1 := by
      have := indexOfFrom_of_not_mem ' ' (m ++ [' ']) post hpost
      rw [e]; simpa using this
    have h3 : ((m.length : Int) + 1).toNat = m.length + 1 := by omega
    simp [i1, h3, i2]
  · simp [indexOf_of_not_mem ' ' req h0]

theorem splitUrl_query (P Q : Str) (hP : '?' ∉ P) : splitUrl (P ++ '?' :: Q) = (P, Q) := by
  unfold splitUrl
  have h1 := indexOf_of_split '?' P Q hP
  have h2 : ¬ ((P.length : Int) = -1) := by omega
  have h3 : ((P.length : Int) + 1).toNat = P.length + 1 := by omega
  simp only [h1, ne_eq, h2, not_false_eq_true, if_true, h3]
  rw [substring_nat _ _ _ (Nat.zero_le _), take_append_of_length P _ _ rfl]
  unfold substringFrom
  have e : P ++ '?' :: Q = (P ++ ['?']) ++ Q := by simp
  rw [e, drop_append_of_length (P ++ ['?']) Q _ 0 (by simp)]
  rfl

theorem collectHeader_fields (s : WebServer) (n v : Str) :
    (_collectHeader s n v)._currentUri = s._currentUri
    ∧ (_collectHeader s n v)._currentMethod = s._currentMethod
    ∧ (_collectHeader s n v)._currentVersion = s._currentVersion
    ∧ (_collectHeader s n v)._currentArgs = s._currentArgs := ⟨rfl, rfl, rfl, rfl⟩

theorem getHeaderLoop_fields :
    ∀ (fuel : Nat) (s : WebServer) (c : EthernetClient),
      (getHeaderLoop fuel s c).1._currentUri = s._currentUri
      ∧ (getHeaderLoop fuel s c).1._currentMethod = s._currentMethod
      ∧ (getHeaderLoop fuel s c).1._currentVersion = s._currentVersion := by
  intro fuel
  induction fuel with
  | zero => intro s c; exact ⟨rfl, rfl, rfl⟩
  | succ n ih =>
    intro s c
    rw [getHeaderLoop]
    simp only
    split
    · exact ⟨rfl, rfl, rfl⟩
    · split
      · exact ⟨rfl, rfl, rfl⟩
      · split
        · obtain ⟨h1, h2, h3⟩ := ih
            { _collectHeader s (substring (readLine c).1 0 (indexOf (readLine c).1 ':'))
                (substringFrom (readLine c).1 (indexOf (readLine c).1 ':' + 2).toNat) with
              _hostHeader := substringFrom (readLine c).1 (indexOf (readLine c).1 ':' + 2).toNat }
            (readLine c).2
          exact ⟨h1, h2, h3⟩
        · obtain ⟨h1, h2, h3⟩ := ih
            (_collectHeader s (substring (readLine c).1 0 (indexOf (readLine c).1 ':'))
                (substringFrom (readLine c).1 (indexOf (readLine c).1 ':' + 2).toNat))
            (readLine c).2
          exact ⟨h1, h2, h3⟩

/-- The parser on a request whose line has fewer than two spaces. -/
theorem parseRequest_of_few_spaces (cfg : Config) (fuel : Nat) (s : WebServer)
    (c : EthernetClient) (h : (readLine c).1.count ' ' < 2) :
    _parseRequest cfg fuel s c = some (false, resetHeaders s, (readLine c).2) := by
  unfold _parseRequest
  simp only [splitRequestLine_few_spaces _ h]

/-- The parser on a request without body whose line has two spaces. -/
theorem parseRequest_of_get (cfg : Config) (fuel : Nat) (s : WebServer) (c : EthernetClient)
    (m t v : Str) (hline : (readLine c).1 = m ++ ' ' :: t ++ ' ' :: v)
    (hm : ' ' ∉ m) (ht : ' ' ∉ t) (hb : hasBody (methodOf m) = false) :
    ∃ s' c', _parseRequest cfg fuel s c = some (true, s', c')
      ∧ s'._currentUri = (splitUrl t).1 ∧ s'._currentMethod = methodOf m
      ∧ s'._currentVersion = 0
      ∧ s'._currentArgs = parseArgumentList (splitUrl t).2 := by
  unfold _parseRequest
  simp only [hline, splitRequestLine_two_spaces m t v hm ht, hb, Bool.false_eq_true, if_false]
  refine ⟨_, _, rfl, ?_, ?_, ?_, rfl⟩
  · simp only [_parseArguments]
    exact (getHeaderLoop_fields _ _ _).1
  · simp only [_parseArguments]
    exact (getHeaderLoop_fields _ _ _).2.1
  · simp only [_parseArguments]
    exact (getHeaderLoop_fields _ _ _).2.2
theorem isBytes_append {a b : Str} (ha : isBytes a) (hb : isBytes b) : isBytes (a ++ b) := by
  intro x hx
  rcases List.mem_append.mp hx with h | h
  · exact ha x h
  · exact hb x h

theorem isBytes_cons {x : Char} {a : Str} (hx : x.toNat < 256) (ha : isBytes a) :
    isBytes (x :: a) := by
  intro y hy
  rcases List.mem_cons.mp hy with h | h
  · rw [h]; exact hx
  · exact ha y h

/-- The state in which the header loop starts: header values reset, version,
uri, method and handler set from the request line. -/
theorem parseRequest_of_get_eq (cfg : Config) (fuel : Nat) (s : WebServer) (c : EthernetClient)
    (m t v : Str) (hline : (readLine c).1 = m ++ ' ' :: t ++ ' ' :: v)
    (hm : ' ' ∉ m) (ht : ' ' ∉ t) (hb : hasBody (methodOf m) = false) :
    ∃ s2 : WebServer, s2._currentUri = (splitUrl t).1 ∧ s2._currentMethod = methodOf m ∧
      _parseRequest cfg fuel s c
        = some (true,
            _parseArguments (getHeaderLoop ((readLine c).2.stream.length + 1) s2 (readLine c).2).1
              (splitUrl t).2,
            (getHeaderLoop ((readLine c).2.stream.length + 1) s2 (readLine c).2).2) := by
  unfold _parseRequest
  simp only [hline, splitRequestLine_two_spaces m t v hm ht, hb, Bool.false_eq_true, if_false]
  exact ⟨_, rfl, rfl, rfl⟩

theorem getHeaderLoop_empty_line (n : Nat) (s : WebServer) (c : EthernetClient) (rest : Str)
    (hrx : c.rx = '\r' :: '\n' :: rest) :
    getHeaderLoop (n + 1) s c = (s, { c with rx := rest }) := by
  have h := readLine_line c [] rest (by simpa using hrx) (by simp) (by intro x hx; cases hx)
  rw [getHeaderLoop]
  simp [h]

/-! ## `readBytesWithTimeout` -/

theorem tick_stream (c : EthernetClient) : c.tick.stream = c.stream := by
  unfold EthernetClient.tick EthernetClient.stream
  cases h : c.wire with
  | nil => simp [h]
  | cons chunk w => simp

theorem tick_timeout (c : EthernetClient) : c.tick.timeout = c.timeout ∧ c.tick.stays = c.stays := by
  unfold EthernetClient.tick
  cases h : c.wire with
  | nil => simp
  | cons chunk w => simp

theorem waitAvailable_stream :
    ∀ (tries : Nat) (c : EthernetClient),
      (waitAvailable tries c).2.stream = c.stream
      ∧ (waitAvailable tries c).1 = (waitAvailable tries c).2.rx.length := by
  intro tries
  induction tries with
  | zero => intro c; simp [waitAvailable, EthernetClient.available]
  | succ n ih =>
    intro c
    rw [waitAvailable]
    split
    · simp [EthernetClient.available]
    · obtain ⟨h1, h2⟩ := ih c.tick
      exact ⟨by rw [h1, tick_stream], h2⟩

theorem readChars_take :
    ∀ (n : Nat) (c : EthernetClient) (data : Str), n ≤ c.rx.length → isBytes c.rx →
      readChars n c data = (data ++ c.rx.take n, { c with rx := c.rx.drop n }) := by
  intro n
  induction n with
  | zero => intro c data _ _; simp [readChars]
  | succ n ih =>
    intro c data hn hb
    cases hrx : c.rx with
    | nil => rw [hrx] at hn; simp at hn
    | cons b rest =>
      have hr := read_cons c b rest hrx
      have hb' : b.toNat < 256 := hb b (by rw [hrx]; simp)
      rw [readChars, hr]
      simp only [byteOfInt_toNat b hb']
      rw [ih _ _ (by rw [hrx] at hn; simp at hn ⊢; omega)
        (by intro x hx; exact hb x (by rw [hrx]; simp at hx ⊢; exact Or.inr hx))]
      simp

theorem isBytes_of_append_left {a b : Str} (h : isBytes (a ++ b)) : isBytes a :=
  fun x hx => h x (List.mem_append.mpr (Or.inl hx))

theorem isBytes_of_append_right {a b : Str} (h : isBytes (a ++ b)) : isBytes b :=
  fun x hx => h x (List.mem_append.mpr (Or.inr hx))

/-- The bytes the body reader holds and the bytes still to come are together
what they were before: nothing is lost, doubled or reordered, and no more
than `maxLength` bytes are held. -/
theorem readBytesWithTimeoutLoop_stream (maxLength t : Nat) :
    ∀ (fuel : Nat) (c : EthernetClient) (data : Str), isBytes c.stream →
      (readBytesWithTimeoutLoop maxLength t fuel c data).1
          ++ (readBytesWithTimeoutLoop maxLength t fuel c data).2.stream = data ++ c.stream
      ∧ (data.length ≤ maxLength →
          (readBytesWithTimeoutLoop maxLength t fuel c data).1.length ≤ maxLength) := by
  intro fuel
  induction fuel with
  | zero => intro c data _; simp [readBytesWithTimeoutLoop]
  | succ n ih =>
    intro c data hb
    rw [readBytesWithTimeoutLoop]
    split
    · rename_i hlt
      obtain ⟨w1, w2⟩ := waitAvailable_stream t c
      simp only
      split
      · exact ⟨by rw [w1], fun h => h⟩
      · have hbw : isBytes (waitAvailable t c).2.stream := by rw [w1]; exact hb
        have hbrx : isBytes (waitAvailable t c).2.rx := isBytes_of_append_left hbw
        have hav : (if data.length + (waitAvailable t c).1 > maxLength
            then maxLength - data.length else (waitAvailable t c).1)
              ≤ (waitAvailable t c).2.rx.length := by
          split <;> omega
        rw [readChars_take _ _ _ hav hbrx]
        simp only
        have hs : ({ (waitAvailable t c).2 with
            rx := (waitAvailable t c).2.rx.drop
              (if data.length + (waitAvailable t c).1 > maxLength
                then maxLength - data.length else (waitAvailable t c).1) } : EthernetClient).stream
            = ((waitAvailable t c).2.rx.drop
              (if data.length + (waitAvailable t c).1 > maxLength
                then maxLength - data.length else (waitAvailable t c).1))
              ++ (waitAvailable t c).2.wire.flatten := rfl
        have hb2 : isBytes ({ (waitAvailable t c).2 with
            rx := (waitAvailable t c).2.rx.drop
              (if data.length + (waitAvailable t c).1 > maxLength
                then maxLength - data.length else (waitAvailable t c).1) } : EthernetClient).stream := by
          rw [hs]
          intro x hx
          apply hbw x
          unfold EthernetClient.stream
          rcases List.mem_append.mp hx with h | h
          · exact List.mem_append.mpr (Or.inl (List.mem_of_mem_drop h))
          · exact List.mem_append.mpr (Or.inr h)
        obtain ⟨i1, i2⟩ := ih _ (data ++ (waitAvailable t c).2.rx.take
              (if data.length + (waitAvailable t c).1 > maxLength
                then maxLength - data.length else (waitAvailable t c).1)) hb2
        constructor
        · rw [i1, hs, ← w1]
          unfold EthernetClient.stream
          simp only [List.append_assoc]
          rw [← List.append_assoc (List.take _ _), List.take_append_drop]
        · intro _
          apply i2
          simp only [List.length_append, List.length_take]
          split <;> omega
    · exact ⟨rfl, fun h => h⟩
theorem delivered_tick_cons (c : EthernetClient) (chunk : Str) (w : List Str)
    (hw : c.wire = chunk :: w) (i : Nat) : delivered c.tick i = delivered c (i + 1) := by
  unfold delivered EthernetClient.tick
  simp [hw]
  omega

theorem tick_wire_cons (c : EthernetClient) (chunk : Str) (w : List Str)
    (hw : c.wire = chunk :: w) : c.tick.wire = w ∧ c.tick.rx = c.rx ++ chunk := by
  unfold EthernetClient.tick
  simp [hw]

theorem tick_wire_nil (c : EthernetClient) (hw : c.wire = []) : c.tick = c := by
  unfold EthernetClient.tick
  simp [hw]

theorem deliversInTime_tick (t L : Nat) (c : EthernetClient) (h : deliversInTime t L c) :
    deliversInTime t L c.tick := by
  cases hw : c.wire with
  | nil => rw [tick_wire_nil c hw]; exact h
  | cons chunk w =>
    obtain ⟨tw, _⟩ := tick_wire_cons c chunk w hw
    intro i hi hd
    rw [delivered_tick_cons c chunk w hw] at hd
    obtain ⟨j, j1, j2, j3⟩ := h (i + 1) (by rw [hw]; rw [tw] at hi; simp; omega) hd
    refine ⟨j - 1, by omega, by omega, ?_⟩
    obtain ⟨k, rfl⟩ : ∃ k, j = k + 1 := ⟨j - 1, by omega⟩
    rw [hw] at j3
    rw [tw]
    simpa using j3

theorem deliversInTime_wait (t L : Nat) :
    ∀ (tries : Nat) (c : EthernetClient), deliversInTime t L c →
      deliversInTime t L (waitAvailable tries c).2 := by
  intro tries
  induction tries with
  | zero => intro c h; exact h
  | succ n ih =>
    intro c h
    rw [waitAvailable]
    split
    · exact h
    · exact ih _ (deliversInTime_tick t L c h)

/-- The wait ends with bytes available when a non-empty chunk arrives within
the tries that are left. -/
theorem waitAvailable_pos :
    ∀ (tries : Nat) (c : EthernetClient),
      (c.rx ≠ [] ∨ ∃ j, j < tries ∧ c.wire.getD j [] ≠ []) →
      (waitAvailable tries c).1 ≠ 0 := by
  intro tries
  induction tries with
  | zero =>
    intro c h
    rcases h with h | ⟨j, hj, _⟩
    · simp [waitAvailable, EthernetClient.available, h]
    · omega
  | succ n ih =>
    intro c h
    rw [waitAvailable]
    split
    · rename_i ha; exact ha
    · rename_i ha
      have hrx : c.rx = [] := by
        simp [EthernetClient.available] at ha
        exact ha
      rcases h with h | ⟨j, hj, hne⟩
      · exact absurd hrx h
      · cases hw : c.wire with
        | nil => rw [hw] at hne; simp at hne
        | cons chunk w =>
          obtain ⟨tw, tr⟩ := tick_wire_cons c chunk w hw
          apply ih
          cases j with
          | zero =>
            left
            rw [hw] at hne
            rw [tr, hrx]
            simpa using hne
          | succ k =>
            right
            refine ⟨k, by omega, ?_⟩
            rw [hw] at hne
            rw [tw]
            simpa using hne

theorem deliversInTime_consume (t need m : Nat) (c : EthernetClient)
    (h : deliversInTime t need c) (hm : m ≤ c.rx.length) (hn : m ≤ need) :
    deliversInTime t (need - m) { c with rx := c.rx.drop m } := by
  intro i hi hd
  have hd' : delivered c i < need := by
    unfold delivered at hd ⊢
    simp only [List.length_drop] at hd
    omega
  exact h i hi hd'

/-- When the transport delivers in time, the body reader ends with exactly
`maxLength` bytes. -/
theorem readBytesWithTimeoutLoop_full (maxLength t : Nat) :
    ∀ (fuel : Nat) (c : EthernetClient) (data : Str), isBytes c.stream →
      data.length ≤ maxLength → maxLength - data.length ≤ fuel →
      deliversInTime t (maxLength - data.length) c →
      (readBytesWithTimeoutLoop maxLength t fuel c data).1.length = maxLength := by
  intro fuel
  induction fuel with
  | zero =>
    intro c data _ h1 h2 _
    simp [readBytesWithTimeoutLoop]; omega
  | succ n ih =>
    intro c data hb h1 h2 hd
    rw [readBytesWithTimeoutLoop]
    split
    · rename_i hlt
      obtain ⟨w1, w2⟩ := waitAvailable_stream t c
      have hdw := deliversInTime_wait t (maxLength - data.length) t c hd
      have hpos : (waitAvailable t c).1 ≠ 0 := by
        apply waitAvailable_pos
        by_cases hrx : c.rx = []
        · right
          obtain ⟨j, _, j2, j3⟩ := hd 0 (Nat.zero_le _) (by simp [delivered, hrx]; omega)
          exact ⟨j, by omega, j3⟩
        · left; exact hrx
      simp only [hpos, if_false]
      have hbw : isBytes (waitAvailable t c).2.stream := by rw [w1]; exact hb
      have hbrx : isBytes (waitAvailable t c).2.rx := isBytes_of_append_left hbw
      have hav : (if data.length + (waitAvailable t c).1 > maxLength
          then maxLength - data.length else (waitAvailable t c).1)
            ≤ (waitAvailable t c).2.rx.length := by
        split <;> omega
      have hav2 : (if data.length + (waitAvailable t c).1 > maxLength
          then maxLength - data.length else (waitAvailable t c).1)
            ≤ maxLength - data.length := by
        split <;> omega
      have hav3 : 0 < (if data.length + (waitAvailable t c).1 > maxLength
          then maxLength - data.length else (waitAvailable t c).1) := by
        split <;> omega
      rw [readChars_take _ _ _ hav hbrx]
      simp only
      generalize (if data.length + (waitAvailable t c).1 > maxLength
          then maxLength - data.length else (waitAvailable t c).1) = m at hav hav2 hav3
      have hlen : (data ++ (waitAvailable t c).2.rx.take m).length = data.length + m := by
        simp [List.length_take]; omega
      apply ih
      · intro x hx
        apply hbw x
        unfold EthernetClient.stream at hx ⊢
        rcases List.mem_append.mp hx with h | h
        · exact List.mem_append.mpr (Or.inl (List.mem_of_mem_drop h))
        · exact List.mem_append.mpr (Or.inr h)
      · rw [hlen]; omega
      · rw [hlen]; omega
      · rw [hlen]
        have := deliversInTime_consume t (maxLength - data.length) m _ hdw hav hav2
        have e : maxLength - (data.length + m) = maxLength - data.length - m := by omega
        rw [e]; exact this
    · simp; omega
theorem waitAvailable_zero_of_silent :
    ∀ (tries : Nat) (c : EthernetClient), c.rx = [] →
      (∀ j, j < tries → c.wire.getD j [] = []) → (waitAvailable tries c).1 = 0 := by
  intro tries
  induction tries with
  | zero => intro c hrx _; simp [waitAvailable, EthernetClient.available, hrx]
  | succ n ih =>
    intro c hrx hs
    rw [waitAvailable]
    simp only [EthernetClient.available, hrx, List.length_nil, ne_eq, not_true_eq_false, if_false]
    cases hw : c.wire with
    | nil =>
      rw [tick_wire_nil c hw]
      exact ih c hrx (fun j hj => hs j (by omega))
    | cons chunk w =>
      obtain ⟨tw, tr⟩ := tick_wire_cons c chunk w hw
      have h0 : chunk = [] := by
        have := hs 0 (by omega)
        rw [hw] at this
        simpa using this
      apply ih
      · rw [tr, hrx, h0]; rfl
      · intro j hj
        have := hs (j + 1) (by omega)
        rw [hw] at this
        rw [tw]
        simpa using this

theorem stallsBefore_tick (t L : Nat) (c : EthernetClient) (h : stallsBefore t L c) :
    (∀ j, j < t → c.wire.getD j [] = []) ∨ stallsBefore t L c.tick := by
  obtain ⟨i, hi, hd, hs⟩ := h
  cases i with
  | zero => left; intro j hj; exact hs j (Nat.zero_le _) (by omega)
  | succ k =>
    right
    cases hw : c.wire with
    | nil => rw [hw] at hi; simp at hi
    | cons chunk w =>
      obtain ⟨tw, _⟩ := tick_wire_cons c chunk w hw
      refine ⟨k, by rw [tw]; rw [hw] at hi; simp at hi; omega, ?_, ?_⟩
      · rw [delivered_tick_cons c chunk w hw]; exact hd
      · intro j j1 j2
        have := hs (j + 1) (by omega) (by omega)
        rw [hw] at this
        rw [tw]
        simpa using this

/-- During a wait before a long stall either nothing becomes available or
the stall is still ahead. -/
theorem stallsBefore_wait (t L : Nat) :
    ∀ (tries : Nat) (c : EthernetClient), tries ≤ t → stallsBefore t L c →
      (waitAvailable tries c).1 = 0 ∨ stallsBefore t L (waitAvailable tries c).2 := by
  intro tries
  induction tries with
  | zero => intro c _ h; right; exact h
  | succ n ih =>
    intro c ht h
    by_cases hrx : c.rx = []
    · rcases stallsBefore_tick t L c h with hs | hs
      · left
        exact waitAvailable_zero_of_silent _ c hrx (fun j hj => hs j (by omega))
      · rw [waitAvailable]
        simp only [EthernetClient.available, hrx, List.length_nil, ne_eq, not_true_eq_false,
          if_false]
        exact ih _ (by omega) hs
    · right
      rw [waitAvailable]
      have : c.available ≠ 0 := by
        simp [EthernetClient.available]; exact hrx
      simp only [this, ne_eq, not_false_eq_true, if_true]
      exact h

theorem stallsBefore_consume (t need : Nat) (c : EthernetClient) (h : stallsBefore t need c) :
    c.rx.length < need
    ∧ stallsBefore t (need - c.rx.length) { c with rx := c.rx.drop c.rx.length } := by
  obtain ⟨i, hi, hd, hs⟩ := h
  have hlt : c.rx.length < need := by unfold delivered at hd; omega
  refine ⟨hlt, i, hi, ?_, hs⟩
  unfold delivered at hd ⊢
  simp only [List.drop_length, List.length_nil]
  omega

/-- When the transport stalls past the timeout before `maxLength` bytes are
there, the body reader ends with fewer than `maxLength` bytes. -/
theorem readBytesWithTimeoutLoop_short (maxLength t : Nat) :
    ∀ (fuel : Nat) (c : EthernetClient) (data : Str), isBytes c.stream →
      data.length ≤ maxLength → stallsBefore t (maxLength - data.length) c →
      (readBytesWithTimeoutLoop maxLength t fuel c data).1.length < maxLength := by
  intro fuel
  induction fuel with
  | zero =>
    intro c data _ h1 hs
    obtain ⟨i, _, hd, _⟩ := hs
    simp [readBytesWithTimeoutLoop]; omega
  | succ n ih =>
    intro c data hb h1 hs
    have hlt : data.length < maxLength := by
      obtain ⟨i, _, hd, _⟩ := hs
      omega
    rw [readBytesWithTimeoutLoop]
    simp only [hlt, if_true]
    obtain ⟨w1, w2⟩ := waitAvailable_stream t c
    rcases stallsBefore_wait t (maxLength - data.length) t c (Nat.le_refl _) hs with h0 | hs'
    · simp [h0, hlt]
    · split
      · exact hlt
      · obtain ⟨c1, c2⟩ := stallsBefore_consume t _ _ hs'
        have hbw : isBytes (waitAvailable t c).2.stream := by rw [w1]; exact hb
        have hbrx : isBytes (waitAvailable t c).2.rx := isBytes_of_append_left hbw
        have hm : (if data.length + (waitAvailable t c).1 > maxLength
            then maxLength - data.length else (waitAvailable t c).1)
              = (waitAvailable t c).2.rx.length := by
          split <;> omega
        rw [hm, readChars_take _ _ _ (Nat.le_refl _) hbrx]
        simp only
        have hlen : (data ++ (waitAvailable t c).2.rx.take (waitAvailable t c).2.rx.length).length
            = data.length + (waitAvailable t c).2.rx.length := by
          simp
        apply ih
        · intro x hx
          apply hbw x
          unfold EthernetClient.stream at hx ⊢
          rcases List.mem_append.mp hx with h | h
          · exact List.mem_append.mpr (Or.inl (List.mem_of_mem_drop h))
          · exact List.mem_append.mpr (Or.inr h)
        · rw [hlen]; omega
        · rw [hlen]
          have e : maxLength - (data.length + (waitAvailable t c).2.rx.length)
              = maxLength - data.length - (waitAvailable t c).2.rx.length := by omega
          rw [e]; exact c2
/-- C8, as stated, fails: when the reservation of the buffer fails the
function returns `false` although the two bytes asked for are there (and,
for length `0`, although the accumulated length equals the target). -/
theorem readBytesWithTimeout_counterexample :
    deliversInTime 5 2 (clientOf "ab" true)
    ∧ (readBytesWithTimeout false (clientOf "ab" true) 2 [] 5).1 = false
    ∧ (readBytesWithTimeout false (clientOf "ab" true) 0 [] 5).1 = false
    ∧ (readBytesWithTimeout false (clientOf "ab" true) 0 [] 5).2.1.length = 0 := by
  refine ⟨?_, by decide, by decide, by decide⟩
  intro i hi hd
  have h0 : i = 0 := by simpa [clientOf] using hi
  subst h0
  simp [delivered, clientOf] at hd

/-- C8, amended: when the reservation of the buffer fails,
`readBytesWithTimeout` returns `false` and reads nothing.  When it succeeds,
the function returns `true` exactly when the accumulated length equals the
target `L`; called with empty `data` on a transport that delivers at least
`L` bytes without a stall longer than the timeout, it returns `true` with the
first `L` bytes of the stream and leaves all later bytes in the transport;
and on a transport that delivers fewer than `L` bytes and then stalls past
the timeout it returns `false`. -/
theorem readBytesWithTimeout_contract (c : EthernetClient) (L t : Nat) (data : Str)
    (hb : isBytes c.stream) :
    readBytesWithTimeout false c L data t = (false, data, c)
    ∧ ((readBytesWithTimeout true c L data t).1 = true
        ↔ (readBytesWithTimeout true c L data t).2.1.length = L)
    ∧ (deliversInTime t L c →
        (readBytesWithTimeout true c L [] t).1 = true
        ∧ (readBytesWithTimeout true c L [] t).2.1 = c.stream.take L
        ∧ (readBytesWithTimeout true c L [] t).2.2.stream = c.stream.drop L)
    ∧ (stallsBefore t L c → (readBytesWithTimeout true c L [] t).1 = false) := by
  refine ⟨rfl, ?_, ?_, ?_⟩
  · simp [readBytesWithTimeout]
  · intro hd
    have hfull := readBytesWithTimeoutLoop_full L t (L + 1) c [] hb (Nat.zero_le _)
      (by simp) (by simpa using hd)
    obtain ⟨hs, _⟩ := readBytesWithTimeoutLoop_stream L t (L + 1) c [] hb
    simp only [List.nil_append] at hs
    have h1 : (readBytesWithTimeoutLoop L t (L + 1) c []).1 = c.stream.take L := by
      rw [← hs, take_append_of_length _ _ _ hfull.symm]
    have h2 : (readBytesWithTimeoutLoop L t (L + 1) c []).2.stream = c.stream.drop L := by
      rw [← hs, drop_append_of_length _ _ _ 0 (by omega)]
      rfl
    simp only [readBytesWithTimeout, Bool.not_true, Bool.false_eq_true, if_false]
    exact ⟨by simp [hfull], h1, h2⟩
  · intro hst
    have hshort := readBytesWithTimeoutLoop_short L t (L + 1) c [] hb (Nat.zero_le _)
      (by simpa using hst)
    simp only [readBytesWithTimeout, Bool.not_true, Bool.false_eq_true, if_false]
    simp
    omega

/-- Witness of the amended C8: the client that holds `ab` and receives `cd`
and `ef` after one silent step each.  With a timeout of two steps five bytes
are read and `f` stays in the transport; with a timeout of one step the
read fails. -/
theorem readBytesWithTimeout_contract_witness :
    ((readBytesWithTimeout true slowClient 5 [] 2).1 = true
      ∧ (readBytesWithTimeout true slowClient 5 [] 2).2.1 = "abcde".toList
      ∧ (readBytesWithTimeout true slowClient 5 [] 2).2.2.stream = "f".toList)
    ∧ (readBytesWithTimeout true slowClient 5 [] 1).1 = false := by
  have hb : isBytes slowClient.stream := by decide
  have hd : deliversInTime 2 5 slowClient := by
    intro i hi hd
    have hi' : i ≤ 4 := hi
    interval_cases i
    · exact ⟨1, by decide, by decide, by decide⟩
    · exact ⟨1, by decide, by decide, by decide⟩
    · exact ⟨3, by decide, by decide, by decide⟩
    · exact ⟨3, by decide, by decide, by decide⟩
    · exact absurd hd (by decide)
  have hs : stallsBefore 1 5 slowClient :=
    ⟨2, by decide, by decide, by
      intro j j1 j2
      have : j = 2 := by omega
      subst this
      rfl⟩
  exact ⟨(readBytesWithTimeout_contract slowClient 5 2 [] hb).2.2.1 hd,
    (readBytesWithTimeout_contract slowClient 5 1 [] hb).2.2.2 hs⟩

/-! ## What reading leaves in the transport -/

theorem read_stream (c : EthernetClient) : c.read.2.stream <:+ c.stream := by
  unfold EthernetClient.read
  split
  · exact List.suffix_refl _
  · rename_i b rest h
    unfold EthernetClient.stream
    rw [h]
    exact ⟨[b], rfl⟩

theorem timedReadLoop_stream :
    ∀ (n : Nat) (c : EthernetClient), (timedReadLoop n c).2.stream <:+ c.stream := by
  intro n
  induction n with
  | zero => intro c; exact read_stream c
  | succ n ih =>
    intro c
    rw [timedReadLoop]
    split
    · exact read_stream c
    · have := ih c.tick
      rw [tick_stream] at this
      exact this

theorem timedRead_stream (c : EthernetClient) : (timedRead c).2.stream <:+ c.stream :=
  timedReadLoop_stream _ c

theorem readStringUntilLoop_stream (t : Char) :
    ∀ (fuel : Nat) (c : EthernetClient) (ret : Str),
      (readStringUntilLoop t fuel c ret).2.stream <:+ c.stream := by
  intro fuel
  induction fuel with
  | zero => intro c ret; exact List.suffix_refl _
  | succ n ih =>
    intro c ret
    rw [readStringUntilLoop]
    split
    · exact List.IsSuffix.trans (ih _ _) (timedRead_stream c)
    · exact timedRead_stream c

theorem readStringUntil_stream (c : EthernetClient) (t : Char) :
    (readStringUntil c t).2.stream <:+ c.stream :=
  readStringUntilLoop_stream t _ c []

theorem readLine_stream (c : EthernetClient) : (readLine c).2.stream <:+ c.stream := by
  unfold readLine
  exact List.IsSuffix.trans (readStringUntil_stream _ _) (readStringUntil_stream c _)

theorem postHeaderLoop_stream :
    ∀ (fuel : Nat) (s : WebServer) (c : EthernetClient) (l : PostLocals),
      (postHeaderLoop fuel s c l).2.1.stream <:+ c.stream := by
  intro fuel
  induction fuel with
  | zero => intro s c l; exact List.suffix_refl _
  | succ n ih =>
    intro s c l
    rw [postHeaderLoop]
    simp only
    split
    · exact readLine_stream c
    · split
      · exact readLine_stream c
      · exact List.IsSuffix.trans (ih _ _ _) (readLine_stream c)

theorem isBytes_of_suffix {a b : Str} (h : a <:+ b) (hb : isBytes b) : isBytes a :=
  fun x hx => hb x (h.subset hx)

/-! ## The body of a request that is not a form -/

/-- The branch of `_parseRequest` for a request with a body is the body part
applied to what the header loop leaves. -/
theorem parseRequest_of_post (cfg : Config) (fuel : Nat) (s : WebServer) (c : EthernetClient)
    (m t v : Str) (hline : (readLine c).1 = m ++ ' ' :: t ++ ' ' :: v)
    (hm : ' ' ∉ m) (ht : ' ' ∉ t) (hb : hasBody (methodOf m) = true) :
    _parseRequest cfg fuel s c
      = postBody cfg fuel
          (postHeaderLoop ((readLine c).2.stream.length + 1)
            (startRequest (resetHeaders s) (methodOf m) (splitUrl t).1) (readLine c).2 initLocals).1
          (postHeaderLoop ((readLine c).2.stream.length + 1)
            (startRequest (resetHeaders s) (methodOf m) (splitUrl t).1) (readLine c).2 initLocals).2.1
          (postHeaderLoop ((readLine c).2.stream.length + 1)
            (startRequest (resetHeaders s) (methodOf m) (splitUrl t).1) (readLine c).2 initLocals).2.2
          (splitUrl t).2 := by
  unfold _parseRequest
  simp only [hline, splitRequestLine_two_spaces m t v hm ht, hb, if_true]

/-- The body part for a request that is no form and declares a length above
zero: it succeeds only with exactly that many bytes read, which become the
value of the last argument `plain`; it fails when the transport stalls past
the wait before that many bytes are there. -/
theorem postBody_plain (cfg : Config) (fuel : Nat) (s : WebServer) (c : EthernetClient)
    (l : PostLocals) (searchStr : Str) (hb : isBytes c.stream)
    (hform : l.isForm = false) (hpos : 0 < l.contentLength) :
    (∀ s' c', postBody cfg fuel s c l searchStr = some (true, s', c') →
      ∃ body, body.length = l.contentLength ∧ c.stream = body ++ c'.stream
        ∧ s'._currentArgs.getLast? = some { key := "plain".toList, value := body })
    ∧ (stallsBefore cfg.HTTP_MAX_POST_WAIT l.contentLength c →
        ∃ c', postBody cfg fuel s c l searchStr = some (false, s, c')) := by
  have hne : l.contentLength ≠ 0 := by omega
  cases hres : cfg.reserveOk (l.contentLength + 1) with
  | false =>
    constructor
    · intro s' c' h
      simp [postBody, hform, hres, readBytesWithTimeout] at h
    · intro _
      exact ⟨c, by simp [postBody, hform, hres, readBytesWithTimeout]⟩
  | true =>
    obtain ⟨hs, hle⟩ := readBytesWithTimeoutLoop_stream l.contentLength cfg.HTTP_MAX_POST_WAIT
      (l.contentLength + 1) c [] hb
    simp only [List.nil_append] at hs
    constructor
    · intro s' c' h
      simp only [postBody, hform, hres, readBytesWithTimeout, Bool.not_false, Bool.not_true,
        Bool.false_eq_true, if_false, if_true, true_and, ne_eq, hne, not_false_eq_true] at h
      split at h
      · cases h
      · rename_i hcond
        simp only [Option.some.injEq, Prod.mk.injEq, true_and] at h
        obtain ⟨h1, h2⟩ := h
        refine ⟨(readBytesWithTimeoutLoop l.contentLength cfg.HTTP_MAX_POST_WAIT
          (l.contentLength + 1) c []).1, ?_, ?_, ?_⟩
        · simp at hcond
          have := hle (Nat.zero_le _)
          omega
        · rw [← h2]; exact hs.symm
        · rw [← h1]; simp
    · intro hst
      have hshort := readBytesWithTimeoutLoop_short l.contentLength cfg.HTTP_MAX_POST_WAIT
        (l.contentLength + 1) c [] hb (Nat.zero_le _) (by simpa using hst)
      refine ⟨(readBytesWithTimeoutLoop l.contentLength cfg.HTTP_MAX_POST_WAIT
          (l.contentLength + 1) c []).2, ?_⟩
      simp only [postBody, hform, hres, readBytesWithTimeout, Bool.not_false, Bool.not_true,
        Bool.false_eq_true, if_false, true_and]
      simp [hshort]
theorem stallsBefore_of_short (t L : Nat) (c : EthernetClient) (h : c.stream.length < L) :
    stallsBefore t L c := by
  refine ⟨c.wire.length, Nat.le_refl _, ?_, ?_⟩
  · unfold delivered
    simpa [EthernetClient.stream] using h
  · intro j j1 _
    exact List.getD_eq_default _ _ j1

/-- C9: take a request whose method is POST, PUT, PATCH or DELETE, whose
headers leave it marked as not multipart, and whose declared length is
`L > 0`.  If `_parseRequest` returns `true`, exactly `L` bytes of the body
were read from the transport (they are the value of the last argument,
`plain`, and the transport holds what followed them); and if fewer than `L`
bytes arrive before the wait is exhausted, `_parseRequest` returns `false`. -/
theorem parseRequest_body_length (cfg : Config) (fuel : Nat) (s : WebServer)
    (c : EthernetClient) (m t v : Str) (L : Nat)
    (hb : isBytes c.stream)
    (hline : (readLine c).1 = m ++ ' ' :: t ++ ' ' :: v) (hm : ' ' ∉ m) (ht : ' ' ∉ t)
    (hbody : hasBody (methodOf m) = true)
    (hform : (afterPostHeaders s c m t).2.2.isForm = false)
    (hlen : (afterPostHeaders s c m t).2.2.contentLength = L) (hpos : 0 < L) :
    (∀ s' c', _parseRequest cfg fuel s c = some (true, s', c') →
      ∃ body, body.length = L ∧ (afterPostHeaders s c m t).2.1.stream = body ++ c'.stream
        ∧ s'._currentArgs.getLast? = some { key := "plain".toList, value := body })
    ∧ (stallsBefore cfg.HTTP_MAX_POST_WAIT L (afterPostHeaders s c m t).2.1 →
        ∃ s' c', _parseRequest cfg fuel s c = some (false, s', c'))
    ∧ ((afterPostHeaders s c m t).2.1.stream.length < L →
        ∃ s' c', _parseRequest cfg fuel s c = some (false, s', c')) := by
  have heq := parseRequest_of_post cfg fuel s c m t v hline hm ht hbody
  have hbc : isBytes (afterPostHeaders s c m t).2.1.stream :=
    isBytes_of_suffix
      (List.IsSuffix.trans (postHeaderLoop_stream _ _ _ _) (readLine_stream c)) hb
  obtain ⟨p1, p2⟩ := postBody_plain cfg fuel (afterPostHeaders s c m t).1
    (afterPostHeaders s c m t).2.1 (afterPostHeaders s c m t).2.2 (splitUrl t).2 hbc hform
    (by rw [hlen]; exact hpos)
  rw [hlen] at p1 p2
  refine ⟨?_, ?_, ?_⟩
  · intro s' c' h
    rw [heq] at h
    exact p1 s' c' h
  · intro hst
    obtain ⟨c', hc'⟩ := p2 hst
    exact ⟨_, c', by rw [heq]; exact hc'⟩
  · intro hshort
    obtain ⟨c', hc'⟩ := p2 (stallsBefore_of_short _ _ _ hshort)
    exact ⟨_, c', by rw [heq]; exact hc'⟩

/-- Witness of C9: a POST request that declares five bytes of JSON and
brings them, and one that brings only four. -/
theorem parseRequest_body_length_witness :
    ((∀ s' c', _parseRequest sampleConfig 0 sampleServer
          (clientOf "POST /p?x=1 HTTP/1.1\r\nContent-Type: application/json\r\nContent-Length: 5\r\n\r\nhello" true)
          = some (true, s', c') →
        ∃ body, body.length = 5
          ∧ (afterPostHeaders sampleServer
              (clientOf "POST /p?x=1 HTTP/1.1\r\nContent-Type: application/json\r\nContent-Length: 5\r\n\r\nhello" true)
              "POST".toList "/p?x=1".toList).2.1.stream = body ++ c'.stream
          ∧ s'._currentArgs.getLast? = some { key := "plain".toList, value := body })
      ∧ (_parseRequest sampleConfig 0 sampleServer
          (clientOf "POST /p?x=1 HTTP/1.1\r\nContent-Type: application/json\r\nContent-Length: 5\r\n\r\nhello" true)).map
          (fun r => (r.1, r.2.1._currentArgs))
          = some (true, [{ key := "x".toList, value := "1".toList },
                         { key := "plain".toList, value := "hello".toList }]))
    ∧ (∃ s' c', _parseRequest sampleConfig 0 sampleServer
          (clientOf "POST /p?x=1 HTTP/1.1\r\nContent-Type: application/json\r\nContent-Length: 5\r\n\r\nhell" true)
          = some (false, s', c')) :=
  ⟨⟨(parseRequest_body_length sampleConfig 0 sampleServer
        (clientOf "POST /p?x=1 HTTP/1.1\r\nContent-Type: application/json\r\nContent-Length: 5\r\n\r\nhello" true)
        "POST".toList "/p?x=1".toList "HTTP/1.1".toList 5
        (by decide) (by decide) (by decide) (by decide) (by decide) (by decide) (by decide)
        (by decide)).1,
     by decide⟩,
   (parseRequest_body_length sampleConfig 0 sampleServer
        (clientOf "POST /p?x=1 HTTP/1.1\r\nContent-Type: application/json\r\nContent-Length: 5\r\n\r\nhell" true)
        "POST".toList "/p?x=1".toList "HTTP/1.1".toList 5
        (by decide) (by decide) (by decide) (by decide) (by decide) (by decide) (by decide)
        (by decide)).2.2 (by decide)⟩

/-! ## The file part of a form -/

/-- A form with a field and a file whose content has no CR LF `-` `-` near
its end is decoded as the specification says (boundary `XY`, buffer of four
bytes): the field is an argument, and the sink sees Start, three chunks that
make up the nine bytes, and End with size nine. -/
theorem upload_example :
    parseOutcome (_parseRequest sampleConfig 40 sampleServer
        (clientOf (uploadRequest "ab\r\ncd-ef") true))
      = some ⟨true, [⟨"t".toList, "hi".toList⟩],
          [HTTPUploadStatus.UPLOAD_FILE_START, HTTPUploadStatus.UPLOAD_FILE_WRITE,
           HTTPUploadStatus.UPLOAD_FILE_WRITE, HTTPUploadStatus.UPLOAD_FILE_WRITE,
           HTTPUploadStatus.UPLOAD_FILE_END],
          "ab\r\ncd-ef".toList, [9]⟩ := by
  decide

/-- C5 fails on the code.  The file content `C = CR LF - -` under the
boundary `XY` meets the condition of the claim: the first occurrence of
`CR LF - - XY` in `C ++ CR LF - - XY` is at offset `|C|`.  The scanner
compares the two bytes after `C` with the boundary, finds `CR LF` instead,
emits them as content without looking at them again, and so misses the real
terminator: when the peer then closes, the sink has been passed eight bytes
where the content has four, and the upload is aborted; when the peer stays
connected the parse does not return.  With a buffer of 2048 bytes the sink
sees Start and Aborted only. -/
theorem upload_crlf_dashes_before_boundary :
    firstOccurrence "\r\n--XY".toList ("\r\n--".toList ++ "\r\n--XY".toList)
      = some "\r\n--".toList.length
    ∧ parseOutcome (_parseRequest sampleConfig 40 sampleServer
        (clientOf (fileRequest "\r\n--") false))
      = some ⟨false, [],
          [HTTPUploadStatus.UPLOAD_FILE_START, HTTPUploadStatus.UPLOAD_FILE_WRITE,
           HTTPUploadStatus.UPLOAD_FILE_WRITE, HTTPUploadStatus.UPLOAD_FILE_ABORTED],
          "\r\n--\r\n--".toList, []⟩
    ∧ parseOutcome (_parseRequest sampleConfig 40 sampleServer
        (clientOf (fileRequest "\r\n--") true)) = none
    ∧ parseOutcome (_parseRequest { sampleConfig with HTTP_UPLOAD_BUFLEN := 2048 } 40 sampleServer
        (clientOf (fileRequest "\r\n--") false))
      = some ⟨false, [],
          [HTTPUploadStatus.UPLOAD_FILE_START, HTTPUploadStatus.UPLOAD_FILE_ABORTED], [], []⟩ := by
  decide

/-- C6 fails on the code, by the defect of C5.  The form has the field `t`
and a file with the six bytes `a CR LF - - b`; the handler claims the upload.
The comparison after `CR LF - -` consumes `b` and the CR of the real
terminator and emits them as content, so the terminator is never seen: the
parse ends aborted (peer closed) or does not return (peer connected).  There
is no End notification, the chunks passed on hold twelve bytes instead of
six, and the field is not in the argument list. -/
theorem upload_field_and_file_not_delivered :
    parseOutcome (_parseRequest sampleConfig 40 sampleServer
        (clientOf (uploadRequest "a\r\n--b") false))
      = some ⟨false, [],
          [HTTPUploadStatus.UPLOAD_FILE_START, HTTPUploadStatus.UPLOAD_FILE_WRITE,
           HTTPUploadStatus.UPLOAD_FILE_WRITE, HTTPUploadStatus.UPLOAD_FILE_WRITE,
           HTTPUploadStatus.UPLOAD_FILE_ABORTED],
          "a\r\n--b\r\n--XY".toList, []⟩
    ∧ parseOutcome (_parseRequest sampleConfig 40 sampleServer
        (clientOf (uploadRequest "a\r\n--b") true)) = none := by
  decide

/-- C7 fails on the code.  The peer closes after `a b CR LF - - X`, one
byte into the boundary `XY`.  `readBytes` stores the one byte; no check of
the connection follows, unlike after every `_uploadReadByte`; the comparison
reads the second cell of `endBuf`, which was not written, and with `'Y'`
there the boundary is found: the sink gets an End notification with size two
and no Aborted one, and the parse then reads empty lines without returning. -/
theorem upload_disconnect_in_boundary :
    (readFile sampleConfig "XY".toList 40 uploadingServer (clientOf "b\r\n--X" false) 'a').map
        (fun r => (r.1, uploadStatuses r.2.1, uploadEndSizes r.2.1))
      = some (true,
          [HTTPUploadStatus.UPLOAD_FILE_START, HTTPUploadStatus.UPLOAD_FILE_WRITE,
           HTTPUploadStatus.UPLOAD_FILE_END], [2])
    ∧ parseOutcome (_parseRequest sampleConfig 40 sampleServer
        (clientOf ("POST /up HTTP/1.1\r\nContent-Type: multipart/form-data; boundary=XY\r\n\r\n"
          ++ "--XY\r\nContent-Disposition: form-data; name=\"f\"; filename=\"a.txt\"\r\n\r\n"
          ++ "ab\r\n--X") false)) = none := by
  decide

/-! ## The fuel of the reading loops suffices -/

theorem read_consumes (c : EthernetClient) (h : 0 ≤ c.read.1) :
    c.read.2.stream.length + 1 = c.stream.length := by
  unfold EthernetClient.read at h ⊢
  split
  · rename_i hrx
    simp [hrx] at h
  · rename_i b rest hrx
    simp [EthernetClient.stream, hrx]

theorem timedReadLoop_consumes :
    ∀ (n : Nat) (c : EthernetClient), 0 ≤ (timedReadLoop n c).1 →
      (timedReadLoop n c).2.stream.length + 1 = c.stream.length := by
  intro n
  induction n with
  | zero => intro c h; exact read_consumes c h
  | succ n ih =>
    intro c h
    rw [timedReadLoop] at h ⊢
    split
    · rename_i hr
      exact read_consumes c hr
    · rename_i hr
      rw [if_neg hr] at h
      have := ih c.tick h
      rw [tick_stream] at this
      exact this

theorem timedRead_consumes (c : EthernetClient) (h : 0 ≤ (timedRead c).1) :
    (timedRead c).2.stream.length + 1 = c.stream.length :=
  timedReadLoop_consumes _ c h

/-- More fuel than the length of the stream plus one does not change what
`readStringUntil` returns. -/
theorem readStringUntilLoop_fuel (t : Char) :
    ∀ (fuel : Nat) (c : EthernetClient) (ret : Str), c.stream.length + 1 ≤ fuel →
      readStringUntilLoop t (fuel + 1) c ret = readStringUntilLoop t fuel c ret := by
  intro fuel
  induction fuel with
  | zero => intro c ret h; omega
  | succ n ih =>
    intro c ret h
    rw [readStringUntilLoop]
    conv => rhs; rw [readStringUntilLoop]
    split
    · rename_i hc
      have := timedRead_consumes c hc.1
      exact ih _ _ (by omega)
    · rfl

/-- Every byte of the text `readStringUntil` returns was taken from the
stream. -/
theorem readStringUntilLoop_length (t : Char) :
    ∀ (fuel : Nat) (c : EthernetClient) (ret : Str),
      (readStringUntilLoop t fuel c ret).1.length + (readStringUntilLoop t fuel c ret).2.stream.length
        ≤ ret.length + c.stream.length := by
  intro fuel
  induction fuel with
  | zero => intro c ret; simp [readStringUntilLoop]
  | succ n ih =>
    intro c ret
    rw [readStringUntilLoop]
    split
    · rename_i hc
      have h1 := timedRead_consumes c hc.1
      have h2 := ih (timedRead c).2 (ret ++ [byteOfInt (timedRead c).1])
      simp only [List.length_append, List.length_singleton] at h2
      omega
    · have := (timedRead_stream c).length_le
      simp only
      omega

theorem readLine_consumes (c : EthernetClient) (h : (readLine c).1 ≠ []) :
    (readLine c).2.stream.length < c.stream.length := by
  unfold readLine at h ⊢
  simp only at h ⊢
  have h1 := readStringUntilLoop_length '\r' (c.stream.length + 1) c []
  have h2 := (readStringUntil_stream (readStringUntil c '\r').2 '\n').length_le
  have h3 : 0 < (readStringUntil c '\r').1.length := List.length_pos.mpr h
  unfold readStringUntil at h2 h3 ⊢
  simp only [List.length_nil, Nat.zero_add] at h1
  omega

/-- More fuel than the length of the stream plus one does not change the
result of the header loop of a request with a body. -/
theorem postHeaderLoop_fuel :
    ∀ (fuel : Nat) (s : WebServer) (c : EthernetClient) (l : PostLocals),
      c.stream.length + 1 ≤ fuel →
      postHeaderLoop (fuel + 1) s c l = postHeaderLoop fuel s c l := by
  intro fuel
  induction fuel with
  | zero => intro s c l h; omega
  | succ n ih =>
    intro s c l h
    rw [postHeaderLoop]
    conv => rhs; rw [postHeaderLoop]
    simp only
    split
    · rfl
    · rename_i hne
      have := readLine_consumes c hne
      split
      · rfl
      · exact ih _ _ _ (by omega)

/-- The same for the header loop of a request without body. -/
theorem getHeaderLoop_fuel :
    ∀ (fuel : Nat) (s : WebServer) (c : EthernetClient),
      c.stream.length + 1 ≤ fuel →
      getHeaderLoop (fuel + 1) s c = getHeaderLoop fuel s c := by
  intro fuel
  induction fuel with
  | zero => intro s c h; omega
  | succ n ih =>
    intro s c h
    rw [getHeaderLoop]
    conv => rhs; rw [getHeaderLoop]
    simp only
    split
    · rfl
    · rename_i hne
      have := readLine_consumes c hne
      split
      · rfl
      · exact ih _ _ (by omega)

theorem readChars_length :
    ∀ (n : Nat) (c : EthernetClient) (data : Str),
      (readChars n c data).1.length = data.length + n := by
  intro n
  induction n with
  | zero => intro c data; simp [readChars]
  | succ n ih =>
    intro c data
    rw [readChars, ih]
    simp
    omega

/-- More fuel than the number of bytes still missing does not change what
the body reader returns. -/
theorem readBytesWithTimeoutLoop_fuel (maxLength t : Nat) :
    ∀ (fuel : Nat) (c : EthernetClient) (data : Str), maxLength - data.length ≤ fuel →
      readBytesWithTimeoutLoop maxLength t (fuel + 1) c data
        = readBytesWithTimeoutLoop maxLength t fuel c data := by
  intro fuel
  induction fuel with
  | zero =>
    intro c data h
    have : ¬ data.length < maxLength := by omega
    simp [readBytesWithTimeoutLoop, this]
  | succ n ih =>
    intro c data h
    rw [readBytesWithTimeoutLoop]
    conv => rhs; rw [readBytesWithTimeoutLoop]
    simp only
    split
    · rename_i hlt
      split
      · rfl
      · rename_i hw
        apply ih
        rw [readChars_length]
        split <;> omega
    · rfl

/-! ## Reading lines that arrive in chunks -/

theorem sameLink_refl (c : EthernetClient) : sameLink c c := ⟨rfl, rfl, Nat.le_refl _⟩

theorem sameLink_trans {a b c : EthernetClient} (h1 : sameLink a b) (h2 : sameLink b c) :
    sameLink a c :=
  ⟨h2.1.trans h1.1, h2.2.1.trans h1.2.1, Nat.le_trans h2.2.2 h1.2.2⟩

/-- When the timeout outlasts the schedule, `timedRead` returns the next
byte of the stream however it is split into chunks. -/
theorem timedReadLoop_next (b : Char) (rest : Str) :
    ∀ (n : Nat) (c : EthernetClient), c.stream = b :: rest → c.wire.length ≤ n →
      ∃ c', timedReadLoop n c = ((b.toNat : Int), c') ∧ c'.stream = rest
        ∧ c'.timeout = c.timeout ∧ c'.stays = c.stays ∧ c'.wire.length ≤ c.wire.length := by
  intro n
  induction n with
  | zero =>
    intro c hs hw
    have hw0 : c.wire = [] := List.length_eq_zero.mp (by omega)
    have hrx : c.rx = b :: rest := by
      simpa [EthernetClient.stream, hw0] using hs
    refine ⟨{ c with rx := rest }, ?_, ?_, rfl, rfl, Nat.le_refl _⟩
    · rw [timedReadLoop, read_cons c b rest hrx]
    · simp [EthernetClient.stream, hw0]
  | succ n ih =>
    intro c hs hw
    cases hrx : c.rx with
    | nil =>
      have hr : c.read = (-1, c) := by simp [EthernetClient.read, hrx]
      rw [timedReadLoop, hr]
      simp only [show ¬ ((0 : Int) ≤ -1) by decide, if_false]
      cases hwire : c.wire with
      | nil => simp [EthernetClient.stream, hrx, hwire] at hs
      | cons chunk w =>
        obtain ⟨tw, _⟩ := tick_wire_cons c chunk w hwire
        obtain ⟨t1, t2⟩ := tick_timeout c
        obtain ⟨c', h1, h2, h3, h4, h5⟩ := ih c.tick (by rw [tick_stream]; exact hs)
          (by rw [tw]; rw [hwire] at hw; simp at hw; omega)
        refine ⟨c', h1, h2, h3.trans t1, h4.trans t2, ?_⟩
        rw [tw] at h5
        simp
        omega
    | cons b' rx' =>
      have hb : b' = b ∧ rx' ++ c.wire.flatten = rest := by
        simpa [EthernetClient.stream, hrx] using hs
      obtain ⟨hb1, hb2⟩ := hb
      subst hb1
      have hr := timedReadLoop_cons (n + 1) c b' rx' hrx
      exact ⟨{ c with rx := rx' }, hr, by simpa [EthernetClient.stream] using hb2, rfl, rfl,
        Nat.le_refl _⟩

theorem timedRead_next (c : EthernetClient) (b : Char) (rest : Str)
    (hs : c.stream = b :: rest) (hw : c.wire.length ≤ c.timeout) :
    ∃ c', timedRead c = ((b.toNat : Int), c') ∧ c'.stream = rest ∧ sameLink c c' := by
  obtain ⟨c', h1, h2, h3, h4, h5⟩ := timedReadLoop_next b rest c.timeout c hs hw
  exact ⟨c', h1, h2, h3, h4, h5⟩

theorem readStringUntilLoop_stream_line (t : Char) (ht : t.toNat < 256) (rest : Str) :
    ∀ (line : Str) (fuel : Nat) (c : EthernetClient) (ret : Str),
      c.stream = line ++ t :: rest → c.wire.length ≤ c.timeout →
      t ∉ line → isBytes line → line.length + 1 ≤ fuel →
      ∃ c', readStringUntilLoop t fuel c ret = (ret ++ line, c') ∧ c'.stream = rest
        ∧ sameLink c c' := by
  intro line
  induction line with
  | nil =>
    intro fuel c ret hs hw _ _ hf
    obtain ⟨n, rfl⟩ : ∃ n, fuel = n + 1 := ⟨fuel - 1, by omega⟩
    obtain ⟨c', h1, h2, h3⟩ := timedRead_next c t rest (by simpa using hs) hw
    refine ⟨c', ?_, h2, h3⟩
    simp [readStringUntilLoop, h1, byteOfInt_toNat t ht]
  | cons b line ih =>
    intro fuel c ret hs hw hnot hbytes hf
    obtain ⟨n, rfl⟩ : ∃ n, fuel = n + 1 := ⟨fuel - 1, by simp at hf; omega⟩
    obtain ⟨c1, h1, h2, h3⟩ := timedRead_next c b (line ++ t :: rest) (by simpa using hs) hw
    have hb : b.toNat < 256 := hbytes b (by simp)
    have hne : b ≠ t := fun e => hnot (by simp [e])
    have hge : (0 : Int) ≤ (b.toNat : Int) := by omega
    obtain ⟨c', i1, i2, i3⟩ := ih n c1 (ret ++ [b]) h2 (by rw [h3.1]; exact Nat.le_trans h3.2.2 hw)
      (fun h => hnot (by simp [h])) (fun x hx => hbytes x (by simp [hx]))
      (by simp at hf; omega)
    refine ⟨c', ?_, i2, sameLink_trans h3 i3⟩
    rw [readStringUntilLoop]
    simp only [h1, byteOfInt_toNat b hb, hge, hne, ne_eq, not_false_eq_true, and_self, if_true]
    rw [i1]
    simp

/-- A line of the stream with its terminator is read whole, however it is
split into chunks, when the timeout outlasts the schedule. -/
theorem readStringUntil_stream_line (c : EthernetClient) (t : Char) (line rest : Str)
    (hs : c.stream = line ++ t :: rest) (hw : c.wire.length ≤ c.timeout)
    (ht : t.toNat < 256) (hnot : t ∉ line) (hbytes : isBytes line) :
    ∃ c', readStringUntil c t = (line, c') ∧ c'.stream = rest ∧ sameLink c c' := by
  unfold readStringUntil
  have hlen : line.length + 1 ≤ c.stream.length + 1 := by simp [hs]
  obtain ⟨c', h1, h2, h3⟩ :=
    readStringUntilLoop_stream_line t ht rest line _ c [] hs hw hnot hbytes hlen
  exact ⟨c', by simpa using h1, h2, h3⟩

theorem readLine_stream_line (c : EthernetClient) (line rest : Str)
    (hs : c.stream = line ++ '\r' :: '\n' :: rest) (hw : c.wire.length ≤ c.timeout)
    (hnot : '\r' ∉ line) (hbytes : isBytes line) :
    ∃ c', readLine c = (line, c') ∧ c'.stream = rest ∧ sameLink c c' := by
  obtain ⟨c1, h1, h2, h3⟩ :=
    readStringUntil_stream_line c '\r' line ('\n' :: rest) hs hw (by decide) hnot hbytes
  obtain ⟨c2, i1, i2, i3⟩ :=
    readStringUntil_stream_line c1 '\n' [] rest (by simpa using h2)
      (by rw [h3.1]; exact Nat.le_trans h3.2.2 hw) (by decide) (by simp)
      (by intro x hx; cases hx)
  refine ⟨c2, ?_, i2, sameLink_trans h3 i3⟩
  unfold readLine
  simp only [h1, i1]

theorem getHeaderLoop_stream_empty_line (n : Nat) (s : WebServer) (c : EthernetClient)
    (rest : Str) (hs : c.stream = '\r' :: '\n' :: rest) (hw : c.wire.length ≤ c.timeout) :
    ∃ c', getHeaderLoop (n + 1) s c = (s, c') ∧ c'.stream = rest ∧ sameLink c c' := by
  obtain ⟨c', h1, h2, h3⟩ := readLine_stream_line c [] rest (by simpa using hs) hw (by simp)
    (by intro x hx; cases hx)
  refine ⟨c', ?_, h2, h3⟩
  rw [getHeaderLoop]
  simp [h1]

/-- C2: for every path `P` without space, `'?'` and CR and every query `Q`
without space and CR (both made of bytes), parsing the request
`GET P?Q HTTP/1.1` with an empty header block, however the transport splits
it into chunks (the timeout outlasting the schedule), succeeds, consumes
exactly the request, and leaves uri `P` and the argument list
`_parseArguments(Q)`, which is the list of the `'&'`-segments of `Q`: the
target is split at its first `'?'` and the query is handed over as it is.
In particular `GET /a?x=1&y=2 HTTP/1.1` gives uri `/a` and arguments
`[(x,1),(y,2)]`. -/
theorem parseRequest_get_query (cfg : Config) (fuel : Nat) (s : WebServer) (c : EthernetClient)
    (P Q rest : Str)
    (hs : c.stream = "GET ".toList ++ P ++ '?' :: Q ++ " HTTP/1.1\r\n\r\n".toList ++ rest)
    (hw : c.wire.length ≤ c.timeout)
    (hP : ' ' ∉ P ∧ '?' ∉ P ∧ '\r' ∉ P) (hQ : ' ' ∉ Q ∧ '\r' ∉ Q)
    (hbP : isBytes P) (hbQ : isBytes Q) :
    ∃ s' c', _parseRequest cfg fuel s c = some (true, s', c')
      ∧ c'.stream = rest
      ∧ s'._currentUri = P
      ∧ s'._currentMethod = HTTPMethod.HTTP_GET
      ∧ s'._currentArgs = (_parseArguments s Q)._currentArgs
      ∧ s'._currentArgs = (segments Q).filterMap segmentArg := by
  obtain ⟨hP1, hP2, hP3⟩ := hP
  obtain ⟨hQ1, hQ2⟩ := hQ
  have g1 : '\r' ∉ "GET".toList := by decide
  have g2 : '\r' ∉ "HTTP/1.1".toList := by decide
  have b1 : isBytes "GET".toList := by decide
  have b2 : isBytes "HTTP/1.1".toList := by decide
  obtain ⟨c1, hline, hs1, hl1⟩ := readLine_stream_line c
    ("GET".toList ++ ' ' :: (P ++ '?' :: Q) ++ ' ' :: "HTTP/1.1".toList) ("\r\n".toList ++ rest)
    (by rw [hs]; simp) hw
    (by
      intro h
      simp only [List.mem_append, List.mem_cons] at h
      rcases h with (h | h | h | h | h) | h | h
      · exact g1 h
      · exact absurd h (by decide)
      · exact hP3 h
      · exact absurd h (by decide)
      · exact hQ2 h
      · exact absurd h (by decide)
      · exact g2 h)
    (isBytes_append (isBytes_append b1 (isBytes_cons (by decide)
      (isBytes_append hbP (isBytes_cons (by decide) hbQ)))) (isBytes_cons (by decide) b2))
  have hsp : ' ' ∉ P ++ '?' :: Q := by
    intro h
    simp only [List.mem_append, List.mem_cons] at h
    rcases h with h | h | h
    · exact hP1 h
    · exact absurd h (by decide)
    · exact hQ1 h
  have hline1 : (readLine c).1
      = "GET".toList ++ ' ' :: (P ++ '?' :: Q) ++ ' ' :: "HTTP/1.1".toList := by rw [hline]
  obtain ⟨s2, u2, m2, h1⟩ :=
    parseRequest_of_get_eq cfg fuel s c "GET".toList (P ++ '?' :: Q) "HTTP/1.1".toList hline1
      (by decide) hsp (by decide)
  rw [splitUrl_query P Q hP2] at h1 u2
  have hc2 : (readLine c).2 = c1 := by rw [hline]
  obtain ⟨c2, hh, hs2, _⟩ := getHeaderLoop_stream_empty_line c1.stream.length s2 c1 rest hs1
    (by rw [hl1.1]; exact Nat.le_trans hl1.2.2 hw)
  rw [hc2, hh] at h1
  exact ⟨_, c2, h1, hs2, u2, m2, rfl, parseArgumentList_eq_spec Q⟩

/-- Witness of C2: the request `GET /a?x=1&y=2 HTTP/1.1` followed by other
bytes, arriving in four chunks with silent steps between them. -/
theorem parseRequest_get_query_witness :
    ∃ s' c', _parseRequest sampleConfig 0 sampleServer
        { rx := "GET /a".toList,
          wire := [[], "?x=1&y=2 HT".toList, "TP/1.1\r".toList, [], "\n\r\nnext".toList],
          stays := true, timeout := 5 }
        = some (true, s', c')
      ∧ c'.stream = "next".toList
      ∧ s'._currentUri = "/a".toList
      ∧ s'._currentMethod = HTTPMethod.HTTP_GET
      ∧ s'._currentArgs = (_parseArguments sampleServer "x=1&y=2".toList)._currentArgs
      ∧ s'._currentArgs = (segments "x=1&y=2".toList).filterMap segmentArg :=
  parseRequest_get_query sampleConfig 0 sampleServer
    { rx := "GET /a".toList,
      wire := [[], "?x=1&y=2 HT".toList, "TP/1.1\r".toList, [], "\n\r\nnext".toList],
      stays := true, timeout := 5 }
    "/a".toList "x=1&y=2".toList "next".toList (by decide) (by decide) (by decide)
    (by decide) (by decide) (by decide)

/-- The arguments of the request `GET /a?x=1&y=2 HTTP/1.1`, written out. -/
theorem parseRequest_get_query_example :
    (_parseRequest sampleConfig 0 sampleServer
        (clientOf "GET /a?x=1&y=2 HTTP/1.1\r\n\r\n" true)).map
      (fun r => (r.1, r.2.1._currentUri, r.2.1._currentArgs))
      = some (true, "/a".toList,
          [{ key := "x".toList, value := "1".toList }, { key := "y".toList, value := "2".toList }]) := by
  decide

/-! ## What the body of a request leaves untouched -/

theorem sameRequestFields_refl (s : WebServer) : sameRequestFields s s :=
  ⟨rfl, rfl, rfl, rfl, rfl, rfl, rfl⟩

theorem sameRequestFields_trans {a b c : WebServer} (h1 : sameRequestFields a b)
    (h2 : sameRequestFields b c) : sameRequestFields a c := by
  obtain ⟨a1, a2, a3, a4, a5, a6, a7⟩ := h1
  obtain ⟨b1, b2, b3, b4, b5, b6, b7⟩ := h2
  exact ⟨b1.trans a1, b2.trans a2, b3.trans a3, b4.trans a4, b5.trans a5, b6.trans a6,
    b7.trans a7⟩

theorem notifyUpload_fields (s : WebServer) : sameRequestFields s (notifyUpload s) := by
  unfold notifyUpload
  split
  · split
    · exact ⟨rfl, rfl, rfl, rfl, rfl, rfl, rfl⟩
    · exact sameRequestFields_refl s
  · exact sameRequestFields_refl s

theorem uploadWriteByte_fields (cfg : Config) (s : WebServer) (b : Char) :
    sameRequestFields s (_uploadWriteByte cfg s b) := by
  unfold _uploadWriteByte
  split
  · exact sameRequestFields_refl s
  · split
    · have h := notifyUpload_fields s
      obtain ⟨a1, a2, a3, a4, a5, a6, a7⟩ := h
      exact ⟨a1, a2, a3, a4, a5, a6, a7⟩
    · exact ⟨rfl, rfl, rfl, rfl, rfl, rfl, rfl⟩

theorem uploadWriteBytes_fields (cfg : Config) :
    ∀ (bs : Str) (s : WebServer), sameRequestFields s (uploadWriteBytes cfg s bs) := by
  intro bs
  induction bs with
  | nil => intro s; exact sameRequestFields_refl s
  | cons b bs ih =>
    intro s
    exact sameRequestFields_trans (uploadWriteByte_fields cfg s b) (ih _)

theorem parseFormUploadAborted_fields (s : WebServer) :
    sameRequestFields s (_parseFormUploadAborted s) := by
  unfold _parseFormUploadAborted
  split
  · exact sameRequestFields_refl s
  · exact sameRequestFields_trans ⟨rfl, rfl, rfl, rfl, rfl, rfl, rfl⟩ (notifyUpload_fields _)

theorem finishUpload_fields (s : WebServer) : sameRequestFields s (finishUpload s) := by
  unfold finishUpload
  simp only
  split
  · exact notifyUpload_fields s
  · exact sameRequestFields_trans (notifyUpload_fields s)
      (sameRequestFields_trans ⟨rfl, rfl, rfl, rfl, rfl, rfl, rfl⟩ (notifyUpload_fields _))

theorem startUpload_fields (s : WebServer) (n f t : Str) (len : Nat) :
    sameRequestFields s (startUpload s n f t len) := by
  unfold startUpload
  simp only
  exact sameRequestFields_trans ⟨rfl, rfl, rfl, rfl, rfl, rfl, rfl⟩ (notifyUpload_fields _)

theorem mergeArgs_fields (s : WebServer) : sameRequestFields s (mergeArgs s) :=
  ⟨rfl, rfl, rfl, rfl, rfl, rfl, rfl⟩

theorem parseArguments_fields (s : WebServer) (data : Str) :
    sameRequestFields s (_parseArguments s data) :=
  ⟨rfl, rfl, rfl, rfl, rfl, rfl, rfl⟩

theorem partsLoop_zero (cfg : Config) (boundary : Str) (len : Nat) (s : WebServer)
    (c : EthernetClient) : partsLoop cfg boundary len 0 s c = none := rfl

theorem partsLoop_succ (cfg : Config) (boundary : Str) (len : Nat) (fuel : Nat) (s : WebServer)
    (c : EthernetClient) : partsLoop cfg boundary len (fuel + 1) s c =
    (let r := readLine c
    let line := r.1
    if line.length > 19 ∧ equalsIgnoreCase (substring line 0 19) "Content-Disposition".toList then
      let nameStart := indexOf line '='
      if nameStart ≠ -1 then
        let names := dispositionNames s line nameStart
        let r2 := readLine r.2
        let hasType : Bool :=
          decide (r2.1.length > 12) && equalsIgnoreCase (substring r2.1 0 12) "Content-Type".toList
        let argType := if hasType then substringFrom r2.1 (indexOf r2.1 ':' + 2).toNat else mimeTxt
        let c3 := if hasType then (readLine r2.2).2 else r2.2
        if !names.2.2 then
          match fieldLoop boundary fuel c3 [] with
          | none => none
          | some (argValue, last, c4) =>
            let s1 := { s with _postArgs := s._postArgs ++ [{ key := names.1, value := argValue }] }
            if last = "--".toList ++ boundary ++ "--".toList then some (true, s1, c4)
            else partsLoop cfg boundary len fuel s1 c4
        else
          let s1 := startUpload s names.1 names.2.1 argType len
          match _uploadReadByte c3 with
          | none => none
          | some (argByte, c4) =>
            match readFile cfg boundary fuel s1 c4 argByte with
            | none => none
            | some (false, s2, c5) => some (false, s2, c5)
            | some (true, s2, c5) =>
              let r3 := readLine c5
              if r3.1 = "--".toList then some (true, s2, r3.2)
              else partsLoop cfg boundary len fuel s2 r3.2
      else partsLoop cfg boundary len fuel s r.2
    else partsLoop cfg boundary len fuel s r.2) := rfl
theorem readFile_fields (cfg : Config) (boundary : Str) :
    ∀ (fuel : Nat) (s : WebServer) (c : EthernetClient) (b : Char) (ok : Bool)
      (s' : WebServer) (c' : EthernetClient),
      readFile cfg boundary fuel s c b = some (ok, s', c') → sameRequestFields s s' := by
  intro fuel
  induction fuel with
  | zero => intro s c b ok s' c' h; simp [readFile] at h
  | succ fuel ih =>
    intro s c b ok s' c' h
    have hab := parseFormUploadAborted_fields s
    unfold readFile at h
    split at h
    · split at h
      · simp only [Option.some.injEq, Prod.mk.injEq] at h
        rw [← h.2.1]; exact hab
      · split at h
        · simp at h
        · exact sameRequestFields_trans (uploadWriteByte_fields cfg s b) (ih _ _ _ _ _ _ h)
    · split at h
      · simp at h
      · split at h
        · simp only [Option.some.injEq, Prod.mk.injEq] at h
          rw [← h.2.1]; exact hab
        · split at h
          · split at h
            · simp at h
            · split at h
              · simp only [Option.some.injEq, Prod.mk.injEq] at h
                rw [← h.2.1]; exact hab
              · split at h
                · exact sameRequestFields_trans (uploadWriteBytes_fields cfg _ s)
                    (ih _ _ _ _ _ _ h)
                · split at h
                  · simp at h
                  · split at h
                    · simp only [Option.some.injEq, Prod.mk.injEq] at h
                      rw [← h.2.1]; exact hab
                    · split at h
                      · exact sameRequestFields_trans (uploadWriteBytes_fields cfg _ s)
                          (ih _ _ _ _ _ _ h)
                      · simp only at h
                        split at h
                        · simp only [Option.some.injEq, Prod.mk.injEq] at h
                          rw [← h.2.1]; exact finishUpload_fields s
                        · split at h
                          · simp at h
                          · exact sameRequestFields_trans
                              (sameRequestFields_trans (uploadWriteBytes_fields cfg _ s)
                                (uploadWriteBytes_fields cfg _ _))
                              (ih _ _ _ _ _ _ h)
          · exact sameRequestFields_trans (uploadWriteByte_fields cfg s CR) (ih _ _ _ _ _ _ h)

theorem partsLoop_fields (cfg : Config) (boundary : Str) (len : Nat) :
    ∀ (fuel : Nat) (s : WebServer) (c : EthernetClient) (ok : Bool)
      (s' : WebServer) (c' : EthernetClient),
      partsLoop cfg boundary len fuel s c = some (ok, s', c') → sameRequestFields s s' := by
  intro fuel
  induction fuel with
  | zero => intro s c ok s' c' h; rw [partsLoop_zero] at h; cases h
  | succ fuel ih =>
    intro s c ok s' c' h
    rw [partsLoop_succ] at h
    simp only at h
    split at h
    · split at h
      · split at h
        · split at h
          · simp at h
          · rename_i argValue last c4 hf
            have h1 : sameRequestFields s
                { s with _postArgs := s._postArgs ++
                  [{ key := (dispositionNames s (readLine c).1 (indexOf (readLine c).1 '=')).1,
                     value := argValue }] } := ⟨rfl, rfl, rfl, rfl, rfl, rfl, rfl⟩
            split at h
            · simp only [Option.some.injEq, Prod.mk.injEq] at h
              rw [← h.2.1]; exact h1
            · exact sameRequestFields_trans h1 (ih _ _ _ _ _ h)
        · split at h
          · simp at h
          · split at h
            · simp at h
            · rename_i hrf
              simp only [Option.some.injEq, Prod.mk.injEq] at h
              rw [← h.2.1]
              exact sameRequestFields_trans (startUpload_fields _ _ _ _ _)
                (readFile_fields cfg boundary _ _ _ _ _ _ _ hrf)
            · rename_i hrf
              have h1 := sameRequestFields_trans (startUpload_fields _ _ _ _ _)
                (readFile_fields cfg boundary _ _ _ _ _ _ _ hrf)
              split at h
              · simp only [Option.some.injEq, Prod.mk.injEq] at h
                rw [← h.2.1]; exact h1
              · exact sameRequestFields_trans h1 (ih _ _ _ _ _ h)
      · exact ih _ _ _ _ _ h
    · exact ih _ _ _ _ _ h

theorem parseForm_fields (cfg : Config) (fuel : Nat) (s : WebServer) (c : EthernetClient)
    (boundary : Str) (len : Nat) (ok : Bool) (s' : WebServer) (c' : EthernetClient)
    (h : _parseForm cfg fuel s c boundary len = some (ok, s', c')) :
    sameRequestFields s s' := by
  unfold _parseForm at h
  simp only at h
  split at h
  · split at h
    · simp at h
    · rename_i hp
      simp only [Option.some.injEq, Prod.mk.injEq] at h
      rw [← h.2.1]
      refine sameRequestFields_trans ?_ (partsLoop_fields cfg boundary len _ _ _ _ _ _ hp)
      exact ⟨rfl, rfl, rfl, rfl, rfl, rfl, rfl⟩
    · rename_i hp
      simp only [Option.some.injEq, Prod.mk.injEq] at h
      rw [← h.2.1]
      refine sameRequestFields_trans ?_ (mergeArgs_fields _)
      refine sameRequestFields_trans ?_ (partsLoop_fields cfg boundary len _ _ _ _ _ _ hp)
      exact ⟨rfl, rfl, rfl, rfl, rfl, rfl, rfl⟩
  · simp only [Option.some.injEq, Prod.mk.injEq] at h
    rw [← h.2.1]; exact sameRequestFields_refl s

theorem postBody_fields (cfg : Config) (fuel : Nat) (s : WebServer) (c : EthernetClient)
    (l : PostLocals) (searchStr : Str) (ok : Bool) (s' : WebServer) (c' : EthernetClient)
    (h : postBody cfg fuel s c l searchStr = some (ok, s', c')) :
    sameRequestFields s s' := by
  unfold postBody at h
  cases hf : l.isForm
  · simp only [hf, Bool.not_false, true_and, if_true] at h
    split at h
    · simp only [Option.some.injEq, Prod.mk.injEq] at h
      rw [← h.2.1]; exact sameRequestFields_refl s
    · split at h
      · simp only [Option.some.injEq, Prod.mk.injEq] at h
        rw [← h.2.1]; exact ⟨rfl, rfl, rfl, rfl, rfl, rfl, rfl⟩
      · simp only [Option.some.injEq, Prod.mk.injEq] at h
        rw [← h.2.1]; exact ⟨rfl, rfl, rfl, rfl, rfl, rfl, rfl⟩
  · simp only [hf, Bool.not_true, Bool.false_eq_true, false_and, if_false] at h
    exact sameRequestFields_trans (parseArguments_fields _ _)
      (parseForm_fields cfg fuel _ _ _ _ _ _ _ h)

/-! ## The method token -/

theorem postHeader_target (s : WebServer) (l : PostLocals) (n v : Str) :
    (postHeader s l n v).1._currentMethod = s._currentMethod
    ∧ (postHeader s l n v).1._currentUri = s._currentUri
    ∧ (postHeader s l n v).1._currentVersion = s._currentVersion := by
  unfold postHeader
  split
  · split
    · exact ⟨rfl, rfl, rfl⟩
    · split
      · exact ⟨rfl, rfl, rfl⟩
      · split
        · exact ⟨rfl, rfl, rfl⟩
        · exact ⟨rfl, rfl, rfl⟩
  · split
    · exact ⟨rfl, rfl, rfl⟩
    · split
      · exact ⟨rfl, rfl, rfl⟩
      · exact ⟨rfl, rfl, rfl⟩

theorem postHeaderLoop_target :
    ∀ (fuel : Nat) (s : WebServer) (c : EthernetClient) (l : PostLocals),
      (postHeaderLoop fuel s c l).1._currentMethod = s._currentMethod
      ∧ (postHeaderLoop fuel s c l).1._currentUri = s._currentUri
      ∧ (postHeaderLoop fuel s c l).1._currentVersion = s._currentVersion := by
  intro fuel
  induction fuel with
  | zero => intro s c l; exact ⟨rfl, rfl, rfl⟩
  | succ n ih =>
    intro s c l
    rw [postHeaderLoop]
    simp only
    split
    · exact ⟨rfl, rfl, rfl⟩
    · split
      · exact ⟨rfl, rfl, rfl⟩
      · obtain ⟨h1, h2, h3⟩ := ih
          (postHeader (_collectHeader s (substring (readLine c).1 0 (indexOf (readLine c).1 ':'))
              (trim (substringFrom (readLine c).1 (indexOf (readLine c).1 ':' + 1).toNat))) l
            (substring (readLine c).1 0 (indexOf (readLine c).1 ':'))
            (trim (substringFrom (readLine c).1 (indexOf (readLine c).1 ':' + 1).toNat))).1
          (readLine c).2
          (postHeader (_collectHeader s (substring (readLine c).1 0 (indexOf (readLine c).1 ':'))
              (trim (substringFrom (readLine c).1 (indexOf (readLine c).1 ':' + 1).toNat))) l
            (substring (readLine c).1 0 (indexOf (readLine c).1 ':'))
            (trim (substringFrom (readLine c).1 (indexOf (readLine c).1 ':' + 1).toNat))).2
        obtain ⟨g1, g2, g3⟩ := postHeader_target
          (_collectHeader s (substring (readLine c).1 0 (indexOf (readLine c).1 ':'))
              (trim (substringFrom (readLine c).1 (indexOf (readLine c).1 ':' + 1).toNat))) l
          (substring (readLine c).1 0 (indexOf (readLine c).1 ':'))
          (trim (substringFrom (readLine c).1 (indexOf (readLine c).1 ':' + 1).toNat))
        exact ⟨h1.trans g1, h2.trans g2, h3.trans g3⟩

/-- The method and the uri that a parse leaves, whatever it returns, are those
of the request line. -/
theorem parseRequest_target (cfg : Config) (fuel : Nat) (s : WebServer) (c : EthernetClient)
    (m t v : Str) (hline : (readLine c).1 = m ++ ' ' :: t ++ ' ' :: v)
    (hm : ' ' ∉ m) (ht : ' ' ∉ t) (ok : Bool) (s' : WebServer) (c' : EthernetClient)
    (h : _parseRequest cfg fuel s c = some (ok, s', c')) :
    s'._currentMethod = methodOf m ∧ s'._currentUri = (splitUrl t).1 := by
  cases hb : hasBody (methodOf m)
  · obtain ⟨s2, c2, h1, h2, h3, _, _⟩ := parseRequest_of_get cfg fuel s c m t v hline hm ht hb
    rw [h1] at h
    simp only [Option.some.injEq, Prod.mk.injEq] at h
    rw [← h.2.1]
    exact ⟨h3, h2⟩
  · rw [parseRequest_of_post cfg fuel s c m t v hline hm ht hb] at h
    obtain ⟨a1, a2, _⟩ := postBody_fields cfg fuel _ _ _ _ _ _ _ h
    obtain ⟨b1, b2, _⟩ := postHeaderLoop_target ((readLine c).2.stream.length + 1)
      (startRequest (resetHeaders s) (methodOf m) (splitUrl t).1) (readLine c).2 initLocals
    exact ⟨a1.trans b1, a2.trans b2⟩

/-- The version that a parse leaves, whatever it returns, is `0`. -/
theorem parseRequest_version (cfg : Config) (fuel : Nat) (s : WebServer) (c : EthernetClient)
    (m t v : Str) (hline : (readLine c).1 = m ++ ' ' :: t ++ ' ' :: v)
    (hm : ' ' ∉ m) (ht : ' ' ∉ t) (ok : Bool) (s' : WebServer) (c' : EthernetClient)
    (h : _parseRequest cfg fuel s c = some (ok, s', c')) :
    s'._currentVersion = 0 := by
  cases hb : hasBody (methodOf m)
  · obtain ⟨s2, c2, h1, _, _, h4, _⟩ := parseRequest_of_get cfg fuel s c m t v hline hm ht hb
    rw [h1] at h
    simp only [Option.some.injEq, Prod.mk.injEq] at h
    rw [← h.2.1]
    exact h4
  · rw [parseRequest_of_post cfg fuel s c m t v hline hm ht hb] at h
    obtain ⟨_, _, a3, _⟩ := postBody_fields cfg fuel _ _ _ _ _ _ _ h
    obtain ⟨_, _, b3⟩ := postHeaderLoop_target ((readLine c).2.stream.length + 1)
      (startRequest (resetHeaders s) (methodOf m) (splitUrl t).1) (readLine c).2 initLocals
    exact a3.trans b3

/-- C10, as stated, fails: on the request line `GET / HTTP/1.1` the texts
delimited by the first two spaces are `GET`, `/` and `HTTP/1.1`, but the third
text the parser takes is `1`, and the version it stores is `0`. -/
theorem requestLine_version_counterexample :
    "GET / HTTP/1.1".toList = "GET".toList ++ ' ' :: "/".toList ++ ' ' :: "HTTP/1.1".toList
    ∧ splitRequestLine "GET / HTTP/1.1".toList = some ("GET".toList, "/".toList, "1".toList)
    ∧ splitRequestLine "GET / HTTP/1.1".toList
        ≠ some ("GET".toList, "/".toList, "HTTP/1.1".toList)
    ∧ (_parseRequest sampleConfig 0 sampleServer (clientOf "GET / HTTP/1.1\r\n\r\n" true)).map
        (fun r => (r.1, r.2.1._currentVersion)) = some (true, 0) := by
  decide

/-- C10, amended: when the request line has fewer than two spaces,
`_parseRequest` returns `false` right after that line, with no header line
read and with uri, method and argument list as they were.  When it has at
least two spaces, the line is the method token, a space, the target, a space
and a rest `v`, with no space in the method token and the target; the
request-line stage does not fail and yields the method token, the target,
and of `v` only what follows its first seven characters; for a request
without body the parse then succeeds with the method of the token, the path
of the target, and version `0`; and every result of the parse, whatever the
method, has the method of the token, the path of the target, and version
`0`. -/
theorem parseRequest_request_line (cfg : Config) (fuel : Nat) (s : WebServer)
    (c : EthernetClient) :
    ((readLine c).1.count ' ' < 2 →
      ∃ s', _parseRequest cfg fuel s c = some (false, s', (readLine c).2)
        ∧ s'._currentUri = s._currentUri ∧ s'._currentMethod = s._currentMethod
        ∧ s'._currentArgs = s._currentArgs)
    ∧ (2 ≤ (readLine c).1.count ' ' →
      ∃ m t v, (readLine c).1 = m ++ ' ' :: t ++ ' ' :: v ∧ ' ' ∉ m ∧ ' ' ∉ t
        ∧ splitRequestLine (readLine c).1 = some (m, t, v.drop 7)
        ∧ (hasBody (methodOf m) = false →
            ∃ s' c', _parseRequest cfg fuel s c = some (true, s', c')
              ∧ s'._currentUri = (splitUrl t).1 ∧ s'._currentMethod = methodOf m
              ∧ s'._currentVersion = 0)
        ∧ (∀ ok s' c', _parseRequest cfg fuel s c = some (ok, s', c') →
            s'._currentUri = (splitUrl t).1 ∧ s'._currentMethod = methodOf m
            ∧ s'._currentVersion = 0)) := by
  constructor
  · intro h
    exact ⟨resetHeaders s, parseRequest_of_few_spaces cfg fuel s c h, rfl, rfl, rfl⟩
  · intro h
    obtain ⟨m, t, v, hline, hm, ht⟩ := exists_two_spaces _ h
    refine ⟨m, t, v, hline, hm, ht, ?_, ?_, ?_⟩
    · rw [hline]; exact splitRequestLine_two_spaces m t v hm ht
    · intro hb
      obtain ⟨s', c', h1, h2, h3, h4, _⟩ := parseRequest_of_get cfg fuel s c m t v hline hm ht hb
      exact ⟨s', c', h1, h2, h3, h4⟩
    · intro ok s' c' hres
      obtain ⟨g1, g2⟩ := parseRequest_target cfg fuel s c m t v hline hm ht ok s' c' hres
      exact ⟨g2, g1, parseRequest_version cfg fuel s c m t v hline hm ht ok s' c' hres⟩

/-- Witness of the amended C10: the line `GET/a` with no space is refused
and leaves uri, method and arguments alone; the line `GET /a HTTP/1.1` is
accepted. -/
theorem parseRequest_request_line_witness :
    (∃ s', _parseRequest sampleConfig 0 sampleServer (clientOf "GET/a\r\nHost: h\r\n\r\n" true)
        = some (false, s', (readLine (clientOf "GET/a\r\nHost: h\r\n\r\n" true)).2)
      ∧ s'._currentUri = sampleServer._currentUri
      ∧ s'._currentMethod = sampleServer._currentMethod
      ∧ s'._currentArgs = sampleServer._currentArgs)
    ∧ (readLine (clientOf "GET/a\r\nHost: h\r\n\r\n" true)).2.rx = "Host: h\r\n\r\n".toList
    ∧ (∃ m t v, (readLine (clientOf "GET /a HTTP/1.1\r\n\r\n" true)).1 = m ++ ' ' :: t ++ ' ' :: v
        ∧ ' ' ∉ m ∧ ' ' ∉ t
        ∧ splitRequestLine (readLine (clientOf "GET /a HTTP/1.1\r\n\r\n" true)).1
            = some (m, t, v.drop 7)
        ∧ (hasBody (methodOf m) = false →
            ∃ s' c', _parseRequest sampleConfig 0 sampleServer
                (clientOf "GET /a HTTP/1.1\r\n\r\n" true) = some (true, s', c')
              ∧ s'._currentUri = (splitUrl t).1 ∧ s'._currentMethod = methodOf m
              ∧ s'._currentVersion = 0)
        ∧ (∀ ok s' c', _parseRequest sampleConfig 0 sampleServer
                (clientOf "GET /a HTTP/1.1\r\n\r\n" true) = some (ok, s', c') →
            s'._currentUri = (splitUrl t).1 ∧ s'._currentMethod = methodOf m
            ∧ s'._currentVersion = 0)) :=
  ⟨(parseRequest_request_line sampleConfig 0 sampleServer
      (clientOf "GET/a\r\nHost: h\r\n\r\n" true)).1 (by decide),
   by decide,
   (parseRequest_request_line sampleConfig 0 sampleServer
      (clientOf "GET /a HTTP/1.1\r\n\r\n" true)).2 (by decide)⟩

theorem methodOf_cases (m : Str) :
    (methodOf m = HTTPMethod.HTTP_HEAD ↔ m = "HEAD".toList)
    ∧ (methodOf m = HTTPMethod.HTTP_POST ↔ m = "POST".toList)
    ∧ (methodOf m = HTTPMethod.HTTP_PUT ↔ m = "PUT".toList)
    ∧ (methodOf m = HTTPMethod.HTTP_PATCH ↔ m = "PATCH".toList)
    ∧ (methodOf m = HTTPMethod.HTTP_DELETE ↔ m = "DELETE".toList)
    ∧ (methodOf m = HTTPMethod.HTTP_OPTIONS ↔ m = "OPTIONS".toList)
    ∧ (methodOf m = HTTPMethod.HTTP_GET ↔
        (m ≠ "HEAD".toList ∧ m ≠ "POST".toList ∧ m ≠ "PUT".toList ∧ m ≠ "PATCH".toList
          ∧ m ≠ "DELETE".toList ∧ m ≠ "OPTIONS".toList)) := by
  by_cases h1 : m = "HEAD".toList
  · subst h1; decide
  by_cases h2 : m = "POST".toList
  · subst h2; decide
  by_cases h3 : m = "DELETE".toList
  · subst h3; decide
  by_cases h4 : m = "OPTIONS".toList
  · subst h4; decide
  by_cases h5 : m = "PUT".toList
  · subst h5; decide
  by_cases h6 : m = "PATCH".toList
  · subst h6; decide
  have e : methodOf m = HTTPMethod.HTTP_GET := by
    unfold methodOf
    rw [if_neg h1, if_neg h2, if_neg h3, if_neg h4, if_neg h5, if_neg h6]
  rw [e]
  exact ⟨iff_of_false (by decide) h1, iff_of_false (by decide) h2, iff_of_false (by decide) h5,
    iff_of_false (by decide) h6, iff_of_false (by decide) h3, iff_of_false (by decide) h4,
    iff_of_true rfl ⟨h1, h2, h5, h6, h3, h4⟩⟩

/-- C11: on a request line with method token `m` and target `t` (no space in
either), whatever the parse returns, the method it leaves is `HEAD`, `POST`,
`PUT`, `PATCH`, `DELETE` or `OPTIONS` exactly when `m` is that name character
for character, and `GET` exactly when `m` is none of the six names. -/
theorem parseRequest_method_token (cfg : Config) (fuel : Nat) (s : WebServer)
    (c : EthernetClient) (m t v : Str) (hline : (readLine c).1 = m ++ ' ' :: t ++ ' ' :: v)
    (hm : ' ' ∉ m) (ht : ' ' ∉ t) (ok : Bool) (s' : WebServer) (c' : EthernetClient)
    (h : _parseRequest cfg fuel s c = some (ok, s', c')) :
    s'._currentMethod = methodOf m
    ∧ (s'._currentMethod = HTTPMethod.HTTP_HEAD ↔ m = "HEAD".toList)
    ∧ (s'._currentMethod = HTTPMethod.HTTP_POST ↔ m = "POST".toList)
    ∧ (s'._currentMethod = HTTPMethod.HTTP_PUT ↔ m = "PUT".toList)
    ∧ (s'._currentMethod = HTTPMethod.HTTP_PATCH ↔ m = "PATCH".toList)
    ∧ (s'._currentMethod = HTTPMethod.HTTP_DELETE ↔ m = "DELETE".toList)
    ∧ (s'._currentMethod = HTTPMethod.HTTP_OPTIONS ↔ m = "OPTIONS".toList)
    ∧ (s'._currentMethod = HTTPMethod.HTTP_GET ↔
        (m ≠ "HEAD".toList ∧ m ≠ "POST".toList ∧ m ≠ "PUT".toList ∧ m ≠ "PATCH".toList
          ∧ m ≠ "DELETE".toList ∧ m ≠ "OPTIONS".toList)) := by
  have h0 := (parseRequest_target cfg fuel s c m t v hline hm ht ok s' c' h).1
  rw [h0]
  exact ⟨rfl, methodOf_cases m⟩

/-- Witness of C11: the token `post` in lower case gives the method `GET`,
and the token `DELETE` gives `DELETE`. -/
theorem parseRequest_method_token_witness :
    (∃ s' c', _parseRequest sampleConfig 0 sampleServer (clientOf "post /a HTTP/1.1\r\n\r\n" true)
        = some (true, s', c') ∧ s'._currentMethod = HTTPMethod.HTTP_GET)
    ∧ (∃ ok s' c', _parseRequest sampleConfig 0 sampleServer
          (clientOf "DELETE /a HTTP/1.1\r\n\r\n" true) = some (ok, s', c')
        ∧ s'._currentMethod = HTTPMethod.HTTP_DELETE) :=
  ⟨⟨_, _, rfl,
      ((parseRequest_method_token sampleConfig 0 sampleServer
        (clientOf "post /a HTTP/1.1\r\n\r\n" true) "post".toList "/a".toList "HTTP/1.1".toList
        (by decide) (by decide) (by decide) true _ _ rfl).2.2.2.2.2.2.2).mpr (by decide)⟩,
   ⟨true, _, _, rfl,
      ((parseRequest_method_token sampleConfig 0 sampleServer
        (clientOf "DELETE /a HTTP/1.1\r\n\r\n" true) "DELETE".toList "/a".toList
        "HTTP/1.1".toList (by decide) (by decide) (by decide) true _ _ rfl).2.2.2.2.2.1).mpr
        rfl⟩⟩

/-! ## The header loops on a block of header lines -/

theorem headerLine_split (h : Str × Str) (hc : ':' ∉ h.1) :
    indexOf (headerLineText h) ':' = (h.1.length : Int)
    ∧ substring (headerLineText h) 0 (h.1.length : Int) = h.1
    ∧ ∀ k : Nat, substringFrom (headerLineText h) (((h.1.length : Int) + (k + 1 : Nat)).toNat)
        = h.2.drop k := by
  refine ⟨indexOf_of_split ':' h.1 h.2 hc, ?_, ?_⟩
  · rw [substring_nat _ _ _ (Nat.zero_le _)]
    unfold headerLineText
    rw [take_append_of_length _ _ _ rfl]; rfl
  · intro k
    have e : ((h.1.length : Int) + (k + 1 : Nat)).toNat = h.1.length + (k + 1) := by omega
    rw [e]
    unfold substringFrom headerLineText
    rw [drop_append_of_length h.1 _ _ (k + 1) rfl]
    rfl

theorem headerLineText_ne_nil (h : Str × Str) : headerLineText h ≠ [] := by
  unfold headerLineText; simp

theorem getHeaderLoop_line (fuel : Nat) (s : WebServer) (c c1 : EthernetClient) (h : Str × Str)
    (hc : ':' ∉ h.1) (hr : readLine c = (headerLineText h, c1)) :
    getHeaderLoop (fuel + 1) s c = getHeaderLoop fuel (getHeaderStep s h) c1 := by
  obtain ⟨e1, e2, e3⟩ := headerLine_split h hc
  have e4 : ¬ ((h.1.length : Int) = -1) := by omega
  have e5 := e3 1
  have e6 : ((h.1.length : Int) + ((1 + 1 : Nat) : Int)) = (h.1.length : Int) + 2 := by norm_num
  rw [e6] at e5
  rw [getHeaderLoop]
  simp only [hr, headerLineText_ne_nil, if_false, e1, e4, e2, e5]
  rfl

theorem postHeaderLoop_line (fuel : Nat) (s : WebServer) (c c1 : EthernetClient)
    (l : PostLocals) (h : Str × Str)
    (hc : ':' ∉ h.1) (hr : readLine c = (headerLineText h, c1)) :
    postHeaderLoop (fuel + 1) s c l
      = postHeaderLoop fuel (postHeaderStep (s, l) h).1 c1 (postHeaderStep (s, l) h).2 := by
  obtain ⟨e1, e2, e3⟩ := headerLine_split h hc
  have e4 : ¬ ((h.1.length : Int) = -1) := by omega
  have e5 := e3 0
  have e6 : ((h.1.length : Int) + ((0 + 1 : Nat) : Int)) = (h.1.length : Int) + 1 := by norm_num
  rw [e6] at e5
  rw [postHeaderLoop]
  simp only [hr, headerLineText_ne_nil, if_false, e1, e4, e2, e5]
  rfl

theorem wellFormedHeader_line (h : Str × Str) (hw : wellFormedHeader h) :
    '\r' ∉ headerLineText h ∧ isBytes (headerLineText h) := by
  obtain ⟨_, h2, h3, h4, h5⟩ := hw
  unfold headerLineText
  constructor
  · intro hm
    rcases List.mem_append.mp hm with hm | hm
    · exact h2 hm
    · rcases List.mem_cons.mp hm with hm | hm
      · exact absurd hm (by decide)
      · exact h3 hm
  · exact isBytes_append h4 (isBytes_cons (by decide) h5)

/-- The header loop for requests without a body reads a block of well-formed
header lines round by round. -/
theorem getHeaderLoop_block :
    ∀ (hs : List (Str × Str)) (fuel : Nat) (s : WebServer) (c : EthernetClient) (tail : Str),
      (∀ h ∈ hs, wellFormedHeader h) → c.stream = headerBlock hs ++ tail →
      c.wire.length ≤ c.timeout →
      ∃ c', c'.stream = tail ∧ sameLink c c'
        ∧ getHeaderLoop (fuel + hs.length) s c = getHeaderLoop fuel (hs.foldl getHeaderStep s) c' := by
  intro hs
  induction hs with
  | nil =>
    intro fuel s c tail _ hst _
    exact ⟨c, by simpa [headerBlock] using hst, sameLink_refl c, rfl⟩
  | cons h hs ih =>
    intro fuel s c tail hwf hst hw
    have hh := hwf h (List.mem_cons_self _ _)
    obtain ⟨l1, l2⟩ := wellFormedHeader_line h hh
    have hst2 : c.stream = headerLineText h ++ '\r' :: '\n' :: (headerBlock hs ++ tail) := by
      rw [hst]; simp [headerBlock]
    obtain ⟨c1, r1, r2, r3⟩ := readLine_stream_line c _ _ hst2 hw l1 l2
    obtain ⟨c', i1, i2, i3⟩ := ih fuel (getHeaderStep s h) c1 tail
      (fun x hx => hwf x (List.mem_cons_of_mem _ hx)) r2
      (by rw [r3.1]; exact Nat.le_trans r3.2.2 hw)
    refine ⟨c', i1, sameLink_trans r3 i2, ?_⟩
    rw [List.length_cons, ← Nat.add_assoc, getHeaderLoop_line _ s c c1 h hh.1 r1, i3]
    rfl

/-- The header loop for requests with a body reads a block of well-formed
header lines round by round. -/
theorem postHeaderLoop_block :
    ∀ (hs : List (Str × Str)) (fuel : Nat) (s : WebServer) (c : EthernetClient)
      (l : PostLocals) (tail : Str),
      (∀ h ∈ hs, wellFormedHeader h) → c.stream = headerBlock hs ++ tail →
      c.wire.length ≤ c.timeout →
      ∃ c', c'.stream = tail ∧ sameLink c c'
        ∧ postHeaderLoop (fuel + hs.length) s c l
          = postHeaderLoop fuel (hs.foldl postHeaderStep (s, l)).1 c'
              (hs.foldl postHeaderStep (s, l)).2 := by
  intro hs
  induction hs with
  | nil =>
    intro fuel s c l tail _ hst _
    exact ⟨c, by simpa [headerBlock] using hst, sameLink_refl c, rfl⟩
  | cons h hs ih =>
    intro fuel s c l tail hwf hst hw
    have hh := hwf h (List.mem_cons_self _ _)
    obtain ⟨l1, l2⟩ := wellFormedHeader_line h hh
    have hst2 : c.stream = headerLineText h ++ '\r' :: '\n' :: (headerBlock hs ++ tail) := by
      rw [hst]; simp [headerBlock]
    obtain ⟨c1, r1, r2, r3⟩ := readLine_stream_line c _ _ hst2 hw l1 l2
    obtain ⟨c', i1, i2, i3⟩ := ih fuel (postHeaderStep (s, l) h).1 c1 (postHeaderStep (s, l) h).2
      tail (fun x hx => hwf x (List.mem_cons_of_mem _ hx)) r2
      (by rw [r3.1]; exact Nat.le_trans r3.2.2 hw)
    refine ⟨c', i1, sameLink_trans r3 i2, ?_⟩
    rw [List.length_cons, ← Nat.add_assoc, postHeaderLoop_line _ s c c1 l h hh.1 r1, i3]
    rfl

theorem headerBlock_length (hs : List (Str × Str)) : hs.length ≤ (headerBlock hs).length := by
  induction hs with
  | nil => exact Nat.le_refl _
  | cons h hs ih =>
    simp only [headerBlock, List.length_cons, List.length_append]
    omega

theorem postHeaderLoop_stream_empty_line (n : Nat) (s : WebServer) (c : EthernetClient)
    (l : PostLocals) (rest : Str) (hs : c.stream = '\r' :: '\n' :: rest)
    (hw : c.wire.length ≤ c.timeout) :
    ∃ c', postHeaderLoop (n + 1) s c l = (s, c', l) ∧ c'.stream = rest ∧ sameLink c c' := by
  obtain ⟨c', h1, h2, h3⟩ := readLine_stream_line c [] rest (by simpa using hs) hw (by simp)
    (by intro x hx; cases hx)
  refine ⟨c', ?_, h2, h3⟩
  rw [postHeaderLoop]
  simp [h1]

/-- The header loop for requests without a body on a block of well-formed
header lines closed by the empty line. -/
theorem getHeaderLoop_headers (hs : List (Str × Str)) (s : WebServer) (c : EthernetClient)
    (rest : Str) (hwf : ∀ h ∈ hs, wellFormedHeader h)
    (hst : c.stream = headerBlock hs ++ '\r' :: '\n' :: rest) (hw : c.wire.length ≤ c.timeout) :
    ∃ c', getHeaderLoop (c.stream.length + 1) s c = (hs.foldl getHeaderStep s, c')
      ∧ c'.stream = rest ∧ sameLink c c' := by
  have hlen : c.stream.length + 1 = (c.stream.length - hs.length) + 1 + hs.length := by
    have := headerBlock_length hs
    rw [hst, List.length_append]; omega
  obtain ⟨c1, a1, a2, a3⟩ := getHeaderLoop_block hs ((c.stream.length - hs.length) + 1) s c _
    hwf hst hw
  obtain ⟨c2, b1, b2, b3⟩ := getHeaderLoop_stream_empty_line (c.stream.length - hs.length)
    (hs.foldl getHeaderStep s) c1 rest a1 (by rw [a2.1]; exact Nat.le_trans a2.2.2 hw)
  exact ⟨c2, by rw [hlen, a3, b1], b2, sameLink_trans a2 b3⟩

/-- The header loop for requests with a body on a block of well-formed header
lines closed by the empty line. -/
theorem postHeaderLoop_headers (hs : List (Str × Str)) (s : WebServer) (c : EthernetClient)
    (l : PostLocals) (rest : Str) (hwf : ∀ h ∈ hs, wellFormedHeader h)
    (hst : c.stream = headerBlock hs ++ '\r' :: '\n' :: rest) (hw : c.wire.length ≤ c.timeout) :
    ∃ c', postHeaderLoop (c.stream.length + 1) s c l
        = ((hs.foldl postHeaderStep (s, l)).1, c', (hs.foldl postHeaderStep (s, l)).2)
      ∧ c'.stream = rest ∧ sameLink c c' := by
  have hlen : c.stream.length + 1 = (c.stream.length - hs.length) + 1 + hs.length := by
    have := headerBlock_length hs
    rw [hst, List.length_append]; omega
  obtain ⟨c1, a1, a2, a3⟩ := postHeaderLoop_block hs ((c.stream.length - hs.length) + 1) s c l _
    hwf hst hw
  obtain ⟨c2, b1, b2, b3⟩ := postHeaderLoop_stream_empty_line (c.stream.length - hs.length)
    (hs.foldl postHeaderStep (s, l)).1 c1 (hs.foldl postHeaderStep (s, l)).2 rest a1
    (by rw [a2.1]; exact Nat.le_trans a2.2.2 hw)
  exact ⟨c2, by rw [hlen, a3, b1], b2, sameLink_trans a2 b3⟩

/-- The header loop for requests without a body stops at a line without a
colon: the lines before it are collected, the rest of the stream is left. -/
theorem getHeaderLoop_stops (hs : List (Str × Str)) (s : WebServer) (c : EthernetClient)
    (bad rest : Str) (hwf : ∀ h ∈ hs, wellFormedHeader h)
    (hbad : ':' ∉ bad) (hcr : '\r' ∉ bad) (hbytes : isBytes bad)
    (hst : c.stream = headerBlock hs ++ (bad ++ '\r' :: '\n' :: rest))
    (hw : c.wire.length ≤ c.timeout) :
    ∃ c', getHeaderLoop (c.stream.length + 1) s c = (hs.foldl getHeaderStep s, c')
      ∧ c'.stream = rest ∧ sameLink c c' := by
  have hlen : c.stream.length + 1 = (c.stream.length - hs.length) + 1 + hs.length := by
    have := headerBlock_length hs
    rw [hst, List.length_append]; omega
  obtain ⟨c1, a1, a2, a3⟩ := getHeaderLoop_block hs ((c.stream.length - hs.length) + 1) s c _
    hwf hst hw
  obtain ⟨c2, b1, b2, b3⟩ := readLine_stream_line c1 bad rest a1
    (by rw [a2.1]; exact Nat.le_trans a2.2.2 hw) hcr hbytes
  refine ⟨c2, ?_, b2, sameLink_trans a2 b3⟩
  rw [hlen, a3, getHeaderLoop]
  simp only [b1, indexOf_of_not_mem ':' bad hbad]
  split
  · rfl
  · rfl

/-! ## What a block of header lines leaves in the server -/

theorem equalsIgnoreCase_iff (a b : Str) :
    equalsIgnoreCase a b = true ↔ a.map toLower = b.map toLower := by
  unfold equalsIgnoreCase
  simp only [Bool.and_eq_true, beq_iff_eq]
  constructor
  · intro h; exact h.2
  · intro h
    refine ⟨?_, h⟩
    have := congrArg List.length h
    simpa using this

theorem equalsIgnoreCase_congr_left (a b K : Str) (h : equalsIgnoreCase a b = true) :
    equalsIgnoreCase a K = equalsIgnoreCase b K := by
  have h1 := (equalsIgnoreCase_iff a b).mp h
  rw [Bool.eq_iff_iff, equalsIgnoreCase_iff, equalsIgnoreCase_iff, h1]

theorem collectHeaderLoop_keys (n v : Str) :
    ∀ table : List RequestArgument,
      (collectHeaderLoop n v table).map (fun e => e.key) = table.map (fun e => e.key) := by
  intro table
  induction table with
  | nil => rfl
  | cons e rest ih =>
    unfold collectHeaderLoop
    split
    · rfl
    · simp only [List.map_cons, ih]

theorem collectHeaderLoop_of_no_match (n v : Str) :
    ∀ table : List RequestArgument,
      (∀ e ∈ table, equalsIgnoreCase e.key n = false) → collectHeaderLoop n v table = table := by
  intro table
  induction table with
  | nil => intro _; rfl
  | cons e rest ih =>
    intro h
    unfold collectHeaderLoop
    rw [if_neg (by rw [h e (List.mem_cons_self _ _)]; decide)]
    rw [ih (fun x hx => h x (List.mem_cons_of_mem _ hx))]

theorem headerValueOf_cons (e : RequestArgument) (rest : List RequestArgument) (K : Str) :
    headerValueOf (e :: rest) K
      = if equalsIgnoreCase e.key K then e.value else headerValueOf rest K := by
  unfold headerValueOf
  rw [List.find?_cons]
  cases h : equalsIgnoreCase e.key K
  · simp
  · simp

/-- One collected line and the value stored for `K`: a line whose name is
`K` up to case puts its value there when `K` is subscribed, any other line
leaves it. -/
theorem headerValueOf_collect (n v K : Str) :
    ∀ table : List RequestArgument,
      headerValueOf (collectHeaderLoop n v table) K
        = if equalsIgnoreCase n K ∧ (∃ e ∈ table, equalsIgnoreCase e.key K = true) then v
          else headerValueOf table K := by
  intro table
  induction table with
  | nil => simp [collectHeaderLoop]
  | cons e rest ih =>
    unfold collectHeaderLoop
    by_cases hn : equalsIgnoreCase e.key n = true
    · rw [if_pos hn, headerValueOf_cons, headerValueOf_cons]
      have hk := equalsIgnoreCase_congr_left e.key n K hn
      simp only
      cases hK : equalsIgnoreCase n K
      · rw [hK] at hk
        simp [hk]
      · rw [hK] at hk
        have : ∃ x ∈ e :: rest, equalsIgnoreCase x.key K = true := ⟨e, List.mem_cons_self _ _, hk⟩
        simp [hk]
    · rw [if_neg hn, headerValueOf_cons, headerValueOf_cons, ih]
      by_cases hk : equalsIgnoreCase e.key K = true
      · have hnK : ¬ (equalsIgnoreCase n K = true) := by
          intro h
          apply hn
          rw [equalsIgnoreCase_iff] at h hk ⊢
          rw [hk, h]
        simp [hk, hnK]
      · simp only [hk, Bool.false_eq_true, if_false, List.mem_cons, exists_eq_or_imp, false_or]

theorem lastHeader_cons (K : Str) (h : Str × Str) (hs : List (Str × Str)) :
    lastHeader K (h :: hs)
      = match lastHeader K hs with
        | some v => some v
        | none => if equalsIgnoreCase h.1 K then some h.2 else none := rfl

/-- A field that every round either sets from a line named `K` or leaves ends
with what the last line named `K` gives. -/
theorem fold_lastHeader {σ α : Type} (K : Str) (step : σ → Str × Str → σ) (field : σ → α)
    (g : Str → α) (inv : σ → Prop) (hinv : ∀ s h, inv s → inv (step s h))
    (hstep : ∀ s h, inv s →
      field (step s h) = if equalsIgnoreCase h.1 K then g h.2 else field s) :
    ∀ (hs : List (Str × Str)) (s : σ), inv s →
      field (hs.foldl step s) = ((lastHeader K hs).map g).getD (field s) := by
  intro hs
  induction hs with
  | nil => intro s _; rfl
  | cons h hs ih =>
    intro s hs0
    rw [List.foldl_cons, ih _ (hinv s h hs0), hstep s h hs0, lastHeader_cons]
    cases hl : lastHeader K hs
    · by_cases hk : equalsIgnoreCase h.1 K = true
      · simp [hk]
      · simp [hk]
    · simp

theorem subscribed_iff_keys (table : List RequestArgument) (K : Str) :
    subscribed table K ↔ ∃ k ∈ table.map (fun e => e.key), equalsIgnoreCase k K = true := by
  unfold subscribed
  simp only [List.mem_map, exists_exists_and_eq_and]

theorem subscribed_collect (n v K : Str) (table : List RequestArgument) :
    subscribed (collectHeaderLoop n v table) K ↔ subscribed table K := by
  rw [subscribed_iff_keys, subscribed_iff_keys, collectHeaderLoop_keys]

theorem headerValueOf_of_not_subscribed (table : List RequestArgument) (K : Str)
    (h : ¬ subscribed table K) : headerValueOf table K = [] := by
  unfold headerValueOf
  have : table.find? (fun e => equalsIgnoreCase e.key K) = none := by
    rw [List.find?_eq_none]
    intro e he hk
    exact h ⟨e, he, hk⟩
  rw [this]

theorem getHeaderStep_fields (s : WebServer) (h : Str × Str) :
    (getHeaderStep s h)._currentHeaders = collectHeaderLoop h.1 (h.2.drop 1) s._currentHeaders
    ∧ (getHeaderStep s h)._hostHeader
        = (if equalsIgnoreCase h.1 "Host".toList then h.2.drop 1 else s._hostHeader)
    ∧ (getHeaderStep s h)._clientContentLength = s._clientContentLength := by
  unfold getHeaderStep
  simp only
  split
  · exact ⟨rfl, rfl, rfl⟩
  · exact ⟨rfl, rfl, rfl⟩

theorem equalsIgnoreCase_length (a b : Str) (h : equalsIgnoreCase a b = true) :
    a.length = b.length := by
  unfold equalsIgnoreCase at h
  simp only [Bool.and_eq_true, beq_iff_eq] at h
  exact h.1

theorem postHeader_fields (s : WebServer) (l : PostLocals) (n v : Str) :
    (postHeader s l n v).1._currentHeaders = s._currentHeaders
    ∧ (postHeader s l n v).1._hostHeader
        = (if equalsIgnoreCase n "Host".toList then v else s._hostHeader)
    ∧ (postHeader s l n v).1._clientContentLength
        = (if equalsIgnoreCase n "Content-Length".toList then (toInt v % 4294967296).toNat
           else s._clientContentLength)
    ∧ (postHeader s l n v).2.contentLength
        = (if equalsIgnoreCase n "Content-Length".toList then (toInt v % 4294967296).toNat
           else l.contentLength) := by
  have x1 : equalsIgnoreCase n "Content-Type".toList = true →
      equalsIgnoreCase n "Content-Length".toList = false
      ∧ equalsIgnoreCase n "Host".toList = false := by
    intro h1
    have l1 := equalsIgnoreCase_length _ _ h1
    constructor
    · cases h : equalsIgnoreCase n "Content-Length".toList
      · rfl
      · have l2 := equalsIgnoreCase_length _ _ h; rw [l1] at l2; revert l2; decide
    · cases h : equalsIgnoreCase n "Host".toList
      · rfl
      · have l2 := equalsIgnoreCase_length _ _ h; rw [l1] at l2; revert l2; decide
  have x2 : equalsIgnoreCase n "Content-Length".toList = true →
      equalsIgnoreCase n "Host".toList = false := by
    intro h1
    have l1 := equalsIgnoreCase_length _ _ h1
    cases h : equalsIgnoreCase n "Host".toList
    · rfl
    · have l2 := equalsIgnoreCase_length _ _ h; rw [l1] at l2; revert l2; decide
  unfold postHeader
  generalize equalsIgnoreCase n "Content-Type".toList = A at *
  generalize equalsIgnoreCase n "Content-Length".toList = B at *
  generalize equalsIgnoreCase n "Host".toList = C at *
  cases A
  · cases B
    · cases C
      · exact ⟨rfl, rfl, rfl, rfl⟩
      · exact ⟨rfl, rfl, rfl, rfl⟩
    · have hC := x2 rfl
      subst hC
      exact ⟨rfl, rfl, rfl, rfl⟩
  · obtain ⟨hB, hC⟩ := x1 rfl
    subst hB
    subst hC
    simp only [if_true]
    split
    · exact ⟨rfl, rfl, rfl, rfl⟩
    · split
      · exact ⟨rfl, rfl, rfl, rfl⟩
      · split
        · exact ⟨rfl, rfl, rfl, rfl⟩
        · exact ⟨rfl, rfl, rfl, rfl⟩

theorem postHeaderStep_fields (p : WebServer × PostLocals) (h : Str × Str) :
    (postHeaderStep p h).1._currentHeaders = collectHeaderLoop h.1 (trim h.2) p.1._currentHeaders
    ∧ (postHeaderStep p h).1._hostHeader
        = (if equalsIgnoreCase h.1 "Host".toList then trim h.2 else p.1._hostHeader)
    ∧ (postHeaderStep p h).1._clientContentLength
        = (if equalsIgnoreCase h.1 "Content-Length".toList
           then (toInt (trim h.2) % 4294967296).toNat else p.1._clientContentLength)
    ∧ (postHeaderStep p h).2.contentLength
        = (if equalsIgnoreCase h.1 "Content-Length".toList
           then (toInt (trim h.2) % 4294967296).toNat else p.2.contentLength) := by
  unfold postHeaderStep
  obtain ⟨a1, a2, a3, a4⟩ := postHeader_fields (_collectHeader p.1 h.1 (trim h.2)) p.2 h.1 (trim h.2)
  exact ⟨a1, a2, a3, a4⟩

/-- What the rounds of the loop for requests without a body leave: for a
subscribed name the value of the last line with that name, the host of the
last `Host` line, and the content length untouched. -/
theorem getHeaderFold_result (hs : List (Str × Str)) (s : WebServer) :
    (∀ K, subscribed s._currentHeaders K →
      headerValueOf (hs.foldl getHeaderStep s)._currentHeaders K
        = ((lastHeader K hs).map (fun r => r.drop 1)).getD (headerValueOf s._currentHeaders K))
    ∧ (hs.foldl getHeaderStep s)._hostHeader
        = ((lastHeader "Host".toList hs).map (fun r => r.drop 1)).getD s._hostHeader
    ∧ (hs.foldl getHeaderStep s)._clientContentLength = s._clientContentLength
    ∧ (hs.foldl getHeaderStep s)._currentHeaders.map (fun e => e.key)
        = s._currentHeaders.map (fun e => e.key) := by
  refine ⟨?_, ?_, ?_, ?_⟩
  · intro K hK
    refine fold_lastHeader K getHeaderStep (fun s => headerValueOf s._currentHeaders K)
      (fun r => r.drop 1) (fun s => subscribed s._currentHeaders K) ?_ ?_ hs s hK
    · intro s h hi
      rw [(getHeaderStep_fields s h).1]
      exact (subscribed_collect _ _ _ _).mpr hi
    · intro s h hi
      simp only
      rw [(getHeaderStep_fields s h).1, headerValueOf_collect]
      by_cases hk : equalsIgnoreCase h.1 K = true
      · rw [if_pos ⟨hk, hi⟩, if_pos hk]
      · rw [if_neg (fun x => hk x.1), if_neg hk]
  · exact fold_lastHeader "Host".toList getHeaderStep (fun s => s._hostHeader)
      (fun r => r.drop 1) (fun _ => True) (fun _ _ _ => trivial)
      (fun s h _ => (getHeaderStep_fields s h).2.1) hs s trivial
  · induction hs generalizing s with
    | nil => rfl
    | cons h hs ih => rw [List.foldl_cons, ih, (getHeaderStep_fields s h).2.2]
  · induction hs generalizing s with
    | nil => rfl
    | cons h hs ih =>
      rw [List.foldl_cons, ih, (getHeaderStep_fields s h).1, collectHeaderLoop_keys]

/-- What the rounds of the loop for requests with a body leave: for a
subscribed name the trimmed value of the last line with that name, the host
of the last `Host` line, and the number of the last `Content-Length` line. -/
theorem postHeaderFold_result (hs : List (Str × Str)) (p : WebServer × PostLocals) :
    (∀ K, subscribed p.1._currentHeaders K →
      headerValueOf (hs.foldl postHeaderStep p).1._currentHeaders K
        = ((lastHeader K hs).map trim).getD (headerValueOf p.1._currentHeaders K))
    ∧ (hs.foldl postHeaderStep p).1._hostHeader
        = ((lastHeader "Host".toList hs).map trim).getD p.1._hostHeader
    ∧ (hs.foldl postHeaderStep p).1._clientContentLength
        = ((lastHeader "Content-Length".toList hs).map
            (fun r => (toInt (trim r) % 4294967296).toNat)).getD p.1._clientContentLength
    ∧ (hs.foldl postHeaderStep p).2.contentLength
        = ((lastHeader "Content-Length".toList hs).map
            (fun r => (toInt (trim r) % 4294967296).toNat)).getD p.2.contentLength
    ∧ (hs.foldl postHeaderStep p).1._currentHeaders.map (fun e => e.key)
        = p.1._currentHeaders.map (fun e => e.key) := by
  refine ⟨?_, ?_, ?_, ?_, ?_⟩
  · intro K hK
    refine fold_lastHeader K postHeaderStep (fun p => headerValueOf p.1._currentHeaders K)
      trim (fun p => subscribed p.1._currentHeaders K) ?_ ?_ hs p hK
    · intro p h hi
      rw [(postHeaderStep_fields p h).1]
      exact (subscribed_collect _ _ _ _).mpr hi
    · intro p h hi
      simp only
      rw [(postHeaderStep_fields p h).1, headerValueOf_collect]
      by_cases hk : equalsIgnoreCase h.1 K = true
      · rw [if_pos ⟨hk, hi⟩, if_pos hk]
      · rw [if_neg (fun x => hk x.1), if_neg hk]
  · exact fold_lastHeader "Host".toList postHeaderStep (fun p => p.1._hostHeader)
      trim (fun _ => True) (fun _ _ _ => trivial)
      (fun p h _ => (postHeaderStep_fields p h).2.1) hs p trivial
  · exact fold_lastHeader "Content-Length".toList postHeaderStep
      (fun p => p.1._clientContentLength) (fun r => (toInt (trim r) % 4294967296).toNat)
      (fun _ => True) (fun _ _ _ => trivial)
      (fun p h _ => (postHeaderStep_fields p h).2.2.1) hs p trivial
  · exact fold_lastHeader "Content-Length".toList postHeaderStep
      (fun p => p.2.contentLength) (fun r => (toInt (trim r) % 4294967296).toNat)
      (fun _ => True) (fun _ _ _ => trivial)
      (fun p h _ => (postHeaderStep_fields p h).2.2.2) hs p trivial
  · induction hs generalizing p with
    | nil => rfl
    | cons h hs ih =>
      rw [List.foldl_cons, ih, (postHeaderStep_fields p h).1, collectHeaderLoop_keys]

/-! ## Requests with a block of header lines -/

theorem headerValueOf_reset (table : List RequestArgument) (K : Str) :
    headerValueOf (table.map (fun h => { h with value := [] })) K = [] := by
  induction table with
  | nil => rfl
  | cons e rest ih =>
    rw [List.map_cons, headerValueOf_cons]
    split
    · rfl
    · exact ih

theorem subscribed_reset (table : List RequestArgument) (K : Str) :
    subscribed (table.map (fun h => { h with value := [] })) K ↔ subscribed table K := by
  rw [subscribed_iff_keys, subscribed_iff_keys, List.map_map]
  rfl

/-- A request without a body whose header block is a sequence of well-formed
lines closed by the empty line: the parse succeeds, the loop has run one round
per line, and the stream is left after the empty line. -/
theorem parseRequest_get_block (cfg : Config) (fuel : Nat) (s : WebServer) (c : EthernetClient)
    (m t v : Str) (hs : List (Str × Str)) (rest : Str)
    (hst : c.stream = (m ++ ' ' :: t ++ ' ' :: v) ++ '\r' :: '\n' ::
      (headerBlock hs ++ '\r' :: '\n' :: rest))
    (hw : c.wire.length ≤ c.timeout)
    (hcr : '\r' ∉ m ++ ' ' :: t ++ ' ' :: v) (hbytes : isBytes (m ++ ' ' :: t ++ ' ' :: v))
    (hm : ' ' ∉ m) (ht : ' ' ∉ t) (hwf : ∀ h ∈ hs, wellFormedHeader h)
    (hb : hasBody (methodOf m) = false) :
    ∃ c', c'.stream = rest ∧
      _parseRequest cfg fuel s c
        = some (true,
            _parseArguments
              (hs.foldl getHeaderStep (startRequest (resetHeaders s) (methodOf m) (splitUrl t).1))
              (splitUrl t).2, c') := by
  obtain ⟨c1, r1, r2, r3⟩ := readLine_stream_line c _ _ hst hw hcr hbytes
  obtain ⟨c2, g1, g2, _⟩ := getHeaderLoop_headers hs
    (startRequest (resetHeaders s) (methodOf m) (splitUrl t).1) c1 rest hwf r2
    (by rw [r3.1]; exact Nat.le_trans r3.2.2 hw)
  refine ⟨c2, g2, ?_⟩
  unfold _parseRequest
  simp only [r1, splitRequestLine_two_spaces m t v hm ht, hb, Bool.false_eq_true, if_false, g1]

/-- A request with a body whose header block is a sequence of well-formed
lines closed by the empty line: the body part starts from what one round per
line leaves, with the stream after the empty line. -/
theorem parseRequest_post_block (cfg : Config) (fuel : Nat) (s : WebServer) (c : EthernetClient)
    (m t v : Str) (hs : List (Str × Str)) (rest : Str)
    (hst : c.stream = (m ++ ' ' :: t ++ ' ' :: v) ++ '\r' :: '\n' ::
      (headerBlock hs ++ '\r' :: '\n' :: rest))
    (hw : c.wire.length ≤ c.timeout)
    (hcr : '\r' ∉ m ++ ' ' :: t ++ ' ' :: v) (hbytes : isBytes (m ++ ' ' :: t ++ ' ' :: v))
    (hm : ' ' ∉ m) (ht : ' ' ∉ t) (hwf : ∀ h ∈ hs, wellFormedHeader h)
    (hb : hasBody (methodOf m) = true) :
    ∃ c', c'.stream = rest ∧ sameLink c c' ∧
      _parseRequest cfg fuel s c
        = postBody cfg fuel
            (hs.foldl postHeaderStep
              (startRequest (resetHeaders s) (methodOf m) (splitUrl t).1, initLocals)).1 c'
            (hs.foldl postHeaderStep
              (startRequest (resetHeaders s) (methodOf m) (splitUrl t).1, initLocals)).2
            (splitUrl t).2 := by
  obtain ⟨c1, r1, r2, r3⟩ := readLine_stream_line c _ _ hst hw hcr hbytes
  obtain ⟨c2, g1, g2, g3⟩ := postHeaderLoop_headers hs
    (startRequest (resetHeaders s) (methodOf m) (splitUrl t).1) c1 initLocals rest hwf r2
    (by rw [r3.1]; exact Nat.le_trans r3.2.2 hw)
  refine ⟨c2, g2, sameLink_trans r3 g3, ?_⟩
  unfold _parseRequest
  simp only [r1, splitRequestLine_two_spaces m t v hm ht, hb, if_true, g1]

/-- The table keeps the last match.  A request line followed by a sequence of
header lines, each with a colon, and the empty line.  For every name `K` the
table subscribes, the value stored for `K` after the parse is what the header
loop extracts from the last header line whose name equals `K` up to the case
of letters, and is empty when there is no such line: for a request without a
body the parse succeeds and the loop extracts the text from the second
character after the colon on, for a request with a body the body part starts
with the trimmed text after the colon stored and every result of the parse
keeps it.  A line whose name matches no key changes no entry of the table. -/
theorem parseRequest_header_last_wins (cfg : Config) (fuel : Nat) (s : WebServer)
    (c : EthernetClient) (m t v : Str) (hs : List (Str × Str)) (rest K : Str)
    (hst : c.stream = (m ++ ' ' :: t ++ ' ' :: v) ++ '\r' :: '\n' ::
      (headerBlock hs ++ '\r' :: '\n' :: rest))
    (hw : c.wire.length ≤ c.timeout)
    (hcr : '\r' ∉ m ++ ' ' :: t ++ ' ' :: v) (hbytes : isBytes (m ++ ' ' :: t ++ ' ' :: v))
    (hm : ' ' ∉ m) (ht : ' ' ∉ t) (hwf : ∀ h ∈ hs, wellFormedHeader h)
    (hK : subscribed s._currentHeaders K) :
    (hasBody (methodOf m) = false →
      ∃ s' c', _parseRequest cfg fuel s c = some (true, s', c')
        ∧ headerValueOf s'._currentHeaders K
            = ((lastHeader K hs).map (fun r => r.drop 1)).getD [])
    ∧ (hasBody (methodOf m) = true →
      ∃ s3 c3 l3, _parseRequest cfg fuel s c = postBody cfg fuel s3 c3 l3 (splitUrl t).2
        ∧ headerValueOf s3._currentHeaders K = ((lastHeader K hs).map trim).getD []
        ∧ ∀ ok s' c', _parseRequest cfg fuel s c = some (ok, s', c') →
            headerValueOf s'._currentHeaders K = ((lastHeader K hs).map trim).getD [])
    ∧ (∀ (n w : Str) (table : List RequestArgument),
        (∀ e ∈ table, equalsIgnoreCase e.key n = false) → collectHeaderLoop n w table = table) := by
  have hK2 : subscribed (startRequest (resetHeaders s) (methodOf m) (splitUrl t).1)._currentHeaders
      K := (subscribed_reset s._currentHeaders K).mpr hK
  have h0 : headerValueOf
      (startRequest (resetHeaders s) (methodOf m) (splitUrl t).1)._currentHeaders K = [] :=
    headerValueOf_reset s._currentHeaders K
  refine ⟨?_, ?_, fun n w table h => collectHeaderLoop_of_no_match n w table h⟩
  · intro hb
    obtain ⟨c', _, e⟩ := parseRequest_get_block cfg fuel s c m t v hs rest hst hw hcr hbytes hm ht
      hwf hb
    refine ⟨_, c', e, ?_⟩
    have := (getHeaderFold_result hs
      (startRequest (resetHeaders s) (methodOf m) (splitUrl t).1)).1 K hK2
    rw [h0] at this
    exact this
  · intro hb
    obtain ⟨c', _, _, e⟩ := parseRequest_post_block cfg fuel s c m t v hs rest hst hw hcr hbytes
      hm ht hwf hb
    have := (postHeaderFold_result hs
      (startRequest (resetHeaders s) (methodOf m) (splitUrl t).1, initLocals)).1 K hK2
    rw [h0] at this
    refine ⟨_, c', _, e, this, ?_⟩
    intro ok s' c'' hres
    rw [e] at hres
    have hf := postBody_fields cfg fuel _ _ _ _ _ _ _ hres
    rw [hf.2.2.2.2.2.2]
    exact this
/-- An instance: of the lines `x-a: 1`, `X-A: 2` and `B: 3` the table with the
key `X-A` keeps `2`, the value of the last line with that name. -/
theorem parseRequest_header_last_wins_witness :
    ∃ s' c', _parseRequest sampleConfig 0 sampleServer
        (clientOf "GET /a HTTP/1.1\r\nx-a: 1\r\nX-A: 2\r\nB: 3\r\n\r\n" true) = some (true, s', c')
      ∧ headerValueOf s'._currentHeaders "x-a".toList = "2".toList := by
  obtain ⟨s', c', h1, h2⟩ := (parseRequest_header_last_wins sampleConfig 0 sampleServer
    (clientOf "GET /a HTTP/1.1\r\nx-a: 1\r\nX-A: 2\r\nB: 3\r\n\r\n" true)
    "GET".toList "/a".toList "HTTP/1.1".toList
    [("x-a".toList, " 1".toList), ("X-A".toList, " 2".toList), ("B".toList, " 3".toList)]
    [] "x-a".toList (by decide) (by decide) (by decide) (by decide) (by decide) (by decide)
    (by decide) ⟨⟨"X-A".toList, "v".toList⟩, List.mem_cons_self _ _, by decide⟩).1 (by decide)
  exact ⟨s', c', h1, h2.trans (by decide)⟩

/-- C15 fails on the code, by the defect of C29.  The table subscribes `X-A`
and the header lines are `X-A: 1` and `x-a:23`: the last line whose name
equals `X-A` up to case has the value `23`.  A `POST` request stores `23`.  A
`GET` request stores `3`: its header loop takes the text from the second
character after the colon, whatever the first one is, so the value of a line
without a space after the colon loses its first character. -/
theorem header_last_value_cut_for_get :
    lastHeader "X-A".toList [("X-A".toList, " 1".toList), ("x-a".toList, "23".toList)]
      = some "23".toList
    ∧ subscribed sampleServer._currentHeaders "X-A".toList
    ∧ (_parseRequest sampleConfig 0 sampleServer
        (clientOf "GET /a HTTP/1.1\r\nX-A: 1\r\nx-a:23\r\n\r\n" true)).map
        (fun r => (r.1, headerValueOf r.2.1._currentHeaders "X-A".toList))
      = some (true, "3".toList)
    ∧ (_parseRequest sampleConfig 0 sampleServer
        (clientOf "POST /a HTTP/1.1\r\nX-A: 1\r\nx-a:23\r\n\r\n" true)).map
        (fun r => (r.1, headerValueOf r.2.1._currentHeaders "X-A".toList))
      = some (true, "23".toList) := by
  refine ⟨by decide, ⟨⟨"X-A".toList, "v".toList⟩, List.mem_cons_self _ _, by decide⟩,
    by decide, by decide⟩

/-! ## `Host` and `Content-Length` -/

theorem toInt_of_no_number (w : Str)
    (h : ∀ c, w.head? = some c →
      ¬ ('0' ≤ c ∧ c ≤ '9') ∧ c ≠ '-' ∧ c ≠ '+' ∧ isSpace c = false) :
    toInt w = 0 := by
  unfold toInt
  cases w with
  | nil => rfl
  | cons c cs =>
    obtain ⟨h1, h2, h3, h4⟩ := h c rfl
    rw [List.dropWhile_cons, h4]
    simp only [Bool.false_eq_true, if_false]
    split
    · rename_i x heq; exact absurd (List.cons.inj heq).1 h2
    · rename_i x heq; exact absurd (List.cons.inj heq).1 h3
    · rw [readDigits, if_neg h1]; rfl

/-- C19: a request without a body (`GET`, `HEAD`, `OPTIONS`) whose header
block holds, after the well-formed lines `hs`, a line `bad` without a colon.  The parse returns `true`; the stream is left right after the line
`bad`, so no later header line is read; and the table and the host are what
the lines `hs` before it give: for a subscribed name the value of the last of
those lines with that name, empty when there is none. -/
theorem parseRequest_get_stops_at_colonless_line (cfg : Config) (fuel : Nat) (s : WebServer)
    (c : EthernetClient) (m t v : Str) (hs : List (Str × Str)) (bad rest : Str)
    (hst : c.stream = (m ++ ' ' :: t ++ ' ' :: v) ++ '\r' :: '\n' ::
      (headerBlock hs ++ (bad ++ '\r' :: '\n' :: rest)))
    (hw : c.wire.length ≤ c.timeout)
    (hcr : '\r' ∉ m ++ ' ' :: t ++ ' ' :: v) (hbytes : isBytes (m ++ ' ' :: t ++ ' ' :: v))
    (hm : ' ' ∉ m) (ht : ' ' ∉ t) (hwf : ∀ h ∈ hs, wellFormedHeader h)
    (hbad : ':' ∉ bad) (hbcr : '\r' ∉ bad) (hbb : isBytes bad)
    (hb : hasBody (methodOf m) = false) :
    ∃ s' c', _parseRequest cfg fuel s c = some (true, s', c')
      ∧ c'.stream = rest
      ∧ s'._currentHeaders
          = (hs.foldl getHeaderStep
              (startRequest (resetHeaders s) (methodOf m) (splitUrl t).1))._currentHeaders
      ∧ (∀ K, subscribed s._currentHeaders K →
          headerValueOf s'._currentHeaders K
            = ((lastHeader K hs).map (fun r => r.drop 1)).getD [])
      ∧ s'._hostHeader
          = ((lastHeader "Host".toList hs).map (fun r => r.drop 1)).getD s._hostHeader
      ∧ s'._currentArgs = parseArgumentList (splitUrl t).2 := by
  obtain ⟨c1, r1, r2, r3⟩ := readLine_stream_line c _ _ hst hw hcr hbytes
  obtain ⟨c2, g1, g2, _⟩ := getHeaderLoop_stops hs
    (startRequest (resetHeaders s) (methodOf m) (splitUrl t).1) c1 bad rest hwf hbad hbcr hbb r2
    (by rw [r3.1]; exact Nat.le_trans r3.2.2 hw)
  obtain ⟨a1, a2, _, _⟩ := getHeaderFold_result hs
    (startRequest (resetHeaders s) (methodOf m) (splitUrl t).1)
  refine ⟨_parseArguments (hs.foldl getHeaderStep
    (startRequest (resetHeaders s) (methodOf m) (splitUrl t).1)) (splitUrl t).2, c2, ?_, g2, rfl,
    ?_, a2, rfl⟩
  · unfold _parseRequest
    simp only [r1, splitRequestLine_two_spaces m t v hm ht, hb, Bool.false_eq_true, if_false, g1]
  · intro K hK
    have := a1 K ((subscribed_reset s._currentHeaders K).mpr hK)
    rw [show headerValueOf
      (startRequest (resetHeaders s) (methodOf m) (splitUrl t).1)._currentHeaders K = [] from
      headerValueOf_reset s._currentHeaders K] at this
    exact this

/-- Witness of C19: after `X-A: 1` the line `bogus` ends the header loop; the
parse succeeds, `X-A` keeps `1`, and the line `X-A: 2` stays unread. -/
theorem parseRequest_get_stops_at_colonless_line_witness :
    ∃ s' c', _parseRequest sampleConfig 0 sampleServer
        (clientOf "GET /a HTTP/1.1\r\nX-A: 1\r\nbogus\r\nX-A: 2\r\n\r\n" true)
          = some (true, s', c')
      ∧ c'.stream = "X-A: 2\r\n\r\n".toList
      ∧ headerValueOf s'._currentHeaders "X-A".toList = "1".toList := by
  obtain ⟨s', c', h1, h2, _, h4, _, _⟩ := parseRequest_get_stops_at_colonless_line sampleConfig 0
    sampleServer (clientOf "GET /a HTTP/1.1\r\nX-A: 1\r\nbogus\r\nX-A: 2\r\n\r\n" true)
    "GET".toList "/a".toList "HTTP/1.1".toList [("X-A".toList, " 1".toList)]
    "bogus".toList "X-A: 2\r\n\r\n".toList (by decide) (by decide) (by decide) (by decide)
    (by decide) (by decide) (by decide) (by decide) (by decide) (by decide) (by decide)
  exact ⟨s', c', h1, h2,
    (h4 "X-A".toList ⟨⟨"X-A".toList, "v".toList⟩, List.mem_cons_self _ _, by decide⟩).trans
      (by decide)⟩

/-! ## The body of a request that is no form -/

theorem postHeader_locals (s : WebServer) (l : PostLocals) (n v : Str) :
    (postHeader s l n v).2.isForm
        = (if equalsIgnoreCase n "Content-Type".toList then
            (if startsWith v mimeTxt then false
             else if startsWith v "application/x-www-form-urlencoded".toList then false
             else if startsWith v "multipart/".toList then true else l.isForm)
           else l.isForm)
    ∧ (postHeader s l n v).2.isEncoded
        = (if equalsIgnoreCase n "Content-Type".toList then
            (if startsWith v mimeTxt then l.isEncoded
             else if startsWith v "application/x-www-form-urlencoded".toList then true
             else l.isEncoded)
           else l.isEncoded) := by
  unfold postHeader
  generalize equalsIgnoreCase n "Content-Type".toList = A
  generalize equalsIgnoreCase n "Content-Length".toList = B
  generalize equalsIgnoreCase n "Host".toList = C
  generalize startsWith v mimeTxt = D
  generalize startsWith v "application/x-www-form-urlencoded".toList = E
  generalize startsWith v "multipart/".toList = F
  cases A <;> cases B <;> cases C <;> cases D <;> cases E <;> cases F <;> exact ⟨rfl, rfl⟩

/-- Header lines none of which is a `Content-Type` line that announces a form
leave the locals `isForm` and `isEncoded` at `false`. -/
theorem postHeaderFold_plain :
    ∀ (hs : List (Str × Str)) (p : WebServer × PostLocals),
      (∀ h ∈ hs, equalsIgnoreCase h.1 "Content-Type".toList = true →
        startsWith (trim h.2) "application/x-www-form-urlencoded".toList = false
        ∧ startsWith (trim h.2) "multipart/".toList = false) →
      p.2.isForm = false → p.2.isEncoded = false →
      (hs.foldl postHeaderStep p).2.isForm = false
      ∧ (hs.foldl postHeaderStep p).2.isEncoded = false := by
  intro hs
  induction hs with
  | nil => intro p _ h1 h2; exact ⟨h1, h2⟩
  | cons h hs ih =>
    intro p hct h1 h2
    rw [List.foldl_cons]
    have hh := hct h (List.mem_cons_self _ _)
    obtain ⟨a1, a2⟩ := postHeader_locals (_collectHeader p.1 h.1 (trim h.2)) p.2 h.1 (trim h.2)
    refine ih _ (fun x hx => hct x (List.mem_cons_of_mem _ hx)) ?_ ?_
    · unfold postHeaderStep
      rw [a1]
      cases hc : equalsIgnoreCase h.1 "Content-Type".toList
      · exact h1
      · obtain ⟨b1, b2⟩ := hh hc
        rw [b1, b2, h1]
        cases startsWith (trim h.2) mimeTxt <;> rfl
    · unfold postHeaderStep
      rw [a2]
      cases hc : equalsIgnoreCase h.1 "Content-Type".toList
      · exact h2
      · obtain ⟨b1, b2⟩ := hh hc
        rw [b1, h2]
        cases startsWith (trim h.2) mimeTxt <;> rfl

theorem deliversInTime_of_received (t L : Nat) (c : EthernetClient) (h : L ≤ c.rx.length) :
    deliversInTime t L c := by
  intro i _ hd
  unfold delivered at hd
  omega

/-- The body part on a request that is no form, with a declared length above
zero, a buffer that could be reserved, and a transport that delivers the body
in time: it succeeds, the arguments are those of the search string, to which
the body is added first when the request is url-encoded, followed by the
argument `plain` with the body. -/
theorem postBody_delivered (cfg : Config) (fuel : Nat) (s : WebServer) (c : EthernetClient)
    (l : PostLocals) (searchStr B rest : Str) (hst : c.stream = B ++ rest)
    (hb : isBytes c.stream) (hform : l.isForm = false) (hlen : l.contentLength = B.length)
    (hpos : 0 < B.length) (hres : cfg.reserveOk (B.length + 1) = true)
    (hdel : deliversInTime cfg.HTTP_MAX_POST_WAIT B.length c) :
    ∃ c', postBody cfg fuel s c l searchStr
        = some (true,
            { _parseArguments s
                (if l.isEncoded then
                  (if searchStr.length ≠ 0 then searchStr ++ ['&'] else searchStr) ++ B
                 else searchStr) with
              _currentArgs :=
                (_parseArguments s
                  (if l.isEncoded then
                    (if searchStr.length ≠ 0 then searchStr ++ ['&'] else searchStr) ++ B
                   else searchStr))._currentArgs ++ [{ key := "plain".toList, value := B }] },
            c')
      ∧ c'.stream = rest := by
  have hfull := readBytesWithTimeoutLoop_full B.length cfg.HTTP_MAX_POST_WAIT (B.length + 1) c []
    hb (Nat.zero_le _) (by simp) (by simpa using hdel)
  obtain ⟨hs1, _⟩ := readBytesWithTimeoutLoop_stream B.length cfg.HTTP_MAX_POST_WAIT
    (B.length + 1) c [] hb
  rw [List.nil_append, hst] at hs1
  have hB : (readBytesWithTimeoutLoop B.length cfg.HTTP_MAX_POST_WAIT (B.length + 1) c []).1 = B := by
    have := congrArg (List.take B.length) hs1
    rw [take_append_of_length _ _ _ hfull.symm, take_append_of_length _ _ _ rfl] at this
    exact this
  have hR : (readBytesWithTimeoutLoop B.length cfg.HTTP_MAX_POST_WAIT (B.length + 1) c []).2.stream
      = rest := by
    rw [hB] at hs1
    exact List.append_cancel_left hs1
  have hne : B.length ≠ 0 := by omega
  refine ⟨(readBytesWithTimeoutLoop B.length cfg.HTTP_MAX_POST_WAIT (B.length + 1) c []).2, ?_, hR⟩
  unfold postBody
  simp only [hform, hlen, hres, readBytesWithTimeout, Bool.not_false, Bool.not_true,
    Bool.false_eq_true, if_false, if_true, true_and, hB, beq_self_eq_true, Nat.lt_irrefl,
    or_self, ne_eq, hne, not_false_eq_true]

theorem received_of_sameLink (c c3 : EthernetClient) (hw : c.wire = []) (h : sameLink c c3) :
    c3.rx = c3.stream := by
  have : c3.wire = [] := by
    have := h.2.2
    rw [hw] at this
    exact List.length_eq_zero.mp (Nat.le_zero.mp this)
  simp [EthernetClient.stream, this]

/-- When all that is to come has been received, the transport delivers in
time whatever the stream holds, also later on. -/
theorem deliversInTime_of_all_received (t : Nat) (c c3 : EthernetClient) (B rest : Str)
    (hw : c.wire = []) (hs : c3.stream = B ++ rest) (h : sameLink c c3) :
    deliversInTime t B.length c3 := by
  apply deliversInTime_of_received
  rw [received_of_sameLink c c3 hw h, hs, List.length_append]
  omega

/-- C12, as stated, fails: the body of three bytes is there in full, but the
reservation of the buffer for it fails and the parse returns `false`. -/
theorem plain_body_counterexample :
    ∃ s' c', _parseRequest noMemoryConfig 0 sampleServer
      (clientOf
        "POST /a?x=1 HTTP/1.1\r\nContent-Type: application/json\r\nContent-Length: 3\r\n\r\nabc"
        true) = some (false, s', c') :=
  ⟨_, _, rfl⟩

/-- C12, amended: a `POST`, `PUT`, `PATCH` or `DELETE` request with target `t`,
header lines `hs` of which no `Content-Type` line starts with `multipart/` or
`application/x-www-form-urlencoded`, a last `Content-Length` line that gives
the length of `B`, which is above zero, and the body `B`, which the transport
delivers without a stall longer than `HTTP_MAX_POST_WAIT`.  When the
reservation of the buffer for the body succeeds, the parse returns `true`, the
argument list is that of `_parseArguments` on the search string of `t`
followed by the one argument `plain` with value `B`, which is its last
element, and the stream is left after `B`. -/
theorem parseRequest_plain_body (cfg : Config) (fuel : Nat) (s : WebServer)
    (c : EthernetClient) (m t v : Str) (hs : List (Str × Str)) (B rest : Str)
    (hst : c.stream = (m ++ ' ' :: t ++ ' ' :: v) ++ '\r' :: '\n' ::
      (headerBlock hs ++ '\r' :: '\n' :: (B ++ rest)))
    (hw : c.wire.length ≤ c.timeout)
    (hcr : '\r' ∉ m ++ ' ' :: t ++ ' ' :: v) (hbytes : isBytes (m ++ ' ' :: t ++ ' ' :: v))
    (hm : ' ' ∉ m) (ht : ' ' ∉ t) (hwf : ∀ h ∈ hs, wellFormedHeader h)
    (hb : hasBody (methodOf m) = true)
    (hct : ∀ h ∈ hs, equalsIgnoreCase h.1 "Content-Type".toList = true →
      startsWith (trim h.2) "application/x-www-form-urlencoded".toList = false
      ∧ startsWith (trim h.2) "multipart/".toList = false)
    (hcl : ((lastHeader "Content-Length".toList hs).map
      (fun r => (toInt (trim r) % 4294967296).toNat)).getD 0 = B.length)
    (hpos : 0 < B.length) (hBb : isBytes (B ++ rest))
    (hres : cfg.reserveOk (B.length + 1) = true)
    (hdel : ∀ c3, c3.stream = B ++ rest → sameLink c c3 →
      deliversInTime cfg.HTTP_MAX_POST_WAIT B.length c3) :
    ∃ s' c', _parseRequest cfg fuel s c = some (true, s', c')
      ∧ s'._currentArgs
          = (_parseArguments s (splitUrl t).2)._currentArgs
              ++ [{ key := "plain".toList, value := B }]
      ∧ (_parseArguments s (splitUrl t).2)._currentArgs = parseArgumentList (splitUrl t).2
      ∧ s'._currentArgs.getLast? = some { key := "plain".toList, value := B }
      ∧ c'.stream = rest := by
  obtain ⟨c3, e1, e2, e3⟩ := parseRequest_post_block cfg fuel s c m t v hs (B ++ rest) hst hw hcr
    hbytes hm ht hwf hb
  obtain ⟨f1, f2⟩ := postHeaderFold_plain hs
    (startRequest (resetHeaders s) (methodOf m) (splitUrl t).1, initLocals) hct rfl rfl
  obtain ⟨_, _, _, f4, _⟩ := postHeaderFold_result hs
    (startRequest (resetHeaders s) (methodOf m) (splitUrl t).1, initLocals)
  obtain ⟨c4, g1, g2⟩ := postBody_delivered cfg fuel
    (hs.foldl postHeaderStep
      (startRequest (resetHeaders s) (methodOf m) (splitUrl t).1, initLocals)).1 c3
    (hs.foldl postHeaderStep
      (startRequest (resetHeaders s) (methodOf m) (splitUrl t).1, initLocals)).2
    (splitUrl t).2 B rest e1 (by rw [e1]; exact hBb) f1 (f4.trans hcl) hpos hres (hdel c3 e1 e2)
  rw [f2] at g1
  simp only [Bool.false_eq_true, if_false] at g1
  refine ⟨_, c4, e3.trans g1, rfl, rfl, ?_, g2⟩
  simp [_parseArguments]

/-- Witness of the amended C12: a `POST` with a JSON body of three bytes and
the query `x=1` gives the arguments `x = 1` and `plain = abc`. -/
theorem parseRequest_plain_body_witness :
    ∃ s' c', _parseRequest sampleConfig 0 sampleServer
      (clientOf
        "POST /a?x=1 HTTP/1.1\r\nContent-Type: application/json\r\nContent-Length: 3\r\n\r\nabc"
        true) = some (true, s', c')
      ∧ s'._currentArgs = [{ key := "x".toList, value := "1".toList },
          { key := "plain".toList, value := "abc".toList }] := by
  obtain ⟨s', c', h1, h2, _, _, _⟩ := parseRequest_plain_body sampleConfig 0 sampleServer
    (clientOf
      "POST /a?x=1 HTTP/1.1\r\nContent-Type: application/json\r\nContent-Length: 3\r\n\r\nabc"
      true) "POST".toList "/a?x=1".toList "HTTP/1.1".toList
    [("Content-Type".toList, " application/json".toList), ("Content-Length".toList, " 3".toList)]
    "abc".toList [] (by decide) (by decide) (by decide) (by decide) (by decide) (by decide)
    (by decide) (by decide) (by decide) (by decide) (by decide) (by decide) rfl
    (fun c3 h3 h4 => deliversInTime_of_all_received _ _ c3 "abc".toList [] rfl h3 h4)
  exact ⟨s', c', h1, h2.trans (by decide)⟩

/-! ## The body of a url-encoded request -/

theorem startsWith_urlencoded_not_text (w : Str)
    (h : startsWith w "application/x-www-form-urlencoded".toList = true) :
    startsWith w mimeTxt = false := by
  unfold startsWith at h ⊢
  cases w with
  | nil => rfl
  | cons x xs =>
    have hx : x = 'a' := by
      have h2 : ('a' == x) = true := by
        have h3 : List.isPrefixOf ('a' :: "pplication/x-www-form-urlencoded".toList) (x :: xs)
            = true := h
        rw [List.isPrefixOf_cons₂] at h3
        exact (Bool.and_eq_true _ _ ▸ h3).1
      exact (beq_iff_eq.mp h2).symm
    subst hx
    rfl

/-- Header lines whose `Content-Type` lines all announce a url-encoded body
leave `isForm` at `false`, and set `isEncoded` when there is such a line. -/
theorem postHeaderFold_urlencoded :
    ∀ (hs : List (Str × Str)) (p : WebServer × PostLocals),
      (∀ h ∈ hs, equalsIgnoreCase h.1 "Content-Type".toList = true →
        startsWith (trim h.2) "application/x-www-form-urlencoded".toList = true) →
      p.2.isForm = false →
      (hs.foldl postHeaderStep p).2.isForm = false
      ∧ (hs.foldl postHeaderStep p).2.isEncoded
          = (p.2.isEncoded || hs.any (fun h => equalsIgnoreCase h.1 "Content-Type".toList)) := by
  intro hs
  induction hs with
  | nil => intro p _ h1; exact ⟨h1, by simp⟩
  | cons h hs ih =>
    intro p hct h1
    rw [List.foldl_cons]
    have hh := hct h (List.mem_cons_self _ _)
    obtain ⟨a1, a2⟩ := postHeader_locals (_collectHeader p.1 h.1 (trim h.2)) p.2 h.1 (trim h.2)
    have k1 : (postHeaderStep p h).2.isForm = false := by
      unfold postHeaderStep
      rw [a1]
      cases hc : equalsIgnoreCase h.1 "Content-Type".toList
      · exact h1
      · rw [hh hc, startsWith_urlencoded_not_text _ (hh hc)]
        rfl
    have k2 : (postHeaderStep p h).2.isEncoded
        = (p.2.isEncoded || equalsIgnoreCase h.1 "Content-Type".toList) := by
      unfold postHeaderStep
      rw [a2]
      cases hc : equalsIgnoreCase h.1 "Content-Type".toList
      · simp
      · rw [hh hc, startsWith_urlencoded_not_text _ (hh hc)]
        simp
    obtain ⟨i1, i2⟩ := ih (postHeaderStep p h) (fun x hx => hct x (List.mem_cons_of_mem _ hx)) k1
    refine ⟨i1, ?_⟩
    rw [i2, k2, List.any_cons, Bool.or_assoc]

/-- C13, as stated, fails: for the url-encoded body `a=b+c` with the query
`x=1` the final list is not the list of `x=1&a=b+c` alone, the argument `plain`
with the raw body follows it. -/
theorem urlencoded_body_counterexample :
    ∃ s' c', _parseRequest sampleConfig 0 sampleServer
      (clientOf
        ("POST /a?x=1 HTTP/1.1\r\nContent-Type: application/x-www-form-urlencoded\r\n"
          ++ "Content-Length: 5\r\n\r\na=b+c") true) = some (true, s', c')
      ∧ s'._currentArgs = [{ key := "x".toList, value := "1".toList },
          { key := "a".toList, value := "b c".toList },
          { key := "plain".toList, value := "a=b+c".toList }]
      ∧ s'._currentArgs ≠ (_parseArguments sampleServer "x=1&a=b+c".toList)._currentArgs :=
  ⟨_, _, rfl, by decide, by decide⟩

/-- C13, amended: a `POST`, `PUT`, `PATCH` or `DELETE` request with target `t`
and search string `Q`, header lines `hs` with a `Content-Type` line, every
`Content-Type` line starting with `application/x-www-form-urlencoded`, a last
`Content-Length` line that gives the length of `B`, which is above zero, and
the body `B`, delivered without a stall longer than `HTTP_MAX_POST_WAIT`.
When the reservation of the buffer for the body succeeds, the parse returns
`true` and the argument list is that of `_parseArguments` on `Q`, `&` and `B`
(on `B` alone when `Q` is empty), followed by the argument `plain` with the
raw body `B` as its last element. -/
theorem parseRequest_urlencoded_body (cfg : Config) (fuel : Nat) (s : WebServer)
    (c : EthernetClient) (m t v : Str) (hs : List (Str × Str)) (B rest : Str)
    (hst : c.stream = (m ++ ' ' :: t ++ ' ' :: v) ++ '\r' :: '\n' ::
      (headerBlock hs ++ '\r' :: '\n' :: (B ++ rest)))
    (hw : c.wire.length ≤ c.timeout)
    (hcr : '\r' ∉ m ++ ' ' :: t ++ ' ' :: v) (hbytes : isBytes (m ++ ' ' :: t ++ ' ' :: v))
    (hm : ' ' ∉ m) (ht : ' ' ∉ t) (hwf : ∀ h ∈ hs, wellFormedHeader h)
    (hb : hasBody (methodOf m) = true)
    (hct : ∀ h ∈ hs, equalsIgnoreCase h.1 "Content-Type".toList = true →
      startsWith (trim h.2) "application/x-www-form-urlencoded".toList = true)
    (hone : ∃ h ∈ hs, equalsIgnoreCase h.1 "Content-Type".toList = true)
    (hcl : ((lastHeader "Content-Length".toList hs).map
      (fun r => (toInt (trim r) % 4294967296).toNat)).getD 0 = B.length)
    (hpos : 0 < B.length) (hBb : isBytes (B ++ rest))
    (hres : cfg.reserveOk (B.length + 1) = true)
    (hdel : ∀ c3, c3.stream = B ++ rest → sameLink c c3 →
      deliversInTime cfg.HTTP_MAX_POST_WAIT B.length c3) :
    ∃ s' c', _parseRequest cfg fuel s c = some (true, s', c')
      ∧ ((splitUrl t).2 ≠ [] →
          s'._currentArgs
            = (_parseArguments s ((splitUrl t).2 ++ '&' :: B))._currentArgs
                ++ [{ key := "plain".toList, value := B }])
      ∧ ((splitUrl t).2 = [] →
          s'._currentArgs
            = (_parseArguments s B)._currentArgs ++ [{ key := "plain".toList, value := B }])
      ∧ s'._currentArgs.getLast? = some { key := "plain".toList, value := B }
      ∧ c'.stream = rest := by
  obtain ⟨c3, e1, e2, e3⟩ := parseRequest_post_block cfg fuel s c m t v hs (B ++ rest) hst hw hcr
    hbytes hm ht hwf hb
  obtain ⟨f1, f2⟩ := postHeaderFold_urlencoded hs
    (startRequest (resetHeaders s) (methodOf m) (splitUrl t).1, initLocals) hct rfl
  have f3 : hs.any (fun h => equalsIgnoreCase h.1 "Content-Type".toList) = true := by
    obtain ⟨h, hh, hc⟩ := hone
    exact List.any_eq_true.mpr ⟨h, hh, hc⟩
  rw [f3] at f2
  have f2 : (hs.foldl postHeaderStep
      (startRequest (resetHeaders s) (methodOf m) (splitUrl t).1, initLocals)).2.isEncoded
      = true := f2
  obtain ⟨_, _, _, f4, _⟩ := postHeaderFold_result hs
    (startRequest (resetHeaders s) (methodOf m) (splitUrl t).1, initLocals)
  obtain ⟨c4, g1, g2⟩ := postBody_delivered cfg fuel
    (hs.foldl postHeaderStep
      (startRequest (resetHeaders s) (methodOf m) (splitUrl t).1, initLocals)).1 c3
    (hs.foldl postHeaderStep
      (startRequest (resetHeaders s) (methodOf m) (splitUrl t).1, initLocals)).2
    (splitUrl t).2 B rest e1 (by rw [e1]; exact hBb) f1 (f4.trans hcl) hpos hres (hdel c3 e1 e2)
  rw [f2] at g1
  simp only [if_true] at g1
  refine ⟨_, c4, e3.trans g1, ?_, ?_, ?_, g2⟩
  · intro hq
    have : (splitUrl t).2.length ≠ 0 := fun h => hq (List.length_eq_zero.mp h)
    simp [_parseArguments, this]
  · intro hq
    simp [_parseArguments, hq]
  · simp [_parseArguments]

/-- Witness of the amended C13: the url-encoded body `a=b+c` with the query
`x=1` gives the arguments `x = 1`, `a = b c` and `plain = a=b+c`. -/
theorem parseRequest_urlencoded_body_witness :
    ∃ s' c', _parseRequest sampleConfig 0 sampleServer
      (clientOf
        ("POST /a?x=1 HTTP/1.1\r\nContent-Type: application/x-www-form-urlencoded\r\n"
          ++ "Content-Length: 5\r\n\r\na=b+c") true) = some (true, s', c')
      ∧ s'._currentArgs
          = (_parseArguments sampleServer "x=1&a=b+c".toList)._currentArgs
              ++ [{ key := "plain".toList, value := "a=b+c".toList }] := by
  obtain ⟨s', c', h1, h2, _, _, _⟩ := parseRequest_urlencoded_body sampleConfig 0 sampleServer
    (clientOf
      ("POST /a?x=1 HTTP/1.1\r\nContent-Type: application/x-www-form-urlencoded\r\n"
        ++ "Content-Length: 5\r\n\r\na=b+c") true)
    "POST".toList "/a?x=1".toList "HTTP/1.1".toList
    [("Content-Type".toList, " application/x-www-form-urlencoded".toList),
      ("Content-Length".toList, " 5".toList)]
    "a=b+c".toList [] (by decide) (by decide) (by decide) (by decide) (by decide) (by decide)
    (by decide) (by decide) (by decide)
    ⟨("Content-Type".toList, " application/x-www-form-urlencoded".toList),
      List.mem_cons_self _ _, by decide⟩
    (by decide) (by decide) (by decide) rfl
    (fun c3 h3 h4 => deliversInTime_of_all_received _ _ c3 "a=b+c".toList [] rfl h3 h4)
  exact ⟨s', c', h1, (h2 (by decide)).trans (by decide)⟩

/-! ## What a parse carries over -/

/-- C14: the servers `sampleServer` and `idleServer` have the same
subscription keys and the same handlers and differ in the host and the content
length an earlier request left.  On the request `GET /a HTTP/1.1` without
`Host` and `Content-Length` lines both parses succeed, and each keeps the host
and the content length it started with: `old` and `7` against the empty host
and `0`.  Method, uri, table and arguments are the same. -/
theorem parseRequest_keeps_earlier_host_and_length :
    idleServer._currentHeaders = sampleServer._currentHeaders
    ∧ idleServer._firstHandler = sampleServer._firstHandler
    ∧ ∃ s1 c1 s2 c2,
        _parseRequest sampleConfig 0 sampleServer (clientOf "GET /a HTTP/1.1\r\n\r\n" true)
          = some (true, s1, c1)
        ∧ _parseRequest sampleConfig 0 idleServer (clientOf "GET /a HTTP/1.1\r\n\r\n" true)
          = some (true, s2, c2)
        ∧ s1._hostHeader = "old".toList ∧ s2._hostHeader = []
        ∧ s1._clientContentLength = 7 ∧ s2._clientContentLength = 0
        ∧ s1._currentMethod = s2._currentMethod ∧ s1._currentUri = s2._currentUri
        ∧ s1._currentHeaders = s2._currentHeaders ∧ s1._currentArgs = s2._currentArgs :=
  ⟨rfl, rfl, _, _, _, _, rfl, rfl, rfl, rfl, rfl, rfl, rfl, rfl, rfl, rfl⟩

/-! ## The preamble of a form -/

theorem parseForm_of_preamble_eq (cfg : Config) (fuel : Nat) (s : WebServer)
    (c : EthernetClient) (boundary : Str) (len : Nat)
    (h : (preambleLoop 2 c).1 = "--".toList ++ boundary) :
    _parseForm cfg fuel s c boundary len
      = match partsLoop cfg boundary len fuel { s with _postArgs := [] }
          (readStringUntil (preambleLoop 2 c).2 '\n').2 with
        | none => none
        | some (false, s2, c2) => some (false, s2, c2)
        | some (true, s2, c2) => some (true, mergeArgs s2, c2) := by
  unfold _parseForm
  simp only [if_pos h]

/-- A body that starts with the boundary line passes the preamble check. -/
theorem preambleLoop_boundary_line (c : EthernetClient) (line rest : Str)
    (hs : c.stream = line ++ '\r' :: '\n' :: rest) (hw : c.wire.length ≤ c.timeout)
    (hne : line ≠ []) (hcr : '\r' ∉ line) (hb : isBytes line) :
    ∃ c1, preambleLoop 2 c = (line, c1)
      ∧ (readStringUntil c1 '\n').2.stream = rest ∧ sameLink c (readStringUntil c1 '\n').2 := by
  obtain ⟨c1, h1, h2, h3⟩ := readStringUntil_stream_line c '\r' line ('\n' :: rest) hs hw
    (by decide) hcr hb
  obtain ⟨c2, i1, i2, i3⟩ := readStringUntil_stream_line c1 '\n' [] rest (by simpa using h2)
    (by rw [h3.1]; exact Nat.le_trans h3.2.2 hw) (by decide) (by simp)
    (by intro x hx; cases hx)
  refine ⟨c1, ?_, by rw [i1]; exact i2, by rw [i1]; exact sameLink_trans h3 i3⟩
  unfold preambleLoop
  have : ¬ (line.length = 0) := fun h => hne (List.length_eq_zero.mp h)
  simp only [h1, this, if_false]

theorem readBytesLoop_take :
    ∀ (n : Nat) (c : EthernetClient) (got : Str), n ≤ c.rx.length → isBytes c.rx →
      readBytesLoop n c got = (got ++ c.rx.take n, { c with rx := c.rx.drop n }) := by
  intro n
  induction n with
  | zero => intro c got _ _; simp [readBytesLoop]
  | succ n ih =>
    intro c got hn hb
    cases hrx : c.rx with
    | nil => rw [hrx] at hn; simp at hn
    | cons b rest =>
      have hr := timedRead_cons c b rest hrx
      have hb' : b.toNat < 256 := hb b (by rw [hrx]; simp)
      have hpos : ¬ ((b.toNat : Int) < 0) := by omega
      rw [readBytesLoop]
      simp only [hr, hpos, if_false, byteOfInt_toNat b hb']
      rw [ih _ _ (by rw [hrx] at hn; simpa using hn)
        (fun x hx => hb x (by rw [hrx]; exact List.mem_cons_of_mem _ hx))]
      simp

theorem readBytesWithTimeoutLoop_done (L t : Nat) (fuel : Nat) (c : EthernetClient) (data : Str)
    (h : ¬ data.length < L) : readBytesWithTimeoutLoop L t fuel c data = (data, c) := by
  cases fuel with
  | zero => rfl
  | succ n => rw [readBytesWithTimeoutLoop, if_neg h]

theorem legacyLoop_done (allocOk : Nat → Bool) (heapByte : Nat → Char) (L t : Nat) (fuel : Nat)
    (c : EthernetClient) (buf : Option Str) (n : Nat) (h : ¬ n < L) :
    Legacy.readBytesWithTimeoutLoop allocOk heapByte L t fuel c buf n = (buf, n, c) := by
  cases fuel with
  | zero => rfl
  | succ k => simp only [Legacy.readBytesWithTimeoutLoop, h, if_false]
/-- The two loops side by side, without allocation failure, from the same
client and the same bytes held: the `char*` loop holds what the `String` loop
holds when it ends short of `L`, and its first `L` bytes are what the `String`
loop holds when it ends with at least `L`. -/
theorem legacyLoop_sim (heapByte : Nat → Char) (L t : Nat) :
    ∀ (fuel : Nat) (c : EthernetClient) (data : Str) (buf : Option Str),
      isBytes c.stream → buf.getD [] = data → data.length ≤ L →
      (Legacy.readBytesWithTimeoutLoop (fun _ => true) heapByte L t fuel c buf data.length).2.1
          = ((Legacy.readBytesWithTimeoutLoop (fun _ => true) heapByte L t fuel c buf
              data.length).1.getD []).length
      ∧ ((readBytesWithTimeoutLoop L t fuel c data).1.length = L ↔
          L ≤ (Legacy.readBytesWithTimeoutLoop (fun _ => true) heapByte L t fuel c buf
                data.length).2.1)
      ∧ (readBytesWithTimeoutLoop L t fuel c data).1
          = ((Legacy.readBytesWithTimeoutLoop (fun _ => true) heapByte L t fuel c buf
              data.length).1.getD []).take L
      ∧ ((Legacy.readBytesWithTimeoutLoop (fun _ => true) heapByte L t fuel c buf
              data.length).2.1 ≤ L →
          (readBytesWithTimeoutLoop L t fuel c data).2
            = (Legacy.readBytesWithTimeoutLoop (fun _ => true) heapByte L t fuel c buf
                data.length).2.2) := by
  have base : ∀ (c : EthernetClient) (data : Str) (buf : Option Str),
      buf.getD [] = data → data.length ≤ L →
      data.length = (buf.getD []).length
      ∧ (data.length = L ↔ L ≤ data.length)
      ∧ data = (buf.getD []).take L
      ∧ (data.length ≤ L → c = c) := by
    intro c data buf hbuf hle
    refine ⟨by rw [hbuf], ⟨fun h => by omega, fun h => by omega⟩, ?_, fun _ => rfl⟩
    rw [hbuf, List.take_of_length_le hle]
  intro fuel
  induction fuel with
  | zero =>
    intro c data buf _ hbuf hle
    exact base c data buf hbuf hle
  | succ n ih =>
    intro c data buf hb hbuf hle
    by_cases hlt : data.length < L
    · obtain ⟨w1, w2⟩ := waitAvailable_stream t c
      by_cases hz : (waitAvailable t c).1 = 0
      · rw [readBytesWithTimeoutLoop]
        simp only [Legacy.readBytesWithTimeoutLoop, hlt, if_true, hz]
        obtain ⟨b1, b2, b3, _⟩ := base c data buf hbuf hle
        exact ⟨b1, b2, b3, fun _ => trivial⟩
      · have hbw : isBytes (waitAvailable t c).2.stream := by rw [w1]; exact hb
        have hbrx : isBytes (waitAvailable t c).2.rx := isBytes_of_append_left hbw
        have hrb : readBytes (waitAvailable t c).2 (waitAvailable t c).1
            = ((waitAvailable t c).2.rx, { (waitAvailable t c).2 with rx := [] }) := by
          unfold readBytes
          rw [readBytesLoop_take _ _ _ (by rw [w2]) hbrx, w2]
          simp
        have hun : ((List.range (waitAvailable t c).1).drop (waitAvailable t c).2.rx.length).map
            heapByte = [] := by
          rw [w2, List.drop_of_length_le (by simp)]
          rfl
        rw [readBytesWithTimeoutLoop]
        simp only [Legacy.readBytesWithTimeoutLoop, hlt, if_true, hz, if_false, Bool.not_true,
          Bool.false_eq_true, hbuf, hrb, hun, List.append_nil]
        by_cases hover : data.length + (waitAvailable t c).1 > L
        · have hav : L - data.length ≤ (waitAvailable t c).2.rx.length := by omega
          rw [if_pos hover, readChars_take _ _ _ hav hbrx]
          simp only
          have hlen1 : (data ++ (waitAvailable t c).2.rx.take (L - data.length)).length = L := by
            rw [List.length_append, List.length_take]; omega
          rw [readBytesWithTimeoutLoop_done L t n _ _ (by omega),
            legacyLoop_done _ _ L t n _ _ _ (by omega)]
          simp only [Option.getD_some]
          refine ⟨by rw [List.length_append, w2], ⟨fun _ => by omega, fun _ => hlen1⟩, ?_,
            fun h => by omega⟩
          rw [List.take_append_eq_append_take, List.take_of_length_le hle]
        · have hav : (waitAvailable t c).1 ≤ (waitAvailable t c).2.rx.length := by omega
          rw [if_neg hover, readChars_take _ _ _ hav hbrx]
          simp only
          have htk : (waitAvailable t c).2.rx.take (waitAvailable t c).1
              = (waitAvailable t c).2.rx := by rw [w2]; exact List.take_length _
          have hdr : (waitAvailable t c).2.rx.drop (waitAvailable t c).1 = [] := by
            rw [w2]; exact List.drop_length _
          rw [htk, hdr]
          have hlen : data.length + (waitAvailable t c).1
              = (data ++ (waitAvailable t c).2.rx).length := by
            rw [List.length_append, w2]
          rw [hlen]
          refine ih _ _ _ ?_ rfl (by rw [← hlen]; omega)
          intro x hx
          apply hbw x
          have : ({ (waitAvailable t c).2 with rx := [] } : EthernetClient).stream
              = (waitAvailable t c).2.wire.flatten := rfl
          rw [this] at hx
          exact List.mem_append.mpr (Or.inr hx)
    · rw [readBytesWithTimeoutLoop_done L t _ _ _ hlt, legacyLoop_done _ _ L t _ _ _ _ hlt]
      exact base c data buf hbuf hle
/-- C20, amended: for every length `L`, timeout and transport, without
allocation failure, the `String` variant returns `true` exactly when the
`char*` variant ends with `dataLength` at least `L`; what the `String`
variant holds is always the first `L` bytes of the buffer of the `char*`
variant, which holds `dataLength` bytes; and when `dataLength` is at most `L`
the two hold the same bytes and leave the transport in the same state. -/
theorem readBytesWithTimeout_variants (heapByte : Nat → Char) (c : EthernetClient) (L t : Nat)
    (hb : isBytes c.stream) :
    ((readBytesWithTimeout true c L [] t).1 = true ↔
      L ≤ (Legacy.readBytesWithTimeout (fun _ => true) heapByte c L t).2.1)
    ∧ (readBytesWithTimeout true c L [] t).2.1
        = ((Legacy.readBytesWithTimeout (fun _ => true) heapByte c L t).1.getD []).take L
    ∧ (Legacy.readBytesWithTimeout (fun _ => true) heapByte c L t).2.1
        = ((Legacy.readBytesWithTimeout (fun _ => true) heapByte c L t).1.getD []).length
    ∧ ((Legacy.readBytesWithTimeout (fun _ => true) heapByte c L t).2.1 ≤ L →
        (readBytesWithTimeout true c L [] t).2.1
          = (Legacy.readBytesWithTimeout (fun _ => true) heapByte c L t).1.getD []
        ∧ (readBytesWithTimeout true c L [] t).2.2
          = (Legacy.readBytesWithTimeout (fun _ => true) heapByte c L t).2.2) := by
  obtain ⟨h1, h2, h3, h4⟩ := legacyLoop_sim heapByte L t (L + 1) c [] none hb rfl (Nat.zero_le _)
  simp only [List.length_nil] at h1 h2 h3 h4
  unfold readBytesWithTimeout Legacy.readBytesWithTimeout
  simp only [Bool.not_true, Bool.false_eq_true, if_false, beq_iff_eq]
  refine ⟨h2, h3, h1, ?_⟩
  intro hle
  refine ⟨?_, h4 hle⟩
  rw [h3, List.take_of_length_le (by rw [← h1]; exact hle)]

/-- Witness of the amended C20: on `slowClient`, where `ab` is there and `cd`
and `ef` arrive later, the variants asked for five bytes end with `abcde` and
`abcdef`. -/
theorem readBytesWithTimeout_variants_example :
    ((readBytesWithTimeout true slowClient 5 [] 3).1 = true ↔
      5 ≤ (Legacy.readBytesWithTimeout (fun _ => true) (fun _ => 'Z') slowClient 5 3).2.1)
    ∧ (readBytesWithTimeout true slowClient 5 [] 3).2.1 = "abcde".toList
    ∧ (Legacy.readBytesWithTimeout (fun _ => true) (fun _ => 'Z') slowClient 5 3).1
        = some "abcdef".toList :=
  ⟨(readBytesWithTimeout_variants (fun _ => 'Z') slowClient 5 3 (by decide)).1, by decide,
    by decide⟩

/-- C20, as stated, fails: with `abc` received and the length `2` asked for,
without allocation failure, the `String` variant returns `true` holding `ab`
and leaves `c` in the transport, while the `char*` variant takes all three
bytes that are available: it ends with `dataLength` `3`, not `2`, holds `abc`
and leaves the transport empty.  With exactly the two bytes `ab` received the
two variants agree. -/
theorem readBytesWithTimeout_legacy_reads_past_length :
    (readBytesWithTimeout true (clientOf "abc" true) 2 [] 5).1 = true
    ∧ (readBytesWithTimeout true (clientOf "abc" true) 2 [] 5).2.1 = "ab".toList
    ∧ (readBytesWithTimeout true (clientOf "abc" true) 2 [] 5).2.2.rx = "c".toList
    ∧ (Legacy.readBytesWithTimeout (fun _ => true) (fun _ => 'Z') (clientOf "abc" true) 2 5).2.1
        = 3
    ∧ (Legacy.readBytesWithTimeout (fun _ => true) (fun _ => 'Z') (clientOf "abc" true) 2 5).1
        = some "abc".toList
    ∧ (Legacy.readBytesWithTimeout (fun _ => true) (fun _ => 'Z') (clientOf "abc" true) 2
        5).2.2.rx = []
    ∧ (readBytesWithTimeout true (clientOf "ab" true) 2 [] 5).1 = true
    ∧ (Legacy.readBytesWithTimeout (fun _ => true) (fun _ => 'Z') (clientOf "ab" true) 2 5).2.1
        = 2
    ∧ (Legacy.readBytesWithTimeout (fun _ => true) (fun _ => 'Z') (clientOf "ab" true) 2 5).1
        = some "ab".toList := by
  decide

/-! ## What the upload of a file leaves untouched -/

theorem sameArguments_refl (s : WebServer) : sameArguments s s :=
  ⟨rfl, rfl⟩

theorem sameArguments_trans {a b c : WebServer} (h1 : sameArguments a b)
    (h2 : sameArguments b c) : sameArguments a c := by
  obtain ⟨a1, a2⟩ := h1
  obtain ⟨b1, b2⟩ := h2
  exact ⟨b1.trans a1, b2.trans a2⟩

theorem notifyUpload_arguments (s : WebServer) : sameArguments s (notifyUpload s) := by
  unfold notifyUpload
  split
  · split
    · exact ⟨rfl, rfl⟩
    · exact sameArguments_refl s
  · exact sameArguments_refl s

theorem uploadWriteByte_arguments (cfg : Config) (s : WebServer) (b : Char) :
    sameArguments s (_uploadWriteByte cfg s b) := by
  unfold _uploadWriteByte
  split
  · exact sameArguments_refl s
  · split
    · have h := notifyUpload_arguments s
      obtain ⟨a1, a2⟩ := h
      exact ⟨a1, a2⟩
    · exact ⟨rfl, rfl⟩

theorem uploadWriteBytes_arguments (cfg : Config) :
    ∀ (bs : Str) (s : WebServer), sameArguments s (uploadWriteBytes cfg s bs) := by
  intro bs
  induction bs with
  | nil => intro s; exact sameArguments_refl s
  | cons b bs ih =>
    intro s
    exact sameArguments_trans (uploadWriteByte_arguments cfg s b) (ih _)

theorem parseFormUploadAborted_arguments (s : WebServer) :
    sameArguments s (_parseFormUploadAborted s) := by
  unfold _parseFormUploadAborted
  split
  · exact sameArguments_refl s
  · exact sameArguments_trans ⟨rfl, rfl⟩ (notifyUpload_arguments _)

theorem finishUpload_arguments (s : WebServer) : sameArguments s (finishUpload s) := by
  unfold finishUpload
  simp only
  split
  · exact notifyUpload_arguments s
  · exact sameArguments_trans (notifyUpload_arguments s)
      (sameArguments_trans ⟨rfl, rfl⟩ (notifyUpload_arguments _))

theorem startUpload_arguments (s : WebServer) (n f t : Str) (len : Nat) :
    sameArguments s (startUpload s n f t len) := by
  unfold startUpload
  simp only
  exact sameArguments_trans ⟨rfl, rfl⟩ (notifyUpload_arguments _)

theorem readFile_arguments (cfg : Config) (boundary : Str) :
    ∀ (fuel : Nat) (s : WebServer) (c : EthernetClient) (b : Char) (ok : Bool)
      (s' : WebServer) (c' : EthernetClient),
      readFile cfg boundary fuel s c b = some (ok, s', c') → sameArguments s s' := by
  intro fuel
  induction fuel with
  | zero => intro s c b ok s' c' h; simp [readFile] at h
  | succ fuel ih =>
    intro s c b ok s' c' h
    have hab := parseFormUploadAborted_arguments s
    unfold readFile at h
    split at h
    · split at h
      · simp only [Option.some.injEq, Prod.mk.injEq] at h
        rw [← h.2.1]; exact hab
      · split at h
        · simp at h
        · exact sameArguments_trans (uploadWriteByte_arguments cfg s b) (ih _ _ _ _ _ _ h)
    · split at h
      · simp at h
      · split at h
        · simp only [Option.some.injEq, Prod.mk.injEq] at h
          rw [← h.2.1]; exact hab
        · split at h
          · split at h
            · simp at h
            · split at h
              · simp only [Option.some.injEq, Prod.mk.injEq] at h
                rw [← h.2.1]; exact hab
              · split at h
                · exact sameArguments_trans (uploadWriteBytes_arguments cfg _ s)
                    (ih _ _ _ _ _ _ h)
                · split at h
                  · simp at h
                  · split at h
                    · simp only [Option.some.injEq, Prod.mk.injEq] at h
                      rw [← h.2.1]; exact hab
                    · split at h
                      · exact sameArguments_trans (uploadWriteBytes_arguments cfg _ s)
                          (ih _ _ _ _ _ _ h)
                      · simp only at h
                        split at h
                        · simp only [Option.some.injEq, Prod.mk.injEq] at h
                          rw [← h.2.1]; exact finishUpload_arguments s
                        · split at h
                          · simp at h
                          · exact sameArguments_trans
                              (sameArguments_trans (uploadWriteBytes_arguments cfg _ s)
                                (uploadWriteBytes_arguments cfg _ _))
                              (ih _ _ _ _ _ _ h)
          · exact sameArguments_trans (uploadWriteByte_arguments cfg s CR) (ih _ _ _ _ _ _ h)

/-! ## Form bodies made of field parts -/

theorem fieldLoop_lines (B : Str) :
    ∀ (ls : List Str) (fuel : Nat) (c : EthernetClient) (acc d rest : Str),
      (∀ l ∈ ls, startsWith l ("--".toList ++ B) = false ∧ '\r' ∉ l ∧ isBytes l) →
      startsWith d ("--".toList ++ B) = true → '\r' ∉ d → isBytes d →
      c.stream = linesText ls ++ (d ++ '\r' :: '\n' :: rest) → c.wire.length ≤ c.timeout →
      ls.length + 1 ≤ fuel →
      ∃ c', fieldLoop B fuel c acc = some (ls.foldl fieldStep acc, d, c')
        ∧ c'.stream = rest ∧ sameLink c c' := by
  intro ls
  induction ls with
  | nil =>
    intro fuel c acc d rest _ hd hcr hb hs hw hf
    obtain ⟨c1, r1, r2, r3⟩ := readLine_stream_line c d rest (by simpa [linesText] using hs) hw
      hcr hb
    cases fuel with
    | zero => omega
    | succ n =>
      refine ⟨c1, ?_, r2, r3⟩
      rw [fieldLoop]
      simp only [r1, hd, if_true, List.foldl_nil]
  | cons l ls ih =>
    intro fuel c acc d rest hl hd hcr hb hs hw hf
    obtain ⟨h1, h2, h3⟩ := hl l (List.mem_cons_self _ _)
    obtain ⟨c1, r1, r2, r3⟩ := readLine_stream_line c l (linesText ls ++ (d ++ '\r' :: '\n' :: rest))
      (by rw [hs]; simp [linesText]) hw h2 h3
    cases fuel with
    | zero => omega
    | succ n =>
      obtain ⟨c2, i1, i2, i3⟩ := ih n c1 (fieldStep acc l) d rest
        (fun x hx => hl x (List.mem_cons_of_mem _ hx)) hd hcr hb r2
        (by rw [r3.1]; exact Nat.le_trans r3.2.2 hw) (by simpa using hf)
      refine ⟨c2, ?_, i2, sameLink_trans r3 i3⟩
      rw [fieldLoop]
      simp only [r1, h1, Bool.false_eq_true, if_false, List.foldl_cons]
      exact i1

theorem fieldHeaderLine_facts (N : Str) (s : WebServer) (hN : '=' ∉ N) :
    (fieldHeaderLine N).length > 19
    ∧ equalsIgnoreCase (substring (fieldHeaderLine N) 0 19) "Content-Disposition".toList = true
    ∧ indexOf (fieldHeaderLine N) '=' = 36
    ∧ dispositionNames s (fieldHeaderLine N) 36 = (N, [], false) := by
  have hidx : indexOf (fieldHeaderLine N) '=' = 36 :=
    indexOf_of_split '=' "Content-Disposition: form-data; name".toList ('"' :: (N ++ ['"']))
      (by decide)
  refine ⟨?_, ?_, hidx, ?_⟩
  · unfold fieldHeaderLine
    simp only [List.length_append, List.length_cons]
    have : "Content-Disposition: form-data; name".toList.length = 36 := by decide
    omega
  · have : substring (fieldHeaderLine N) 0 19 = "Content-Disposition".toList := by
      refine Eq.trans (substring_nat (fieldHeaderLine N) 0 19 (Nat.zero_le _)) ?_
      unfold fieldHeaderLine
      have e : "Content-Disposition: form-data; name".toList
          = "Content-Disposition".toList ++ ": form-data; name".toList := by decide
      rw [e, List.append_assoc, take_append_of_length _ _ _ (by decide)]
      rfl
    rw [this]
    decide
  · unfold dispositionNames
    have e1 : substringFrom (fieldHeaderLine N) ((36 : Int) + 2).toNat = N ++ ['"'] := by
      unfold substringFrom fieldHeaderLine
      have : ((36 : Int) + 2).toNat = "Content-Disposition: form-data; name".toList.length + 2 := by
        decide
      rw [this, drop_append_of_length _ _ _ 2 rfl]
      rfl
    have e2 : indexOf (N ++ ['"']) '=' = -1 := by
      apply indexOf_of_not_mem
      intro hm
      rcases List.mem_append.mp hm with h | h
      · exact hN h
      · revert h; decide
    have e3 : substring (N ++ ['"']) 0 (((N ++ ['"']).length : Int) - 1) = N := by
      have : (((N ++ ['"']).length : Int) - 1) = ((N.length : Nat) : Int) := by
        simp
      rw [this, substring_nat _ _ _ (Nat.zero_le _), take_append_of_length _ _ _ rfl]
      rfl
    simp only [e1, e2, if_true, e3]

/-- One round of the loop over the parts on a field part followed by the
delimiter line `d`: the argument of the part is appended to the form
arguments; the loop ends when `d` is the closing delimiter and goes on
otherwise. -/
theorem partsLoop_field_part (cfg : Config) (B : Str) (len fuel : Nat) (s : WebServer)
    (c : EthernetClient) (p : Str × List Str) (d rest : Str) (hp : wellFormedField B p)
    (hd : startsWith d ("--".toList ++ B) = true) (hcr : '\r' ∉ d) (hb : isBytes d)
    (hs : c.stream = fieldPartText p ++ (d ++ '\r' :: '\n' :: rest))
    (hw : c.wire.length ≤ c.timeout) (hf : p.2.length + 1 ≤ fuel) :
    ∃ c4, c4.stream = rest ∧ sameLink c c4
      ∧ partsLoop cfg B len (fuel + 1) s c
          = if d = "--".toList ++ B ++ "--".toList then
              some (true, { s with _postArgs := s._postArgs ++ [fieldArgument p] }, c4)
            else partsLoop cfg B len fuel
              { s with _postArgs := s._postArgs ++ [fieldArgument p] } c4 := by
  obtain ⟨h1, h2, h3, h4⟩ := hp
  obtain ⟨f1, f2, f3, f4⟩ := fieldHeaderLine_facts p.1 s h1
  have hline_cr : '\r' ∉ fieldHeaderLine p.1 := by
    unfold fieldHeaderLine
    intro hm
    rcases List.mem_append.mp hm with h | h
    · revert h; decide
    · rcases List.mem_cons.mp h with h | h
      · exact absurd h (by decide)
      · rcases List.mem_cons.mp h with h | h
        · exact absurd h (by decide)
        · rcases List.mem_append.mp h with h | h
          · exact h2 h
          · revert h; decide
  have hline_b : isBytes (fieldHeaderLine p.1) := by
    unfold fieldHeaderLine
    exact isBytes_append (by decide)
      (isBytes_cons (by decide) (isBytes_cons (by decide) (isBytes_append h3 (by decide))))
  obtain ⟨c1, r1, r2, r3⟩ := readLine_stream_line c (fieldHeaderLine p.1)
    ('\r' :: '\n' :: (linesText p.2 ++ (d ++ '\r' :: '\n' :: rest)))
    (by rw [hs]; simp [fieldPartText]) hw hline_cr hline_b
  have hw1 : c1.wire.length ≤ c1.timeout := by rw [r3.1]; exact Nat.le_trans r3.2.2 hw
  obtain ⟨c2, q1, q2, q3⟩ := readLine_stream_line c1 []
    (linesText p.2 ++ (d ++ '\r' :: '\n' :: rest)) (by simpa using r2) hw1 (by simp)
    (by intro x hx; cases hx)
  have hw2 : c2.wire.length ≤ c2.timeout := by rw [q3.1]; exact Nat.le_trans q3.2.2 hw1
  obtain ⟨c4, g1, g2, g3⟩ := fieldLoop_lines B p.2 fuel c2 [] d rest h4 hd hcr hb q2 hw2 hf
  refine ⟨c4, g2, sameLink_trans r3 (sameLink_trans q3 g3), ?_⟩
  have hne : ¬ ((36 : Int) = -1) := by decide
  rw [partsLoop_succ]
  simp only [r1, f1, f2, and_self, if_true, f3, ne_eq, hne, not_false_eq_true, f4, q1,
    List.length_nil, Bool.not_false, gt_iff_lt, Nat.not_lt_zero, decide_False, Bool.false_and,
    Bool.false_eq_true, if_false, g1]
  rfl

theorem startsWith_self_append (a b : Str) : startsWith (a ++ b) a = true := by
  unfold startsWith
  exact List.isPrefixOf_iff_prefix.mpr (List.prefix_append a b)

theorem formFuel_pos (ps : List (Str × List Str)) : 1 ≤ formFuel ps := by
  cases ps with
  | nil => exact Nat.le_refl _
  | cons p ps => unfold formFuel; omega

/-- The loop over the parts on a body made of field parts: with enough fuel
it ends by `break` with the arguments of the parts appended, in the order of
the parts, to the form arguments. -/
theorem partsLoop_field_parts (cfg : Config) (B : Str) (len : Nat) (hB : '\r' ∉ B)
    (hBb : isBytes B) :
    ∀ (ps : List (Str × List Str)) (s : WebServer) (c : EthernetClient) (rest : Str)
      (fuel : Nat), ps ≠ [] → (∀ p ∈ ps, wellFormedField B p) →
      c.stream = formParts B ps ++ rest → c.wire.length ≤ c.timeout → formFuel ps ≤ fuel →
      ∃ c', partsLoop cfg B len fuel s c
          = some (true, { s with _postArgs := s._postArgs ++ ps.map fieldArgument }, c')
        ∧ c'.stream = rest := by
  have hdcr : ∀ tail : Str, '\r' ∉ tail → '\r' ∉ "--".toList ++ B ++ tail := by
    intro tail ht hm
    rcases List.mem_append.mp hm with h | h
    · rcases List.mem_append.mp h with h | h
      · revert h; decide
      · exact hB h
    · exact ht h
  have hdb : ∀ tail : Str, isBytes tail → isBytes ("--".toList ++ B ++ tail) := by
    intro tail ht
    exact isBytes_append (isBytes_append (by decide) hBb) ht
  intro ps
  induction ps with
  | nil => intro s c rest fuel h; exact absurd rfl h
  | cons p ps ih =>
    intro s c rest fuel _ hwf hs hw hf
    have hp := hwf p (List.mem_cons_self _ _)
    cases ps with
    | nil =>
      have hf2 : p.2.length + 1 ≤ fuel - 1 := by
        simp only [formFuel] at hf; omega
      obtain ⟨c4, g1, _, g3⟩ := partsLoop_field_part cfg B len (fuel - 1) s c p
        ("--".toList ++ B ++ "--".toList) rest hp
        (by rw [List.append_assoc]; exact startsWith_self_append _ _)
        (hdcr _ (by decide)) (hdb _ (by decide))
        (by rw [hs]; simp [formParts]) hw hf2
      have hfu : fuel - 1 + 1 = fuel := by
        simp only [formFuel] at hf; omega
      rw [hfu, if_pos rfl] at g3
      exact ⟨c4, g3, g1⟩
    | cons q qs =>
      have hfq := formFuel_pos (q :: qs)
      have hf2 : p.2.length + 1 ≤ fuel - 1 := by
        simp only [formFuel] at hf hfq; omega
      obtain ⟨c4, g1, g2, g3⟩ := partsLoop_field_part cfg B len (fuel - 1) s c p
        ("--".toList ++ B) (formParts B (q :: qs) ++ rest) hp
        (by
          have := startsWith_self_append ("--".toList ++ B) []
          simpa using this)
        (by simpa using hdcr [] (by simp)) (by simpa using hdb [] (by intro x hx; cases hx))
        (by rw [hs]; simp [formParts]) hw hf2
      have hfu : fuel - 1 + 1 = fuel := by
        simp only [formFuel] at hf; omega
      have hne : ¬ ("--".toList ++ B = "--".toList ++ B ++ "--".toList) := by
        intro h
        have := congrArg List.length h
        simp at this
      rw [hfu, if_neg hne] at g3
      obtain ⟨c5, i1, i2⟩ := ih { s with _postArgs := s._postArgs ++ [fieldArgument p] } c4 rest
        (fuel - 1) (by simp) (fun x hx => hwf x (List.mem_cons_of_mem _ hx))
        g1 (by rw [g2.1]; exact Nat.le_trans g2.2.2 hw)
        (by simp only [formFuel] at hf ⊢; omega)
      refine ⟨c5, ?_, i2⟩
      rw [g3, i1]
      simp [List.append_assoc]

/-- The loop over the parts leaves the argument list built from the search
string as it was. -/
theorem partsLoop_currentArgs (cfg : Config) (boundary : Str) (len : Nat) :
    ∀ (fuel : Nat) (s : WebServer) (c : EthernetClient) (ok : Bool)
      (s' : WebServer) (c' : EthernetClient),
      partsLoop cfg boundary len fuel s c = some (ok, s', c') →
      s'._currentArgs = s._currentArgs := by
  intro fuel
  induction fuel with
  | zero => intro s c ok s' c' h; rw [partsLoop_zero] at h; cases h
  | succ fuel ih =>
    intro s c ok s' c' h
    rw [partsLoop_succ] at h
    simp only at h
    split at h
    · split at h
      · split at h
        · split at h
          · simp at h
          · split at h
            · simp only [Option.some.injEq, Prod.mk.injEq] at h
              rw [← h.2.1]
            · have h2 := ih _ _ _ _ _ h
              exact h2
        · split at h
          · simp at h
          · split at h
            · simp at h
            · rename_i hrf
              simp only [Option.some.injEq, Prod.mk.injEq] at h
              rw [← h.2.1]
              exact (sameArguments_trans (startUpload_arguments _ _ _ _ _)
                (readFile_arguments cfg boundary _ _ _ _ _ _ _ hrf)).1
            · rename_i hrf
              have h1 := (sameArguments_trans (startUpload_arguments _ _ _ _ _)
                (readFile_arguments cfg boundary _ _ _ _ _ _ _ hrf)).1
              split at h
              · simp only [Option.some.injEq, Prod.mk.injEq] at h
                rw [← h.2.1]; exact h1
              · exact (ih _ _ _ _ _ h).trans h1
      · exact ih _ _ _ _ _ h
    · exact ih _ _ _ _ _ h

theorem mergeArgs_currentArgs (s : WebServer) :
    (mergeArgs s)._currentArgs
      = s._postArgs
          ++ s._currentArgs.take
              (min (WEBSERVER_MAX_POST_ARGS - s._postArgs.length) s._currentArgs.length) := by
  unfold mergeArgs
  simp only
  congr 2
  unfold WEBSERVER_MAX_POST_ARGS
  split <;> omega

/-- The end of a successful `_parseForm`: the arguments are the form arguments
the loop over the parts collected, followed by the arguments of the search
string as far as the limit `WEBSERVER_MAX_POST_ARGS` leaves room. -/
theorem parseForm_merge (cfg : Config) (fuel : Nat) (s : WebServer) (c : EthernetClient)
    (boundary : Str) (len : Nat) (s' : WebServer) (c' : EthernetClient)
    (h : _parseForm cfg fuel s c boundary len = some (true, s', c')) :
    ∃ s2 c1, partsLoop cfg boundary len fuel { s with _postArgs := [] } c1 = some (true, s2, c')
      ∧ s'._currentArgs
          = s2._postArgs
              ++ s._currentArgs.take
                  (min (WEBSERVER_MAX_POST_ARGS - s2._postArgs.length) s._currentArgs.length) := by
  unfold _parseForm at h
  simp only at h
  split at h
  · split at h
    · simp at h
    · simp at h
    · rename_i s2 c2 hp
      simp only [Option.some.injEq, Prod.mk.injEq, true_and] at h
      refine ⟨s2, _, by rw [hp, h.2], ?_⟩
      rw [← h.1, mergeArgs_currentArgs, partsLoop_currentArgs cfg boundary len _ _ _ _ _ _ hp]
  · simp at h

/-- C18: a form body with boundary `B` made of the `n` field parts `ps`, `n`
between one and `WEBSERVER_MAX_POST_ARGS` (32), decoded after
`_parseArguments` has put the `q` arguments of the search string `Q` into the
argument list.  With enough fuel `_parseForm` returns `true`; the argument list
is then the arguments of the `n` parts in the order of the parts, followed by
the first `min (32 - n) q` arguments of `Q` in their order, at most 32 in all,
and the stream is left after the closing delimiter.  For every successful
`_parseForm`, whatever the parts are, the list is the form arguments the loop
over the parts collected followed by the arguments of `Q` as far as the limit
leaves room. -/
theorem parseForm_field_then_query_arguments (cfg : Config) (len : Nat) (s0 : WebServer)
    (Q : Str) (c : EthernetClient) (B : Str) (ps : List (Str × List Str)) (rest : Str)
    (hB : '\r' ∉ B) (hBb : isBytes B) (hne : ps ≠ []) (hwf : ∀ p ∈ ps, wellFormedField B p)
    (hn : ps.length ≤ WEBSERVER_MAX_POST_ARGS)
    (hs : c.stream = ("--".toList ++ B) ++ '\r' :: '\n' :: (formParts B ps ++ rest))
    (hw : c.wire.length ≤ c.timeout) :
    (∀ fuel, formFuel ps ≤ fuel →
      ∃ s' c', _parseForm cfg fuel (_parseArguments s0 Q) c B len = some (true, s', c')
        ∧ s'._currentArgs
            = ps.map fieldArgument
                ++ (parseArgumentList Q).take
                    (min (WEBSERVER_MAX_POST_ARGS - ps.length) (parseArgumentList Q).length)
        ∧ s'._currentArgs.length ≤ WEBSERVER_MAX_POST_ARGS
        ∧ c'.stream = rest)
    ∧ (∀ fuel c0 B0 s' c',
        _parseForm cfg fuel (_parseArguments s0 Q) c0 B0 len = some (true, s', c') →
        ∃ s2 c1, partsLoop cfg B0 len fuel { _parseArguments s0 Q with _postArgs := [] } c1
            = some (true, s2, c')
          ∧ s'._currentArgs
              = s2._postArgs
                  ++ (parseArgumentList Q).take
                      (min (WEBSERVER_MAX_POST_ARGS - s2._postArgs.length)
                        (parseArgumentList Q).length)) := by
  constructor
  · intro fuel hf
    have hline_cr : '\r' ∉ "--".toList ++ B := by
      intro hm
      rcases List.mem_append.mp hm with h | h
      · revert h; decide
      · exact hB h
    obtain ⟨c1, p1, p2, p3⟩ := preambleLoop_boundary_line c ("--".toList ++ B)
      (formParts B ps ++ rest) hs hw (by simp) hline_cr (isBytes_append (by decide) hBb)
    obtain ⟨c', q1, q2⟩ := partsLoop_field_parts cfg B len hB hBb ps
      { _parseArguments s0 Q with _postArgs := [] } (readStringUntil c1 '\n').2 rest fuel hne hwf
      p2 (by rw [p3.1]; exact Nat.le_trans p3.2.2 hw) hf
    have hpre : (preambleLoop 2 c).1 = "--".toList ++ B := by rw [p1]
    have e := parseForm_of_preamble_eq cfg fuel (_parseArguments s0 Q) c B len hpre
    rw [p1] at e
    simp only [q1] at e
    refine ⟨_, c', e, ?_, ?_, q2⟩
    · rw [mergeArgs_currentArgs]
      simp [_parseArguments]
    · rw [mergeArgs_currentArgs]
      simp only [_parseArguments, List.nil_append, List.length_append, List.length_map,
        List.length_take]
      omega
  · intro fuel c0 B0 s' c' h
    exact parseForm_merge cfg fuel (_parseArguments s0 Q) c0 B0 len s' c' h

/-- Witness of C18: the parts `t = hi` and `u` with the lines `a` and `b`,
after the search string `x=1&y=2`, give the arguments `t`, `u`, `x`, `y` in
this order. -/
theorem parseForm_field_then_query_arguments_witness :
    ∃ s' c', _parseForm sampleConfig 50 (_parseArguments sampleServer "x=1&y=2".toList)
        (clientOf ("--XY\r\nContent-Disposition: form-data; name=\"t\"\r\n\r\nhi\r\n--XY\r\n"
          ++ "Content-Disposition: form-data; name=\"u\"\r\n\r\na\r\nb\r\n--XY--\r\n") true)
        "XY".toList 0 = some (true, s', c')
      ∧ s'._currentArgs = [{ key := "t".toList, value := "hi".toList },
          { key := "u".toList, value := "a\nb".toList },
          { key := "x".toList, value := "1".toList },
          { key := "y".toList, value := "2".toList }] := by
  obtain ⟨s', c', h1, h2, _, _⟩ := (parseForm_field_then_query_arguments sampleConfig 0
    sampleServer "x=1&y=2".toList
    (clientOf ("--XY\r\nContent-Disposition: form-data; name=\"t\"\r\n\r\nhi\r\n--XY\r\n"
      ++ "Content-Disposition: form-data; name=\"u\"\r\n\r\na\r\nb\r\n--XY--\r\n") true)
    "XY".toList [("t".toList, ["hi".toList]), ("u".toList, ["a".toList, "b".toList])] []
    (by decide) (by decide) (by decide) (by decide) (by decide) (by decide) (by decide)).1 50
    (by decide)
  exact ⟨s', c', h1, h2.trans (by decide)⟩

/-! ## The number of arguments and the slots of the array -/

theorem segments_length (l : Str) : (segments l).length = l.count '&' + 1 := by
  induction l with
  | nil => simp [segments]
  | cons x xs ih =>
    simp only [segments]
    by_cases hx : x = '&'
    · subst hx
      simp [ih]
    · rw [if_neg hx]
      have hc : (x :: xs).count '&' = xs.count '&' := by
        rw [List.count_cons]
        have : (x == '&') = false := by simpa using hx
        simp [this]
      rw [hc, ← ih]
      split
      · rename_i seg rest heq
        rw [heq]
        simp
      · rename_i heq
        have := segments_length_pos xs
        rw [heq] at this
        simp at this

theorem countArgs_eq_segments (s : Str) :
    countArgsLoop s s.length 0 1 = (segments s).length := by
  have hc := countArgsLoop_spec s s.length 0 1 (Nat.zero_le _) (by omega)
  simp only [List.drop_zero] at hc
  omega

/-- C28: after `_parseArguments(s)` the number of arguments is `0` for the
empty string and at most the number of `'&'` in `s` plus one otherwise, and it
is below the number of slots allocated for the array (`1` for the empty
string, the count of the first loop plus one otherwise); so the index at which
`_parseRequest` stores the argument `plain`, which is the number of arguments,
is inside the array. -/
theorem parseArguments_count_below_slots (srv : WebServer) (s : Str) :
    (_parseArguments srv s)._currentArgs.length
        ≤ (if s = [] then 0 else s.count '&' + 1)
    ∧ (_parseArguments srv s)._currentArgsSlots
        = (if s = [] then 1 else s.count '&' + 2)
    ∧ (_parseArguments srv s)._currentArgs.length < (_parseArguments srv s)._currentArgsSlots := by
  have hlen : (parseArgumentList s).length ≤ (segments s).length := by
    rw [parseArgumentList_eq_spec]
    unfold specArguments
    exact List.length_filterMap_le _ _
  have hseg := segments_length s
  by_cases h : s = []
  · subst h
    simp [_parseArguments, parseArgumentList, parseArgumentSlots]
  · have hl : ¬ (s.length = 0) := fun e => h (List.length_eq_zero.mp e)
    have hslots : parseArgumentSlots s = s.count '&' + 2 := by
      unfold parseArgumentSlots
      rw [if_neg hl, countArgs_eq_segments, hseg]
    rw [if_neg h, if_neg h]
    have e1 : (_parseArguments srv s)._currentArgs = parseArgumentList s := rfl
    have e2 : (_parseArguments srv s)._currentArgsSlots = parseArgumentSlots s := rfl
    rw [e1, e2, hslots]
    exact ⟨by omega, rfl, by omega⟩

/-! ## The buffer of an upload -/

theorem uploadWanted_notify (s : WebServer) : uploadWanted (notifyUpload s) = uploadWanted s := by
  unfold notifyUpload
  split
  · split
    · rfl
    · rfl
  · rfl

/-- One call of `_uploadWriteByte` keeps the invariant of the buffer and
leaves at least one byte in the buffer. -/
theorem uploadWriteByte_invariant (cfg : Config) (n0 : Nat) (w : Str) (s : WebServer) (b : Char)
    (hpos : 0 < cfg.HTTP_UPLOAD_BUFLEN) (hn : n0 ≤ s.uploads.length)
    (h : writeInvariant cfg n0 w s) :
    writeInvariant cfg n0 (w ++ [b]) (_uploadWriteByte cfg s b)
    ∧ n0 ≤ (_uploadWriteByte cfg s b).uploads.length
    ∧ uploadWanted (_uploadWriteByte cfg s b) = uploadWanted s
    ∧ (∃ u, (_uploadWriteByte cfg s b)._currentUpload = some u ∧ 1 ≤ u.currentSize) := by
  obtain ⟨u, hu, h1, h2, h3, h4, h5, h6, h7⟩ := h
  have hlen : (u.buf.take u.currentSize).length = u.currentSize := by
    have := congrArg List.length h4
    unfold chunkOf at this
    rw [this, List.length_drop]
    omega
  unfold _uploadWriteByte
  simp only [hu]
  by_cases hfull : u.currentSize = cfg.HTTP_UPLOAD_BUFLEN
  · rw [if_pos hfull]
    have hw : ∀ x : Option HTTPUpload,
        uploadWanted { notifyUpload s with _currentUpload := x } = uploadWanted s :=
      fun _ => uploadWanted_notify s
    have hdrop : w.drop u.totalSize = w.drop u.totalSize := rfl
    have hwl : w.length = u.totalSize + u.currentSize := h2.symm
    have hups : (notifyUpload s).uploads
        = if uploadWanted s then s.uploads ++ [u] else s.uploads := by
      unfold notifyUpload
      simp only [hu]
      split <;> rfl
    refine ⟨⟨_, rfl, ?_, ?_, ?_, ?_, ?_, ?_, ?_⟩, ?_, hw _, ⟨_, rfl, ?_⟩⟩
    · simp only [Nat.zero_add]; omega
    · simp only [List.length_append, List.length_singleton, Nat.zero_add]; omega
    · simp only
      rw [hfull]
      exact Dvd.dvd.add h3 (dvd_refl _)
    · unfold chunkOf
      simp only [List.take_zero, List.nil_append, Nat.zero_add, List.take_succ_cons,
        List.take_nil]
      rw [List.drop_append_of_le_length (by omega), List.drop_of_length_le (by omega)]
      rfl
    · intro f hf
      simp only at hf
      rw [hups] at hf
      split at hf
      · rw [List.drop_append_of_le_length hn] at hf
        rcases List.mem_append.mp hf with hf | hf
        · exact h5 f hf
        · rw [List.mem_singleton.mp hf]; exact hfull
      · exact h5 f hf
    · intro hwant
      have hwant : uploadWanted s = true := (hw _).symm.trans hwant
      simp only
      rw [hups, if_pos hwant, List.drop_append_of_le_length hn, List.flatMap_append,
        h6 hwant]
      simp only [List.flatMap_cons, List.flatMap_nil, List.append_nil]
      rw [h4, List.take_append_of_le_length (by omega)]
      have e : w.take (u.totalSize + u.currentSize) = w := List.take_of_length_le (by omega)
      rw [e]
      exact List.take_append_drop _ _
    · intro hwant
      have hwant : uploadWanted s = false := (hw _).symm.trans hwant
      simp only
      rw [hups]
      simp only [hwant, Bool.false_eq_true, if_false]
      exact h7 hwant
    · simp only
      rw [hups]
      split
      · rw [List.length_append]; omega
      · exact hn
    · simp
  · rw [if_neg hfull]
    refine ⟨⟨_, rfl, ?_, ?_, h3, ?_, h5, ?_, h7⟩, hn, rfl, ⟨_, rfl, ?_⟩⟩
    · simp only; omega
    · simp only [List.length_append, List.length_singleton]; omega
    · unfold chunkOf
      simp only
      have e : (u.buf.take u.currentSize ++ [b]).take (u.currentSize + 1)
          = u.buf.take u.currentSize ++ [b] :=
        List.take_of_length_le (by rw [List.length_append, hlen]; simp)
      rw [e]
      have h4' : u.buf.take u.currentSize = w.drop u.totalSize := h4
      rw [h4', List.drop_append_of_le_length (by omega)]
    · intro hwant
      have := h6 hwant
      simp only
      rw [this, List.take_append_of_le_length (by omega)]
    · simp

theorem notifyUpload_uploads_extend (s : WebServer) :
    ∃ ext, (notifyUpload s).uploads = s.uploads ++ ext := by
  unfold notifyUpload
  split
  · split
    · exact ⟨_, rfl⟩
    · exact ⟨[], by simp⟩
  · exact ⟨[], by simp⟩

theorem uploadWriteByte_uploads_extend (cfg : Config) (s : WebServer) (b : Char) :
    ∃ ext, (_uploadWriteByte cfg s b).uploads = s.uploads ++ ext := by
  unfold _uploadWriteByte
  split
  · exact ⟨[], by simp⟩
  · split
    · exact notifyUpload_uploads_extend s
    · exact ⟨[], by simp⟩

theorem uploadWriteBytes_uploads_extend (cfg : Config) :
    ∀ (bs : Str) (s : WebServer), ∃ ext, (uploadWriteBytes cfg s bs).uploads = s.uploads ++ ext := by
  intro bs
  induction bs with
  | nil => intro s; exact ⟨[], by simp [uploadWriteBytes]⟩
  | cons b bs ih =>
    intro s
    obtain ⟨e1, h1⟩ := uploadWriteByte_uploads_extend cfg s b
    obtain ⟨e2, h2⟩ := ih (_uploadWriteByte cfg s b)
    refine ⟨e1 ++ e2, ?_⟩
    have : uploadWriteBytes cfg s (b :: bs) = uploadWriteBytes cfg (_uploadWriteByte cfg s b) bs :=
      rfl
    rw [this, h2, h1, List.append_assoc]

/-- A run of `_uploadWriteByte` calls keeps the invariant of the buffer. -/
theorem uploadWriteBytes_invariant (cfg : Config) (n0 : Nat)
    (hpos : 0 < cfg.HTTP_UPLOAD_BUFLEN) :
    ∀ (bs w : Str) (s : WebServer), n0 ≤ s.uploads.length → writeInvariant cfg n0 w s →
      writeInvariant cfg n0 (w ++ bs) (uploadWriteBytes cfg s bs)
      ∧ uploadWanted (uploadWriteBytes cfg s bs) = uploadWanted s
      ∧ (bs ≠ [] → ∃ u, (uploadWriteBytes cfg s bs)._currentUpload = some u
          ∧ 1 ≤ u.currentSize) := by
  intro bs
  induction bs using List.reverseRecOn with
  | nil =>
    intro w s _ h
    refine ⟨by simpa [uploadWriteBytes] using h, rfl, fun h => absurd rfl h⟩
  | append_singleton bs b ih =>
    intro w s hn h
    obtain ⟨i1, i2, _⟩ := ih w s hn h
    have hfold : uploadWriteBytes cfg s (bs ++ [b])
        = _uploadWriteByte cfg (uploadWriteBytes cfg s bs) b := by
      simp [uploadWriteBytes, List.foldl_append]
    obtain ⟨ext, hext⟩ := uploadWriteBytes_uploads_extend cfg bs s
    have hn2 : n0 ≤ (uploadWriteBytes cfg s bs).uploads.length := by
      rw [hext, List.length_append]; omega
    obtain ⟨j1, _, j3, j4⟩ := uploadWriteByte_invariant cfg n0 (w ++ bs) _ b hpos hn2 i1
    rw [hfold]
    refine ⟨by rw [← List.append_assoc]; exact j1, j3.trans i2, fun _ => j4⟩

/-- C27: a sequence of `_uploadWriteByte` calls with the bytes `bs`, not
empty, on an upload that has just started (`totalSize = 0`,
`currentSize = 0`), the buffer length `HTTP_UPLOAD_BUFLEN` being positive.
After the calls `currentSize` is between `1` and `HTTP_UPLOAD_BUFLEN`,
`totalSize + currentSize` is the number of bytes written, `totalSize` is a
multiple of `HTTP_UPLOAD_BUFLEN`, the buffer holds `currentSize` bytes, every
notification issued since the start carries `HTTP_UPLOAD_BUFLEN` bytes, and,
when the handler takes uploads, the chunks of these notifications followed by
the buffer are the bytes written.  As `bs` is any sequence, this holds after
every call. -/
theorem uploadWriteByte_buffer_invariants (cfg : Config) (s : WebServer) (u0 : HTTPUpload)
    (bs : Str) (hpos : 0 < cfg.HTTP_UPLOAD_BUFLEN) (hu : s._currentUpload = some u0)
    (ht : u0.totalSize = 0) (hc : u0.currentSize = 0) (hne : bs ≠ []) :
    ∃ u flushed, (uploadWriteBytes cfg s bs)._currentUpload = some u
      ∧ (uploadWriteBytes cfg s bs).uploads = s.uploads ++ flushed
      ∧ 1 ≤ u.currentSize ∧ u.currentSize ≤ cfg.HTTP_UPLOAD_BUFLEN
      ∧ u.totalSize + u.currentSize = bs.length
      ∧ cfg.HTTP_UPLOAD_BUFLEN ∣ u.totalSize
      ∧ (chunkOf u).length = u.currentSize
      ∧ (∀ f ∈ flushed, f.currentSize = cfg.HTTP_UPLOAD_BUFLEN)
      ∧ (uploadWanted s = true → flushed.flatMap chunkOf ++ chunkOf u = bs)
      ∧ (uploadWanted s = false → flushed = []) := by
  have h0 : writeInvariant cfg s.uploads.length [] s := by
    refine ⟨u0, hu, by omega, by simp [ht, hc], by rw [ht]; exact dvd_zero _, ?_, ?_, ?_, ?_⟩
    · unfold chunkOf; simp [hc]
    · intro f hf; simp at hf
    · intro _; simp
    · intro _; simp
  obtain ⟨⟨u, a1, a2, a3, a4, a5, a6, a7, a8⟩, hw, hone⟩ :=
    uploadWriteBytes_invariant cfg s.uploads.length hpos bs [] s (Nat.le_refl _) h0
  obtain ⟨u', b1, b2⟩ := hone hne
  rw [a1] at b1
  have hu' : u' = u := (Option.some.inj b1).symm
  subst hu'
  obtain ⟨ext, hext⟩ := uploadWriteBytes_uploads_extend cfg bs s
  have hdrop : (uploadWriteBytes cfg s bs).uploads.drop s.uploads.length = ext := by
    rw [hext, List.drop_left]
  rw [hdrop] at a6 a7 a8
  rw [hw] at a7 a8
  simp only [List.nil_append] at a3 a5 a7
  refine ⟨u', ext, a1, hext, b2, a2, a3, a4, ?_, a6, ?_, a8⟩
  · rw [a5, List.length_drop]; omega
  · intro hwant
    rw [a7 hwant, a5]
    exact List.take_append_drop _ _

/-- Witness of C27: six bytes written into a buffer of four after the start
of the upload of `uploadingServer`: the total and the buffer account for the
six bytes, and the notified chunks followed by the buffer are `abcdef`. -/
theorem uploadWriteByte_buffer_invariants_witness :
    ∃ u flushed, (uploadWriteBytes sampleConfig uploadingServer "abcdef".toList)._currentUpload
        = some u
      ∧ (uploadWriteBytes sampleConfig uploadingServer "abcdef".toList).uploads
        = uploadingServer.uploads ++ flushed
      ∧ 1 ≤ u.currentSize ∧ u.currentSize ≤ 4
      ∧ u.totalSize + u.currentSize = 6
      ∧ 4 ∣ u.totalSize
      ∧ flushed.flatMap chunkOf ++ chunkOf u = "abcdef".toList := by
  obtain ⟨u, flushed, h1, h2, h3, h4, h5, h6, _, _, h9, _⟩ :=
    uploadWriteByte_buffer_invariants sampleConfig uploadingServer
      ⟨HTTPUploadStatus.UPLOAD_FILE_WRITE, "a.txt".toList, "f".toList, mimeTxt, 0, 0, [], 0⟩
      "abcdef".toList (by decide) (by decide) rfl rfl (by decide)
  exact ⟨u, flushed, h1, h2, h3, h4, h5, h6, h9 (by decide)⟩

/-! ## The value of a header line in the two header loops -/

/-- On a header line with one space after the colon and a value without white
space at its ends, the two header loops take the same value. -/
theorem headerValue_agree (v : Str) (hv : trim v = v) :
    trim (' ' :: v) = (' ' :: v).drop 1 := by
  have : trim (' ' :: v) = trim v := by
    unfold trim
    rw [List.dropWhile_cons]
    have : isSpace ' ' = true := by decide
    simp [this]
  rw [this, hv]
  rfl

/-- On such a line one round of either header loop leaves the same table and
the same host. -/
theorem headerSteps_agree (s : WebServer) (l : PostLocals) (n v : Str) (hv : trim v = v) :
    (getHeaderStep s (n, ' ' :: v))._currentHeaders
        = (postHeaderStep (s, l) (n, ' ' :: v)).1._currentHeaders
    ∧ (getHeaderStep s (n, ' ' :: v))._hostHeader
        = (postHeaderStep (s, l) (n, ' ' :: v)).1._hostHeader := by
  obtain ⟨g1, g2, _⟩ := getHeaderStep_fields s (n, ' ' :: v)
  obtain ⟨p1, p2, _⟩ := postHeaderStep_fields (s, l) (n, ' ' :: v)
  have e := headerValue_agree v hv
  simp only at g1 g2 p1 p2 e
  rw [g1, g2, p1, p2, e]
  exact ⟨rfl, rfl⟩

/-- C29: the header lines `Host:example.com`, with no space after the colon,
and `X-A:  v `, with spaces around the value, in a `GET` and in a `POST`
request, the table subscribing `X-A`.  Both parses succeed.  The `GET` parse
takes the text from the second character after the colon: the host is
`xample.com` and the value of `X-A` is ` v `.  The `POST` parse trims the text
after the colon: the host is `example.com` and the value of `X-A` is `v`. -/
theorem header_value_differs_between_methods :
    (∃ s' c', _parseRequest sampleConfig 0 sampleServer
        (clientOf "GET / HTTP/1.1\r\nHost:example.com\r\nX-A:  v \r\n\r\n" true)
          = some (true, s', c')
      ∧ s'._hostHeader = "xample.com".toList
      ∧ headerValueOf s'._currentHeaders "X-A".toList = " v ".toList)
    ∧ (∃ s' c', _parseRequest sampleConfig 0 sampleServer
        (clientOf "POST / HTTP/1.1\r\nHost:example.com\r\nX-A:  v \r\n\r\n" true)
          = some (true, s', c')
      ∧ s'._hostHeader = "example.com".toList
      ∧ headerValueOf s'._currentHeaders "X-A".toList = "v".toList) :=
  ⟨⟨_, _, rfl, by decide, by decide⟩, ⟨_, _, rfl, by decide, by decide⟩⟩

/-! ## The boundary of a form -/

theorem startsWith_append_of_startsWith (a b p : Str) (h : startsWith a p = true) :
    startsWith (a ++ b) p = true := by
  unfold startsWith at h ⊢
  exact List.isPrefixOf_iff_prefix.mpr
    (List.IsPrefix.trans (List.isPrefixOf_iff_prefix.mp h) (List.prefix_append a b))

theorem startsWith_multipart_head (w : Str) (h : startsWith w "multipart/".toList = true) :
    ∃ xs, w = 'm' :: xs := by
  unfold startsWith at h
  cases w with
  | nil => simp at h
  | cons x xs =>
    have h3 : List.isPrefixOf ('m' :: "ultipart/".toList) (x :: xs) = true := h
    rw [List.isPrefixOf_cons₂] at h3
    have h2 : ('m' == x) = true := (Bool.and_eq_true _ _ ▸ h3).1
    exact ⟨xs, by rw [← beq_iff_eq.mp h2]⟩

/-- What a `Content-Type` line whose value starts with `multipart/` does to
the locals: the request is a form, and the boundary is the text after the
first `'='` of the value with every `'"'` removed. -/
theorem postHeader_multipart (s : WebServer) (l : PostLocals) (n w : Str)
    (hn : equalsIgnoreCase n "Content-Type".toList = true)
    (hm : startsWith w "multipart/".toList = true) :
    (postHeader s l n w).2.isForm = true
    ∧ (postHeader s l n w).2.boundaryStr
        = removeChar (substringFrom w (indexOf w '=' + 1).toNat) '"' := by
  obtain ⟨xs, hx⟩ := startsWith_multipart_head w hm
  have h1 : startsWith w mimeTxt = false := by rw [hx]; rfl
  have h2 : startsWith w "application/x-www-form-urlencoded".toList = false := by rw [hx]; rfl
  unfold postHeader
  rw [if_pos hn, h1, h2, hm]
  exact ⟨rfl, rfl⟩

theorem postHeader_of_other_name (s : WebServer) (l : PostLocals) (n w : Str)
    (hn : equalsIgnoreCase n "Content-Type".toList = false) :
    (postHeader s l n w).2.isForm = l.isForm
    ∧ (postHeader s l n w).2.boundaryStr = l.boundaryStr := by
  unfold postHeader
  rw [hn]
  simp only [Bool.false_eq_true, if_false]
  split
  · exact ⟨rfl, rfl⟩
  · split
    · exact ⟨rfl, rfl⟩
    · exact ⟨rfl, rfl⟩

theorem postHeaderFold_of_other_names :
    ∀ (hs : List (Str × Str)) (p : WebServer × PostLocals),
      (∀ h ∈ hs, equalsIgnoreCase h.1 "Content-Type".toList = false) →
      (hs.foldl postHeaderStep p).2.isForm = p.2.isForm
      ∧ (hs.foldl postHeaderStep p).2.boundaryStr = p.2.boundaryStr := by
  intro hs
  induction hs with
  | nil => intro p _; exact ⟨rfl, rfl⟩
  | cons h hs ih =>
    intro p hh
    rw [List.foldl_cons]
    obtain ⟨i1, i2⟩ := ih (postHeaderStep p h) (fun x hx => hh x (List.mem_cons_of_mem _ hx))
    obtain ⟨a1, a2⟩ := postHeader_of_other_name (_collectHeader p.1 h.1 (trim h.2)) p.2 h.1
      (trim h.2) (hh h (List.mem_cons_self _ _))
    exact ⟨i1.trans a1, i2.trans a2⟩

theorem removeChar_of_not_mem (B : Str) (x : Char) (h : x ∉ B) : removeChar B x = B := by
  unfold removeChar
  rw [List.filter_eq_self]
  intro a ha
  have : a ≠ x := fun e => h (e ▸ ha)
  simpa using this

theorem removeChar_quoted (B : Str) (h : '"' ∉ B) : removeChar ('"' :: (B ++ ['"'])) '"' = B := by
  have e := removeChar_of_not_mem B '"' h
  unfold removeChar at e ⊢
  rw [List.filter_cons, List.filter_append, e]
  simp

/-- The boundary taken from a value whose first `'='` is that of the boundary
parameter and in which nothing follows the boundary. -/
theorem boundary_of_value (pre B : Str) (hpre : '=' ∉ pre) (hB : '"' ∉ B) :
    removeChar (substringFrom (pre ++ '=' :: B) (indexOf (pre ++ '=' :: B) '=' + 1).toNat) '"' = B
    ∧ removeChar (substringFrom (pre ++ '=' :: '"' :: (B ++ ['"']))
        (indexOf (pre ++ '=' :: '"' :: (B ++ ['"'])) '=' + 1).toNat) '"' = B := by
  have e : ∀ rest : Str, substringFrom (pre ++ '=' :: rest)
      (indexOf (pre ++ '=' :: rest) '=' + 1).toNat = rest := by
    intro rest
    rw [indexOf_of_split '=' pre rest hpre]
    have : ((pre.length : Int) + 1).toNat = pre.length + 1 := by omega
    rw [this]
    unfold substringFrom
    rw [drop_append_of_length pre _ _ 1 rfl]
    rfl
  rw [e, e]
  exact ⟨removeChar_of_not_mem B '"' hB, removeChar_quoted B hB⟩

/-- The body part of a form hands the boundary of the locals to
`_parseForm`. -/
theorem postBody_form (cfg : Config) (fuel : Nat) (s : WebServer) (c : EthernetClient)
    (l : PostLocals) (Q : Str) (hf : l.isForm = true) :
    ∃ Q1, postBody cfg fuel s c l Q
      = _parseForm cfg fuel (_parseArguments s Q1) c l.boundaryStr l.contentLength := by
  unfold postBody
  simp only [hf, Bool.not_true, Bool.false_eq_true, false_and, if_false]
  exact ⟨_, rfl⟩

/-- C25, as stated, fails: in the value
`multipart/form-data; charset=utf-8; boundary=XY` the first `'='` is that of
`charset`, and the boundary taken is `utf-8; boundary=XY`; the form that
follows, whose first line is `--XY`, is refused.  A parameter after the
boundary stays in it as well. -/
theorem boundary_after_parameter_counterexample :
    (afterPostHeaders sampleServer
        (clientOf ("POST /up HTTP/1.1\r\n"
          ++ "Content-Type: multipart/form-data; charset=utf-8; boundary=XY\r\n\r\n") true)
        "POST".toList "/up".toList).2.2.boundaryStr = "utf-8; boundary=XY".toList
    ∧ (∃ s' c', _parseRequest sampleConfig 50 sampleServer
        (clientOf ("POST /up HTTP/1.1\r\n"
          ++ "Content-Type: multipart/form-data; charset=utf-8; boundary=XY\r\n\r\n"
          ++ fieldBody) true) = some (false, s', c'))
    ∧ (afterPostHeaders sampleServer
        (clientOf ("POST /up HTTP/1.1\r\n"
          ++ "Content-Type: multipart/form-data; boundary=XY; charset=utf-8\r\n\r\n") true)
        "POST".toList "/up".toList).2.2.boundaryStr = "XY; charset=utf-8".toList :=
  ⟨by decide, ⟨_, _, rfl⟩, by decide⟩

/-- C25, amended: a `POST`, `PUT`, `PATCH` or `DELETE` request whose last
`Content-Type` line has, trimmed, a value that starts with `multipart/`, holds
no `'='` before the one of the boundary parameter, and ends with the boundary:
`pre=B` or `pre="B"`, with no `'"'` in `B`.  The parse then is the call of
`_parseForm` with the boundary `B`, on the stream after the empty line. -/
theorem parseRequest_boundary_token (cfg : Config) (fuel : Nat) (s : WebServer)
    (c : EthernetClient) (m t v : Str) (hpre : List (Str × Str)) (n r : Str)
    (hpost : List (Str × Str)) (rest pre B : Str)
    (hst : c.stream = (m ++ ' ' :: t ++ ' ' :: v) ++ '\r' :: '\n' ::
      (headerBlock (hpre ++ (n, r) :: hpost) ++ '\r' :: '\n' :: rest))
    (hw : c.wire.length ≤ c.timeout)
    (hcr : '\r' ∉ m ++ ' ' :: t ++ ' ' :: v) (hbytes : isBytes (m ++ ' ' :: t ++ ' ' :: v))
    (hm : ' ' ∉ m) (ht : ' ' ∉ t) (hwf : ∀ h ∈ hpre ++ (n, r) :: hpost, wellFormedHeader h)
    (hb : hasBody (methodOf m) = true)
    (hn : equalsIgnoreCase n "Content-Type".toList = true)
    (hlast : ∀ h ∈ hpost, equalsIgnoreCase h.1 "Content-Type".toList = false)
    (hmulti : startsWith pre "multipart/".toList = true) (hq : '=' ∉ pre) (hB : '"' ∉ B)
    (hval : trim r = pre ++ '=' :: B ∨ trim r = pre ++ '=' :: '"' :: (B ++ ['"'])) :
    ∃ s4 c3 L, c3.stream = rest
      ∧ _parseRequest cfg fuel s c = _parseForm cfg fuel s4 c3 B L := by
  obtain ⟨c3, e1, _, e3⟩ := parseRequest_post_block cfg fuel s c m t v
    (hpre ++ (n, r) :: hpost) rest hst hw hcr hbytes hm ht hwf hb
  have hfold : (hpre ++ (n, r) :: hpost).foldl postHeaderStep
      (startRequest (resetHeaders s) (methodOf m) (splitUrl t).1, initLocals)
      = hpost.foldl postHeaderStep
          (postHeaderStep (hpre.foldl postHeaderStep
            (startRequest (resetHeaders s) (methodOf m) (splitUrl t).1, initLocals)) (n, r)) := by
    rw [List.foldl_append, List.foldl_cons]
  obtain ⟨a1, a2⟩ := postHeaderFold_of_other_names hpost
    (postHeaderStep (hpre.foldl postHeaderStep
      (startRequest (resetHeaders s) (methodOf m) (splitUrl t).1, initLocals)) (n, r)) hlast
  have hstart : startsWith (trim r) "multipart/".toList = true := by
    rcases hval with h | h
    · rw [h]; exact startsWith_append_of_startsWith _ _ _ hmulti
    · rw [h]; exact startsWith_append_of_startsWith _ _ _ hmulti
  obtain ⟨b1, b2⟩ := postHeader_multipart
    (_collectHeader (hpre.foldl postHeaderStep
      (startRequest (resetHeaders s) (methodOf m) (splitUrl t).1, initLocals)).1 n (trim r))
    (hpre.foldl postHeaderStep
      (startRequest (resetHeaders s) (methodOf m) (splitUrl t).1, initLocals)).2 n (trim r)
    hn hstart
  have hbd : removeChar (substringFrom (trim r) (indexOf (trim r) '=' + 1).toNat) '"' = B := by
    obtain ⟨k1, k2⟩ := boundary_of_value pre B hq hB
    rcases hval with h | h
    · rw [h]; exact k1
    · rw [h]; exact k2
  have hform : ((hpre ++ (n, r) :: hpost).foldl postHeaderStep
      (startRequest (resetHeaders s) (methodOf m) (splitUrl t).1, initLocals)).2.isForm
      = true := by
    rw [hfold, a1]; exact b1
  have hbound : ((hpre ++ (n, r) :: hpost).foldl postHeaderStep
      (startRequest (resetHeaders s) (methodOf m) (splitUrl t).1, initLocals)).2.boundaryStr
      = B := by
    rw [hfold, a2]; exact b2.trans hbd
  obtain ⟨Q1, hq1⟩ := postBody_form cfg fuel
    ((hpre ++ (n, r) :: hpost).foldl postHeaderStep
      (startRequest (resetHeaders s) (methodOf m) (splitUrl t).1, initLocals)).1 c3
    ((hpre ++ (n, r) :: hpost).foldl postHeaderStep
      (startRequest (resetHeaders s) (methodOf m) (splitUrl t).1, initLocals)).2
    (splitUrl t).2 hform
  rw [hbound] at hq1
  exact ⟨_, c3, _, e1, e3.trans hq1⟩

/-- Witness of the amended C25: the value
`multipart/form-data; boundary="XY"` hands the boundary `XY` to `_parseForm`,
which decodes the form `fieldBody`. -/
theorem parseRequest_boundary_token_witness :
    (∃ s4 c3 L, c3.stream = fieldBody.toList
      ∧ _parseRequest sampleConfig 50 sampleServer
          (clientOf ("POST /up HTTP/1.1\r\n"
            ++ "Content-Type: multipart/form-data; boundary=\"XY\"\r\n\r\n" ++ fieldBody) true)
        = _parseForm sampleConfig 50 s4 c3 "XY".toList L)
    ∧ ∃ s' c', _parseRequest sampleConfig 50 sampleServer
          (clientOf ("POST /up HTTP/1.1\r\n"
            ++ "Content-Type: multipart/form-data; boundary=\"XY\"\r\n\r\n" ++ fieldBody) true)
        = some (true, s', c')
      ∧ s'._currentArgs = [{ key := "t".toList, value := "hi".toList }] :=
  ⟨parseRequest_boundary_token sampleConfig 50 sampleServer
      (clientOf ("POST /up HTTP/1.1\r\n"
        ++ "Content-Type: multipart/form-data; boundary=\"XY\"\r\n\r\n" ++ fieldBody) true)
      "POST".toList "/up".toList "HTTP/1.1".toList []
      "Content-Type".toList " multipart/form-data; boundary=\"XY\"".toList [] fieldBody.toList
      "multipart/form-data; boundary".toList "XY".toList
      (by decide) (by decide) (by decide) (by decide) (by decide) (by decide) (by decide)
      (by decide) (by decide) (by decide) (by decide) (by decide) (by decide)
      (Or.inr (by decide)),
    ⟨_, _, rfl, by decide⟩⟩

/-! ## A form on a transport that has ended -/

theorem timedReadLoop_ended :
    ∀ (n : Nat) (c : EthernetClient), c.stream = [] →
      (timedReadLoop n c).1 = -1 ∧ (timedReadLoop n c).2.stream = [] := by
  intro n
  induction n with
  | zero =>
    intro c h
    have hrx : c.rx = [] := by
      unfold EthernetClient.stream at h
      exact (List.append_eq_nil.mp h).1
    simp [timedReadLoop, EthernetClient.read, hrx, h]
  | succ n ih =>
    intro c h
    have hrx : c.rx = [] := by
      unfold EthernetClient.stream at h
      exact (List.append_eq_nil.mp h).1
    have hr : c.read = (-1, c) := by simp [EthernetClient.read, hrx]
    rw [timedReadLoop]
    simp only [hr]
    rw [if_neg (by decide)]
    exact ih c.tick (by rw [tick_stream]; exact h)

/-- On a transport that has nothing more to deliver a line read returns the
empty line, and the transport stays as it is in this respect. -/
theorem readLine_ended (c : EthernetClient) (h : c.stream = []) :
    (readLine c).1 = [] ∧ (readLine c).2.stream = [] := by
  have key : ∀ (t : Char) (d : EthernetClient), d.stream = [] →
      (readStringUntil d t).1 = [] ∧ (readStringUntil d t).2.stream = [] := by
    intro t d hd
    obtain ⟨h1, h2⟩ := timedReadLoop_ended d.timeout d hd
    unfold readStringUntil
    rw [hd]
    simp only [List.length_nil, Nat.zero_add]
    rw [readStringUntilLoop]
    unfold timedRead
    have hneg : ¬ (0 ≤ (timedReadLoop d.timeout d).1 ∧
        byteOfInt (timedReadLoop d.timeout d).1 ≠ t) := by
      rw [h1]; intro hh; exact absurd hh.1 (by decide)
    rw [if_neg hneg]
    exact ⟨rfl, h2⟩
  obtain ⟨a1, a2⟩ := key '\r' c h
  obtain ⟨_, b2⟩ := key '\n' (readStringUntil c '\r').2 a2
  unfold readLine
  exact ⟨a1, b2⟩

/-- The loop over the lines of a field never ends on a transport that has
nothing more to deliver: whatever the fuel, it is used up. -/
theorem fieldLoop_ended (B : Str) :
    ∀ (fuel : Nat) (c : EthernetClient) (acc : Str), c.stream = [] →
      fieldLoop B fuel c acc = none := by
  intro fuel
  induction fuel with
  | zero => intro c acc _; rfl
  | succ n ih =>
    intro c acc h
    obtain ⟨h1, h2⟩ := readLine_ended c h
    rw [fieldLoop]
    simp only [h1]
    have : startsWith [] ("--".toList ++ B) = false := by
      unfold startsWith; rfl
    rw [this]
    simp only [Bool.false_eq_true, if_false]
    exact ih _ _ h2

/-- The loop over the parts never ends on a transport that has nothing more
to deliver. -/
theorem partsLoop_ended (cfg : Config) (B : Str) (len : Nat) :
    ∀ (fuel : Nat) (s : WebServer) (c : EthernetClient), c.stream = [] →
      partsLoop cfg B len fuel s c = none := by
  intro fuel
  induction fuel with
  | zero => intro s c _; exact partsLoop_zero cfg B len s c
  | succ n ih =>
    intro s c h
    obtain ⟨h1, h2⟩ := readLine_ended c h
    rw [partsLoop_succ]
    simp only [h1, List.length_nil, gt_iff_lt, Nat.not_lt_zero, false_and, if_false]
    exact ih _ _ h2

/-- The loop over the lines of a field on a stream that ends after the lines
`ls`, before any delimiter line: it never ends. -/
theorem fieldLoop_unterminated (B : Str) :
    ∀ (ls : List Str) (fuel : Nat) (c : EthernetClient) (acc : Str),
      (∀ l ∈ ls, startsWith l ("--".toList ++ B) = false ∧ '\r' ∉ l ∧ isBytes l) →
      c.stream = linesText ls → c.wire.length ≤ c.timeout →
      fieldLoop B fuel c acc = none := by
  intro ls
  induction ls with
  | nil =>
    intro fuel c acc _ hs _
    exact fieldLoop_ended B fuel c acc (by simpa [linesText] using hs)
  | cons l ls ih =>
    intro fuel c acc hl hs hw
    obtain ⟨h1, h2, h3⟩ := hl l (List.mem_cons_self _ _)
    obtain ⟨c1, r1, r2, r3⟩ := readLine_stream_line c l (linesText ls)
      (by rw [hs]; simp [linesText]) hw h2 h3
    cases fuel with
    | zero => rfl
    | succ n =>
      rw [fieldLoop]
      simp only [r1, h1, Bool.false_eq_true, if_false]
      exact ih n c1 _ (fun x hx => hl x (List.mem_cons_of_mem _ hx)) r2
        (by rw [r3.1]; exact Nat.le_trans r3.2.2 hw)

/-- The loop over the parts on a stream that ends inside the value of a field
part: it never ends. -/
theorem partsLoop_field_unterminated (cfg : Config) (B : Str) (len : Nat) (s : WebServer)
    (c : EthernetClient) (p : Str × List Str) (hp : wellFormedField B p)
    (hs : c.stream = fieldPartText p) (hw : c.wire.length ≤ c.timeout) :
    ∀ fuel, partsLoop cfg B len fuel s c = none := by
  intro fuel
  cases fuel with
  | zero => exact partsLoop_zero cfg B len s c
  | succ fuel =>
    obtain ⟨h1, h2, h3, h4⟩ := hp
    obtain ⟨f1, f2, f3, f4⟩ := fieldHeaderLine_facts p.1 s h1
    have hline_cr : '\r' ∉ fieldHeaderLine p.1 := by
      unfold fieldHeaderLine
      intro hm
      rcases List.mem_append.mp hm with h | h
      · revert h; decide
      · rcases List.mem_cons.mp h with h | h
        · exact absurd h (by decide)
        · rcases List.mem_cons.mp h with h | h
          · exact absurd h (by decide)
          · rcases List.mem_append.mp h with h | h
            · exact h2 h
            · revert h; decide
    have hline_b : isBytes (fieldHeaderLine p.1) := by
      unfold fieldHeaderLine
      exact isBytes_append (by decide)
        (isBytes_cons (by decide) (isBytes_cons (by decide) (isBytes_append h3 (by decide))))
    obtain ⟨c1, r1, r2, r3⟩ := readLine_stream_line c (fieldHeaderLine p.1)
      ('\r' :: '\n' :: linesText p.2) (by rw [hs]; simp [fieldPartText]) hw hline_cr hline_b
    have hw1 : c1.wire.length ≤ c1.timeout := by rw [r3.1]; exact Nat.le_trans r3.2.2 hw
    obtain ⟨c2, q1, q2, q3⟩ := readLine_stream_line c1 [] (linesText p.2) (by simpa using r2) hw1
      (by simp) (by intro x hx; cases hx)
    have hw2 : c2.wire.length ≤ c2.timeout := by rw [q3.1]; exact Nat.le_trans q3.2.2 hw1
    have g1 := fieldLoop_unterminated B p.2 fuel c2 [] h4 q2 hw2
    have hne : ¬ ((36 : Int) = -1) := by decide
    rw [partsLoop_succ]
    simp only [r1, f1, f2, and_self, if_true, f3, ne_eq, hne, not_false_eq_true, f4, q1,
      List.length_nil, Bool.not_false, gt_iff_lt, Nat.not_lt_zero, decide_False, Bool.false_and,
      Bool.false_eq_true, if_false, g1]

/-- When the preamble check passes and the loop over the parts never ends,
`_parseForm` never returns. -/
theorem parseForm_of_parts_none (cfg : Config) (fuel : Nat) (s : WebServer)
    (c : EthernetClient) (boundary : Str) (len : Nat)
    (h : (preambleLoop 2 c).1 = "--".toList ++ boundary)
    (hn : partsLoop cfg boundary len fuel { s with _postArgs := [] }
      (readStringUntil (preambleLoop 2 c).2 '\n').2 = none) :
    _parseForm cfg fuel s c boundary len = none := by
  unfold _parseForm
  simp only [if_pos h, hn]

/-- C21: three streams after which the peer has closed the connection, decoded
with boundary `XY`: the stream that ends after the first boundary line, the
stream that ends inside the header of a part, and the stream that ends inside
the value of a field, before any delimiter line.  In each case `_parseForm`
does not return, whatever the fuel: the loops over the parts and over the
lines of a field go on reading empty lines. -/
theorem parseForm_reads_on_after_disconnect :
    (∀ fuel, _parseForm sampleConfig fuel sampleServer (clientOf "--XY\r\n" false)
        "XY".toList 0 = none)
    ∧ (∀ fuel, _parseForm sampleConfig fuel sampleServer
        (clientOf "--XY\r\nContent-Disposition: form-d" false) "XY".toList 0 = none)
    ∧ (∀ fuel, _parseForm sampleConfig fuel sampleServer
        (clientOf "--XY\r\nContent-Disposition: form-data; name=\"t\"\r\n\r\nhi\r\n" false)
        "XY".toList 0 = none)
    ∧ (clientOf "--XY\r\n" false).connected = true
    ∧ (readLine (clientOf "--XY\r\n" false)).2.connected = false := by
  refine ⟨?_, ?_, ?_, by decide, by decide⟩
  · intro fuel
    exact parseForm_of_parts_none _ _ _ _ _ _ (by decide)
      (partsLoop_ended _ _ _ _ _ _ (by decide))
  · intro fuel
    refine parseForm_of_parts_none _ _ _ _ _ _ (by decide) ?_
    cases fuel with
    | zero => exact partsLoop_zero _ _ _ _ _
    | succ n =>
      have hr : readLine (readStringUntil
          (preambleLoop 2 (clientOf "--XY\r\nContent-Disposition: form-d" false)).2 '\n').2
          = ("Content-Disposition: form-d".toList, clientOf "" false) := by decide
      have hi : indexOf "Content-Disposition: form-d".toList '=' = -1 := by decide
      have hl : "Content-Disposition: form-d".toList.length > 19 := by decide
      have he : equalsIgnoreCase (substring "Content-Disposition: form-d".toList 0 19)
          "Content-Disposition".toList = true := by decide
      rw [partsLoop_succ]
      simp only [hr, hl, he, and_self, if_true, hi, ne_eq, not_true_eq_false, if_false]
      exact partsLoop_ended _ _ _ _ _ _ (by decide)
  · intro fuel
    exact parseForm_of_parts_none _ _ _ _ _ _ (by decide)
      (partsLoop_field_unterminated _ _ _ _ _ ("t".toList, ["hi".toList]) (by decide)
        (by decide) (by decide) fuel)

/-! ## The names of a part -/

/-- The header line of a file part with name `N` (without `'='` and `'"'`) and
file name `F` passes the tests of the loop over the parts, its first `'='` is
at offset 36, and the branch gives the name `N`, the file name `F` and the
file flag, unless `F` is `blob` and the request has an argument `filename`. -/
theorem fileHeaderLine_facts (N F : Str) (s : WebServer) (hN : '=' ∉ N) (hq : '"' ∉ N)
    (hblob : ¬ (F = "blob".toList ∧ hasArg s "filename".toList = true)) :
    (fileHeaderLine N F).length > 19
    ∧ equalsIgnoreCase (substring (fileHeaderLine N F) 0 19) "Content-Disposition".toList = true
    ∧ indexOf (fileHeaderLine N F) '=' = 36
    ∧ dispositionNames s (fileHeaderLine N F) 36 = (N, F, true) := by
  have hshape : fileHeaderLine N F = "Content-Disposition: form-data; name".toList
      ++ '=' :: '"' :: (N ++ '"' :: "; filename".toList ++ '=' :: '"' :: (F ++ ['"'])) := by
    unfold fileHeaderLine fieldHeaderLine
    simp
  have hidx : indexOf (fileHeaderLine N F) '=' = 36 := by
    rw [hshape]
    exact indexOf_of_split '=' "Content-Disposition: form-data; name".toList _ (by decide)
  refine ⟨?_, ?_, hidx, ?_⟩
  · rw [hshape]
    simp only [List.length_append, List.length_cons]
    have : "Content-Disposition: form-data; name".toList.length = 36 := by decide
    omega
  · have : substring (fileHeaderLine N F) 0 19 = "Content-Disposition".toList := by
      refine Eq.trans (substring_nat (fileHeaderLine N F) 0 19 (Nat.zero_le _)) ?_
      rw [hshape]
      have e : "Content-Disposition: form-data; name".toList
          = "Content-Disposition".toList ++ ": form-data; name".toList := by decide
      rw [e, List.append_assoc, take_append_of_length _ _ _ (by decide)]
      rfl
    rw [this]
    decide
  · unfold dispositionNames
    have e1 : substringFrom (fileHeaderLine N F) ((36 : Int) + 2).toNat
        = (N ++ '"' :: "; filename".toList) ++ '=' :: ('"' :: (F ++ ['"'])) := by
      unfold substringFrom
      rw [hshape]
      have : ((36 : Int) + 2).toNat = "Content-Disposition: form-data; name".toList.length + 2 := by
        decide
      rw [this, drop_append_of_length _ _ _ 2 rfl]
      simp
    have hpre : '=' ∉ N ++ '"' :: "; filename".toList := by
      intro hm
      rcases List.mem_append.mp hm with h | h
      · exact hN h
      · revert h; decide
    have e2 : indexOf ((N ++ '"' :: "; filename".toList) ++ '=' :: ('"' :: (F ++ ['"']))) '='
        = ((N ++ '"' :: "; filename".toList).length : Int) :=
      indexOf_of_split '=' _ _ hpre
    have hlen : (N ++ '"' :: "; filename".toList).length = N.length + 11 := by
      simp
    have e3 : indexOf ((N ++ '"' :: "; filename".toList) ++ '=' :: ('"' :: (F ++ ['"']))) '"'
        = (N.length : Int) := by
      have : (N ++ '"' :: "; filename".toList) ++ '=' :: ('"' :: (F ++ ['"']))
          = N ++ '"' :: ("; filename".toList ++ '=' :: ('"' :: (F ++ ['"']))) := by simp
      rw [this]
      exact indexOf_of_split '"' N _ hq
    have e4 : substring ((N ++ '"' :: "; filename".toList) ++ '=' :: ('"' :: (F ++ ['"']))) 0
        (N.length : Int) = N := by
      rw [substring_nat _ _ _ (Nat.zero_le _), List.append_assoc,
        take_append_of_length _ _ _ rfl]
      rfl
    have e5 : substring ((N ++ '"' :: "; filename".toList) ++ '=' :: ('"' :: (F ++ ['"'])))
        (((N.length + 11 : Nat) : Int) + 2).toNat
        ((((N ++ '"' :: "; filename".toList) ++ '=' :: ('"' :: (F ++ ['"']))).length : Int) - 1)
        = F := by
      have h1 : (((N.length + 11 : Nat) : Int) + 2).toNat = N.length + 13 := by omega
      have h2 : ((((N ++ '"' :: "; filename".toList) ++ '=' :: ('"' :: (F ++ ['"']))).length : Int)
          - 1) = ((N.length + 13 + F.length : Nat) : Int) := by
        simp only [List.length_append, List.length_cons, List.length_nil, hlen]
        have : "; filename".toList.length = 10 := by decide
        push_cast
        omega
      rw [h1, h2, substring_nat _ _ _ (by omega)]
      have h3 : (N ++ '"' :: "; filename".toList) ++ '=' :: ('"' :: (F ++ ['"']))
          = ((N ++ '"' :: "; filename".toList) ++ ['=', '"']) ++ (F ++ ['"']) := by simp
      have h4 : ((N ++ '"' :: "; filename".toList) ++ ['=', '"']).length = N.length + 13 := by
        simp
      rw [h3, List.take_append_eq_append_take, h4, List.drop_append_eq_append_drop]
      have h5 : N.length + 13 + F.length - (N.length + 13) = F.length := by omega
      rw [h5, List.take_of_length_le (by rw [h4]; omega), List.drop_of_length_le (by rw [h4]),
        h4, Nat.sub_self, List.drop_zero, List.nil_append, List.take_left]
    have hne : ¬ (((N.length + 11 : Nat) : Int) = -1) := by omega
    rw [hlen] at e2
    simp only [e1, e2, hne, if_false, e3, e4, e5, if_neg hblob]

/-- C22, counterexample: a field part whose name holds `'='` is taken for a
file part.  The line `Content-Disposition: form-data; name="a=b"` carries no
`filename` parameter, yet the branch gives the name `a=b` with the file flag
set, and the request with this one part ends with no argument and an upload
of the value `hi`.  And the file name `blob` is replaced by the argument
`filename` of the search string. -/
theorem disposition_name_with_equals_counterexample :
    dispositionNames sampleServer (fieldHeaderLine "a=b".toList)
        (indexOf (fieldHeaderLine "a=b".toList) '=') = ("a=b".toList, [], true)
    ∧ parseOutcome (_parseRequest sampleConfig 40 sampleServer
        (clientOf ("POST /up HTTP/1.1\r\nContent-Type: multipart/form-data; boundary=XY\r\n\r\n"
          ++ "--XY\r\nContent-Disposition: form-data; name=\"a=b\"\r\n\r\nhi\r\n--XY--\r\n") true))
      = some ⟨true, [],
          [HTTPUploadStatus.UPLOAD_FILE_START, HTTPUploadStatus.UPLOAD_FILE_WRITE,
           HTTPUploadStatus.UPLOAD_FILE_END], "hi".toList, [2]⟩
    ∧ dispositionNames (_parseArguments sampleServer "filename=q.txt".toList)
        (fileHeaderLine "f".toList "blob".toList)
        (indexOf (fileHeaderLine "f".toList "blob".toList) '=')
      = ("f".toList, "q.txt".toList, true) := by
  decide

/-- C22, amended: for every name `N` without `'='` and `'"'` and every file
name `F`, where `F` is not `blob` while the request has an argument
`filename`: the line `Content-Disposition: form-data; name="N"` passes the
test of the loop over the parts and gives the name `N` with the file flag
clear (a field part), and the line
`Content-Disposition: form-data; name="N"; filename="F"` passes the test and
gives the name `N` and the file name `F` with the file flag set (a file
part). -/
theorem parseForm_disposition_names (s : WebServer) (N F : Str) (hN : '=' ∉ N) (hq : '"' ∉ N)
    (hblob : ¬ (F = "blob".toList ∧ hasArg s "filename".toList = true)) :
    ((fieldHeaderLine N).length > 19
      ∧ equalsIgnoreCase (substring (fieldHeaderLine N) 0 19) "Content-Disposition".toList = true
      ∧ indexOf (fieldHeaderLine N) '=' ≠ -1
      ∧ dispositionNames s (fieldHeaderLine N) (indexOf (fieldHeaderLine N) '=') = (N, [], false))
    ∧ ((fileHeaderLine N F).length > 19
      ∧ equalsIgnoreCase (substring (fileHeaderLine N F) 0 19) "Content-Disposition".toList = true
      ∧ indexOf (fileHeaderLine N F) '=' ≠ -1
      ∧ dispositionNames s (fileHeaderLine N F) (indexOf (fileHeaderLine N F) '=')
          = (N, F, true)) := by
  obtain ⟨a1, a2, a3, a4⟩ := fieldHeaderLine_facts N s hN
  obtain ⟨b1, b2, b3, b4⟩ := fileHeaderLine_facts N F s hN hq hblob
  refine ⟨⟨a1, a2, ?_, ?_⟩, ⟨b1, b2, ?_, ?_⟩⟩
  · rw [a3]; decide
  · rw [a3]; exact a4
  · rw [b3]; decide
  · rw [b3]; exact b4

/-- Witness of C22: the name `f` and the file name `a.txt`. -/
theorem parseForm_disposition_names_witness :
    dispositionNames sampleServer (fieldHeaderLine "f".toList)
        (indexOf (fieldHeaderLine "f".toList) '=') = ("f".toList, [], false)
    ∧ dispositionNames sampleServer (fileHeaderLine "f".toList "a.txt".toList)
        (indexOf (fileHeaderLine "f".toList "a.txt".toList) '=')
      = ("f".toList, "a.txt".toList, true) :=
  ⟨(parseForm_disposition_names sampleServer "f".toList "a.txt".toList (by decide) (by decide)
      (by decide)).1.2.2.2,
   (parseForm_disposition_names sampleServer "f".toList "a.txt".toList (by decide) (by decide)
      (by decide)).2.2.2.2⟩

/-! ## The value of a field -/

theorem fieldValue_fold_of_ne_nil : ∀ (ls : List Str) (acc : Str), acc ≠ [] →
    ls.foldl fieldStep acc = acc ++ ls.flatMap (fun l => '\n' :: l) := by
  intro ls
  induction ls with
  | nil => intro acc _; simp
  | cons l ls ih =>
    intro acc hacc
    have hpos : acc.length > 0 := List.length_pos.mpr hacc
    have hstep : fieldStep acc l = acc ++ '\n' :: l := by
      unfold fieldStep
      rw [if_pos hpos]
      simp
    rw [List.foldl_cons, hstep, ih _ (by simp)]
    simp

/-- The value of a field whose first line is not empty is its lines joined
by line feeds. -/
theorem fieldValue_join (l : Str) (ls : List Str) (h : l ≠ []) :
    fieldValue (l :: ls) = ['\n'].intercalate (l :: ls) := by
  have hstep : fieldStep [] l = l := by
    unfold fieldStep
    simp
  unfold fieldValue
  rw [List.foldl_cons, hstep, fieldValue_fold_of_ne_nil ls l h]
  clear hstep h
  induction ls generalizing l with
  | nil => simp [List.intercalate]
  | cons x xs ih =>
    have := ih x
    simp only [List.intercalate, List.intersperse, List.flatMap_cons, List.flatten_cons] at this ⊢
    rw [← this]
    simp

/-- An empty first line leaves no trace in the value of a field. -/
theorem fieldValue_leading_empty (ls : List Str) : fieldValue ([] :: ls) = fieldValue ls := by
  unfold fieldValue
  rfl

/-- C23 fails on the code.  The field `a` of the form has the four lines
empty, `hi`, empty, `yo`, followed by the closing delimiter.  Joined by line
feeds they give `LF hi LF LF yo`; the stored value is `hi LF LF yo`.  The line
feed is put in front of a line only when the value so far is not empty
(`if (argValue.length() > 0) argValue += "\n";`), so the empty lines at the
start of a value are lost, while the empty line inside is kept.  The argument
is stored under the name of the part and the parse is done at the closing
delimiter, as the claim says. -/
theorem field_value_drops_leading_empty_lines :
    parseOutcome (_parseForm sampleConfig 40 sampleServer
        (clientOf ("--XY\r\nContent-Disposition: form-data; name=\"a\"\r\n\r\n"
          ++ "\r\nhi\r\n\r\nyo\r\n--XY--\r\n") true) "XY".toList 0)
      = some ⟨true, [⟨"a".toList, "hi\n\nyo".toList⟩, ⟨"k".toList, "v".toList⟩], [], [], []⟩
    ∧ ['\n'].intercalate [[], "hi".toList, [], "yo".toList] = "\nhi\n\nyo".toList
    ∧ fieldValue [[], "hi".toList, [], "yo".toList] = "hi\n\nyo".toList := by
  decide

/-! ## The comparison with the boundary after a short read -/

/-- When `readBytes` stored as many bytes as the boundary has, `endBuf` holds
these bytes and nothing else. -/
theorem endBufOf_full (cfg : Config) (n : Nat) (got : Str) (h : got.length = n) :
    endBufOf cfg n got = got := by
  unfold endBufOf
  rw [← h, List.drop_of_length_le (by simp)]
  simp

/-- After a short read `endBuf` still has as many cells as the boundary has
characters: more than the bytes that were read. -/
theorem endBufOf_short (cfg : Config) (n : Nat) (got : Str) (h : got.length < n) :
    (endBufOf cfg n got).length = n ∧ (endBufOf cfg n got).take got.length = got
    ∧ (endBufOf cfg n got).drop got.length
        = ((List.range n).drop got.length).map cfg.stackByte := by
  unfold endBufOf
  refine ⟨?_, ?_, ?_⟩
  · simp only [List.length_append, List.length_map, List.length_drop, List.length_range]
    omega
  · exact List.take_left _ _
  · exact List.drop_left _ _

/-- C24 fails on the code, by the defect of C7: the result of
`client.readBytes(endBuf, boundary.length())` is not looked at.  The file
content is `a b CR LF - - Z c d` under the boundary `XQ`; the transport
stalls after `Z` for longer than the `Stream` timeout, so the comparison
consumes the one byte `Z`.  The scanner then emits both cells of `endBuf`:
`Z` and the cell that was not written, whose content `f 1` is whatever the
stack held.  The sink is passed ten bytes, the nine of the content with the
invented one after `Z`, and End reports size ten.  When the same bytes
arrive without the stall the sink is passed the nine bytes of the content. -/
theorem upload_short_comparison_emits_unread_cell :
    (∀ f : Nat → Char,
      (readFile { sampleConfig with stackByte := f } "XQ".toList 40 uploadingServer
          stalledUploadClient 'a').map
        (fun r => (r.1, uploadedBytes r.2.1, uploadEndSizes r.2.1, r.2.2.stream))
      = some (true, "ab\r\n--Z".toList ++ f 1 :: "cd".toList, [10], "--\r\n".toList))
    ∧ 'a' :: stalledUploadClient.stream = "ab\r\n--Zcd".toList ++ "\r\n--XQ--\r\n".toList
    ∧ (readFile sampleConfig "XQ".toList 40 uploadingServer
          (clientOf "b\r\n--Zcd\r\n--XQ--\r\n" true) 'a').map
        (fun r => (r.1, uploadedBytes r.2.1, uploadEndSizes r.2.1, r.2.2.stream))
      = some (true, "ab\r\n--Zcd".toList, [9], "--\r\n".toList) := by
  refine ⟨fun f => rfl, by decide, by decide⟩

/-! ## Forms with more fields than the table holds -/

/-- When the preamble check passes and the loop over the parts is left by
`break`, `_parseForm` merges the arguments and returns `true`. -/
theorem parseForm_of_parts_done (cfg : Config) (fuel : Nat) (s : WebServer)
    (c : EthernetClient) (boundary : Str) (len : Nat) (s2 : WebServer) (c2 : EthernetClient)
    (h : (preambleLoop 2 c).1 = "--".toList ++ boundary)
    (hp : partsLoop cfg boundary len fuel { s with _postArgs := [] }
      (readStringUntil (preambleLoop 2 c).2 '\n').2 = some (true, s2, c2)) :
    _parseForm cfg fuel s c boundary len = some (true, mergeArgs s2, c2) := by
  unfold _parseForm
  simp only [if_pos h, hp]

/-- A form body made of field parts, however many: with enough fuel the loop
over the parts stores one argument per part, `_parseForm` returns `true`, and
the argument list starts with the arguments of all the parts. -/
theorem parseForm_of_field_parts (cfg : Config) (len : Nat) (s : WebServer)
    (c : EthernetClient) (B : Str) (ps : List (Str × List Str)) (rest : Str)
    (hB : '\r' ∉ B) (hBb : isBytes B) (hne : ps ≠ []) (hwf : ∀ p ∈ ps, wellFormedField B p)
    (hs : c.stream = ("--".toList ++ B) ++ '\r' :: '\n' :: (formParts B ps ++ rest))
    (hw : c.wire.length ≤ c.timeout) (fuel : Nat) (hf : formFuel ps ≤ fuel) :
    ∃ s' c', _parseForm cfg fuel s c B len = some (true, s', c')
      ∧ s'._currentArgs
          = ps.map fieldArgument
              ++ s._currentArgs.take (min (WEBSERVER_MAX_POST_ARGS - ps.length)
                  s._currentArgs.length)
      ∧ c'.stream = rest := by
  have hline_cr : '\r' ∉ "--".toList ++ B := by
    intro hm
    rcases List.mem_append.mp hm with h | h
    · revert h; decide
    · exact hB h
  obtain ⟨c1, p1, p2, p3⟩ := preambleLoop_boundary_line c ("--".toList ++ B)
    (formParts B ps ++ rest) hs hw (by simp) hline_cr (isBytes_append (by decide) hBb)
  obtain ⟨c', q1, q2⟩ := partsLoop_field_parts cfg B len hB hBb ps
    { s with _postArgs := [] } (readStringUntil c1 '\n').2 rest fuel hne hwf
    p2 (by rw [p3.1]; exact Nat.le_trans p3.2.2 hw) hf
  have hpre : (preambleLoop 2 c).1 = "--".toList ++ B := by rw [p1]
  have e := parseForm_of_parts_done cfg fuel s c B len _ c' hpre (by rw [p1]; exact q1)
  refine ⟨_, c', e, ?_, q2⟩
  rw [mergeArgs_currentArgs]
  simp

theorem manyFields_wellFormed (n : Nat) : ∀ p ∈ manyFields n, wellFormedField "XY".toList p := by
  intro p hp
  have : p = ("a".toList, ["b".toList]) := List.eq_of_mem_replicate hp
  rw [this]
  decide

theorem manyFields_formFuel (n : Nat) : formFuel (manyFields n) = 2 * n + 1 := by
  induction n with
  | zero => rfl
  | succ k ih =>
    have : manyFields (k + 1) = ("a".toList, ["b".toList]) :: manyFields k := rfl
    rw [this, formFuel, ih]
    simp only [List.length_cons, List.length_nil]
    omega

/-- C26 fails on the code.  The form body has 33 field parts `a = b` under
the boundary `XY`; the table `_postArgs` has `WEBSERVER_MAX_POST_ARGS` = 32
cells.  The store `_postArgs[_postArgsLen++]` of a field has no test of
`_postArgsLen`, unlike the append of the search string, which is limited to
`WEBSERVER_MAX_POST_ARGS - _postArgsLen` arguments.  `_parseForm` returns
`true` with 33 arguments, all of them from the parts: the store of the last
part is at index 32, and none of the arguments of the search string is
appended.  The same holds for every number of parts above 32. -/
theorem parseForm_stores_beyond_capacity :
    (∃ s' c', _parseForm sampleConfig 67 sampleServer (manyFieldsClient 33) "XY".toList 0
        = some (true, s', c')
      ∧ s'._currentArgs = (manyFields 33).map fieldArgument
      ∧ s'._currentArgs.length = 33)
    ∧ WEBSERVER_MAX_POST_ARGS = 32
    ∧ (∀ n, 32 < n →
        ∃ s' c', _parseForm sampleConfig (2 * n + 1) sampleServer (manyFieldsClient n)
            "XY".toList 0 = some (true, s', c')
          ∧ s'._currentArgs.length = n) := by
  have key : ∀ n, 32 < n →
      ∃ s' c', _parseForm sampleConfig (2 * n + 1) sampleServer (manyFieldsClient n)
          "XY".toList 0 = some (true, s', c')
        ∧ s'._currentArgs = (manyFields n).map fieldArgument := by
    intro n hn
    have hne : manyFields n ≠ [] := by
      intro h
      have : (manyFields n).length = n := List.length_replicate _ _
      rw [h] at this
      simp at this
      omega
    obtain ⟨s', c', h1, h2, _⟩ := parseForm_of_field_parts sampleConfig 0 sampleServer
      (manyFieldsClient n) "XY".toList (manyFields n) [] (by decide) (by decide) hne
      (manyFields_wellFormed n) (by simp [manyFieldsClient, EthernetClient.stream])
      (Nat.zero_le _) (2 * n + 1) (by rw [manyFields_formFuel])
    refine ⟨s', c', h1, ?_⟩
    rw [h2]
    have hlen : (manyFields n).length = n := List.length_replicate _ _
    have : WEBSERVER_MAX_POST_ARGS - (manyFields n).length = 0 := by
      rw [hlen]; unfold WEBSERVER_MAX_POST_ARGS; omega
    rw [this]
    simp
  refine ⟨?_, rfl, ?_⟩
  · obtain ⟨s', c', h1, h2⟩ := key 33 (by decide)
    refine ⟨s', c', h1, h2, ?_⟩
    rw [h2]
    rfl
  · intro n hn
    obtain ⟨s', c', h1, h2⟩ := key n hn
    refine ⟨s', c', h1, ?_⟩
    rw [h2, List.length_map]
    exact List.length_replicate _ _

end EthernetWebServer
